import Mathlib

/-!
magiskbase: directory walkers, tree operations, backup and restore.

A verification development over a shallow embedding of
`magiskbase/files.cpp` and `magiskbase/xwrap.cpp`.

Conventions of the embedding

* A directory stream (what `xopen_dir` + `xreaddir` deliver for one open
  directory) is a `Listing`: the entries in `readdir` order, `.` and `..`
  already filtered by `xreaddir`, each entry carrying the listing of the
  directory it names and whether `openat` on it succeeds. The walkers and the
  tree operations recurse over the listing of their source directory.
* The table of open descriptors is explicit (`FdTable`): `open` hands out the
  lowest free number, `close` releases it, and a `close` of a non-negative
  number that is not open is counted.
* A visitor is a function of the descriptor table (read only), the directory
  descriptor, the entry and its own state.
* The filesystem is a tree of inodes (`Fs`) inside the state `Sys` of the
  system calls. Path resolution follows symbolic links the way the calls do:
  `open`, `chmod`, `chown` and `access` follow a link in the last component,
  `lstat`, `readlink`, `lsetfilecon`, `mkdir`, `unlink`, `rename`, `symlink`
  and `link` do not. The caller is privileged.
* C character buffers are lists of bytes; a C string ends at the first `NUL`.
-/

namespace Magisk

/-! ## Traversal results, directory entries, listings -/

/-- The visitor result of `pre_order_walk` (files.cpp, `enum walk_result`). -/
inductive walk_result
  | CONTINUE
  | SKIP
  | ABORT
deriving DecidableEq, Repr

open walk_result

/-- Value of `d_type` for a directory. -/
def DT_DIR : Nat := 4
/-- Value of `d_type` for a regular file. -/
def DT_REG : Nat := 8
/-- Value of `d_type` for a symbolic link. -/
def DT_LNK : Nat := 10

/-- The fields of `struct dirent` the library reads. -/
structure dirent where
  d_name : String
  d_type : Nat
deriving DecidableEq, Repr

/-- The entries `xreaddir` yields for one open directory, in order.  For each
entry: the `dirent`, whether `openat(dirfd, d_name, O_RDONLY | O_CLOEXEC)`
succeeds, the listing of the directory the entry names, and the entries that
follow it. -/
inductive Listing
  | done : Listing
  | entry (e : dirent) (opens : Bool) (sub : Listing) (rest : Listing) : Listing
deriving DecidableEq, Repr

/-- A path as the list of its components below the root directory. -/
abbrev Path := List String

/-! ## The table of open descriptors -/

/-- Open descriptors with the path of the object each refers to, and the
number of `close` calls that hit a non-negative descriptor that was not open. -/
structure FdTable where
  slots : List (Nat × Path)
  stray : Nat
deriving DecidableEq, Repr

/-- The lowest descriptor number not in use: among `0 .. n` for a table of
`n` descriptors one number is always free. -/
def FdTable.lowest (t : FdTable) : Nat :=
  ((List.range (t.slots.length + 1)).find?
    (fun k => decide (k ∉ t.slots.map Prod.fst))).getD 0

/-- The path behind descriptor `fd`, or `none` when `fd` is not open. -/
def FdTable.lookup (t : FdTable) (fd : Int) : Option Path :=
  if fd < 0 then none
  else (t.slots.find? (fun s => s.1 = fd.toNat)).map Prod.snd

/-- A successful `open`: the lowest free number now refers to `p`. -/
def FdTable.alloc (t : FdTable) (p : Path) : Int × FdTable :=
  ((t.lowest : Int), { t with slots := (t.lowest, p) :: t.slots })

/-- The call `close(fd)`. -/
def FdTable.close (t : FdTable) (fd : Int) : FdTable :=
  if fd < 0 then t
  else match t.lookup fd with
    | some _ => { t with slots := t.slots.filter (fun s => s.1 ≠ fd.toNat) }
    | none => { t with stray := t.stray + 1 }

/-! ## The two walkers (files.cpp 71-111) -/

/-- A pre-order visitor `fn(dirfd, entry)`; it may read the descriptor table
and carries its own state. -/
abbrev Visitor (σ : Type) := FdTable → Int → dirent → σ → walk_result × σ

/-- A post-order visitor `fn(dirfd, entry)`; its result is not consulted. -/
abbrev PostVisitor (σ : Type) := FdTable → Int → dirent → σ → σ

/-- The call `xopenat(dirfd, entry->d_name, O_RDONLY | O_CLOEXEC)` of the
walkers on the entry just read: it fails when `dirfd` is not open or the
entry cannot be opened, and then returns `-1`. -/
def xopenat (t : FdTable) (dirfd : Int) (name : String) (opens : Bool) : Int × FdTable :=
  match t.lookup dirfd with
  | some p => if opens then t.alloc (p ++ [name]) else (-1, t)
  | none => (-1, t)

/-- The frame of `pre_order_walk` around its loop: `xopen_dir(dirfd)`, the
early `close(dirfd); return SKIP;` when there is no stream, and the `closedir`
that the `sDIR` destructor runs on every other return. -/
def pre_order_walk_frame {σ : Type} (dirfd : Int)
    (loop : FdTable × σ → walk_result × (FdTable × σ))
    (s : FdTable × σ) : walk_result × (FdTable × σ) :=
  match s.1.lookup dirfd with
  | none => (SKIP, (s.1.close dirfd, s.2))
  | some _ =>
    let r := loop s
    (r.1, (r.2.1.close dirfd, r.2.2))

/-- The `for` loop of `pre_order_walk` over the entries of the stream. -/
def pre_order_loop {σ : Type} (fn : Visitor σ) (dirfd : Int) :
    Listing → FdTable × σ → walk_result × (FdTable × σ)
  | Listing.done, s => (CONTINUE, s)
  | Listing.entry e opens sub rest, s =>
    match fn s.1 dirfd e s.2 with
    | (SKIP, u) => pre_order_loop fn dirfd rest (s.1, u)
    | (ABORT, u) => (ABORT, (s.1, u))
    | (CONTINUE, u) =>
      if e.d_type = DT_DIR then
        let o := xopenat s.1 dirfd e.d_name opens
        let r := pre_order_walk_frame o.1 (pre_order_loop fn o.1 sub) (o.2, u)
        if r.1 = ABORT then (ABORT, r.2)
        else pre_order_loop fn dirfd rest r.2
      else pre_order_loop fn dirfd rest (s.1, u)

/-- The function `pre_order_walk(dirfd, fn)`; `l` is the listing of the
directory `dirfd` refers to. -/
def pre_order_walk {σ : Type} (fn : Visitor σ) (dirfd : Int) (l : Listing)
    (s : FdTable × σ) : walk_result × (FdTable × σ) :=
  pre_order_walk_frame dirfd (pre_order_loop fn dirfd l) s

/-- The frame of `post_order_walk`: `xopen_dir(dirfd)`, `if (!dir) return;`,
and the `closedir` of the `sDIR` destructor. -/
def post_order_walk_frame {σ : Type} (dirfd : Int)
    (loop : FdTable × σ → FdTable × σ) (s : FdTable × σ) : FdTable × σ :=
  match s.1.lookup dirfd with
  | none => s
  | some _ =>
    let r := loop s
    (r.1.close dirfd, r.2)

/-- The `for` loop of `post_order_walk`. -/
def post_order_loop {σ : Type} (fn : PostVisitor σ) (dirfd : Int) :
    Listing → FdTable × σ → FdTable × σ
  | Listing.done, s => s
  | Listing.entry e opens sub rest, s =>
    let s1 :=
      if e.d_type = DT_DIR then
        let o := xopenat s.1 dirfd e.d_name opens
        post_order_walk_frame o.1 (post_order_loop fn o.1 sub) (o.2, s.2)
      else s
    post_order_loop fn dirfd rest (s1.1, fn s1.1 dirfd e s1.2)

/-- The function `post_order_walk(dirfd, fn)`. -/
def post_order_walk {σ : Type} (fn : PostVisitor σ) (dirfd : Int) (l : Listing)
    (s : FdTable × σ) : FdTable × σ :=
  post_order_walk_frame dirfd (post_order_loop fn dirfd l) s

/-! ## Observing a walk -/

/-- One invocation of a pre-order visitor: the path of the entry (the path of
the directory behind `dirfd`, then `d_name`), the entry, and the result the
visitor returned. -/
structure Visit where
  path : Path
  ent : dirent
  res : walk_result
deriving DecidableEq, Repr

/-- The visitor `fn`, recording each of its invocations in call order. -/
def logged {σ : Type} (fn : Visitor σ) : Visitor (σ × List Visit) :=
  fun t dirfd e s =>
    let r := fn t dirfd e s.1
    (r.1, (r.2, s.2 ++ [⟨(t.lookup dirfd).getD [] ++ [e.d_name], e, r.1⟩]))

/-- The post-order visitor `fn`, recording the path of each entry it is
invoked on, in call order. -/
def loggedPost {σ : Type} (fn : PostVisitor σ) : PostVisitor (σ × List Path) :=
  fun t dirfd e s =>
    (fn t dirfd e s.1, s.2 ++ [(t.lookup dirfd).getD [] ++ [e.d_name]])

/-- The paths of all entries of the tree below the directory `p`, at every
depth. Only entries of type `DT_DIR` have entries inside them. -/
def Listing.entries (p : Path) : Listing → List Path
  | Listing.done => []
  | Listing.entry e _ sub rest =>
    (p ++ [e.d_name]) ::
      ((if e.d_type = DT_DIR then sub.entries (p ++ [e.d_name]) else []) ++ rest.entries p)

/-- The names of the entries directly in a listing. -/
def Listing.names : Listing → List String
  | Listing.done => []
  | Listing.entry e _ _ rest => e.d_name :: rest.names

/-- Every directory of the tree can be opened. -/
def Listing.allOpen : Listing → Bool
  | Listing.done => true
  | Listing.entry e opens sub rest =>
    (if e.d_type = DT_DIR then opens && sub.allOpen else true) && rest.allOpen

/-- The paths of the directory entries of the tree that cannot be opened. -/
def Listing.closedDirs (p : Path) : Listing → List Path
  | Listing.done => []
  | Listing.entry e opens sub rest =>
    (if e.d_type = DT_DIR then
      (if opens then [] else [p ++ [e.d_name]]) ++ sub.closedDirs (p ++ [e.d_name])
    else []) ++ rest.closedDirs p

/-- The pairs `(x, y)` of entries of the tree that lie in the same directory,
`y` later than `x` in `readdir` order. -/
def Listing.laterSiblings (p : Path) : Listing → List (Path × Path)
  | Listing.done => []
  | Listing.entry e _ sub rest =>
    rest.names.map (fun m => (p ++ [e.d_name], p ++ [m])) ++
      ((if e.d_type = DT_DIR then sub.laterSiblings (p ++ [e.d_name]) else []) ++
        rest.laterSiblings p)

/-- The entry at path `x` lies inside the directory at path `d`, at any depth. -/
def inside (d x : Path) : Prop := d <+: x ∧ d ≠ x

instance (d x : Path) : Decidable (inside d x) := by
  unfold inside; infer_instance

/-- The runs of the loop of `pre_order_walk` over a listing below directory
`p`: the invocations in order and the value the loop returns. -/
inductive PreRun : Path → Listing → List Visit → walk_result → Prop
  | done (p : Path) : PreRun p Listing.done [] CONTINUE
  | skip {p e o sub rest tr r} :
      PreRun p rest tr r →
      PreRun p (Listing.entry e o sub rest) (⟨p ++ [e.d_name], e, SKIP⟩ :: tr) r
  | abort {p e o sub rest} :
      PreRun p (Listing.entry e o sub rest) [⟨p ++ [e.d_name], e, ABORT⟩] ABORT
  | pass {p e o sub rest tr r} :
      (e.d_type ≠ DT_DIR ∨ o = false) → PreRun p rest tr r →
      PreRun p (Listing.entry e o sub rest) (⟨p ++ [e.d_name], e, CONTINUE⟩ :: tr) r
  | down {p e sub rest tr1 tr2 r} :
      e.d_type = DT_DIR → PreRun (p ++ [e.d_name]) sub tr1 CONTINUE → PreRun p rest tr2 r →
      PreRun p (Listing.entry e true sub rest)
        (⟨p ++ [e.d_name], e, CONTINUE⟩ :: (tr1 ++ tr2)) r
  | downAbort {p e sub rest tr1} :
      e.d_type = DT_DIR → PreRun (p ++ [e.d_name]) sub tr1 ABORT →
      PreRun p (Listing.entry e true sub rest)
        (⟨p ++ [e.d_name], e, CONTINUE⟩ :: tr1) ABORT

/-- The entries of the tree that do not lie inside a directory that cannot be
opened, each directory before its content. -/
def Listing.reach (p : Path) : Listing → List Path
  | Listing.done => []
  | Listing.entry e opens sub rest =>
    (p ++ [e.d_name]) ::
      ((if e.d_type = DT_DIR ∧ opens = true then sub.reach (p ++ [e.d_name]) else []) ++
        rest.reach p)

/-- The entries of the tree that do not lie inside a directory that cannot be
opened, each directory after its content. -/
def Listing.reachPost (p : Path) : Listing → List Path
  | Listing.done => []
  | Listing.entry e opens sub rest =>
    ((if e.d_type = DT_DIR ∧ opens = true then sub.reachPost (p ++ [e.d_name]) else []) ++
      [p ++ [e.d_name]]) ++ rest.reachPost p

/-- The invocations of `fn` during `pre_order_walk(dirfd, fn)`, in call order. -/
def preVisits {σ : Type} (fn : Visitor σ) (dirfd : Int) (l : Listing) (t : FdTable) (s : σ) :
    List Visit :=
  (pre_order_walk (logged fn) dirfd l (t, (s, []))).2.2.2

/-- The paths of the entries `fn` is invoked on during
`post_order_walk(dirfd, fn)`, in call order. -/
def postVisits {σ : Type} (fn : PostVisitor σ) (dirfd : Int) (l : Listing) (t : FdTable)
    (s : σ) : List Path :=
  (post_order_walk (loggedPost fn) dirfd l (t, (s, []))).2.2

/-! ## A model filesystem -/

/-- Mask of the file-type bits of `st_mode`. -/
def S_IFMT : Nat := 0o170000
/-- File-type bits of a directory. -/
def S_IFDIR : Nat := 0o040000
/-- File-type bits of a regular file. -/
def S_IFREG : Nat := 0o100000
/-- File-type bits of a symbolic link. -/
def S_IFLNK : Nat := 0o120000

/-- The macro `S_ISDIR`. -/
def S_ISDIR (m : Nat) : Bool := m &&& S_IFMT == S_IFDIR
/-- The macro `S_ISREG`. -/
def S_ISREG (m : Nat) : Bool := m &&& S_IFMT == S_IFREG
/-- The macro `S_ISLNK`. -/
def S_ISLNK (m : Nat) : Bool := m &&& S_IFMT == S_IFLNK
/-- The macro `IFTODT`: the `d_type` that `readdir` reports for a file of mode `m`. -/
def IFTODT (m : Nat) : Nat := (m &&& S_IFMT) >>> 12

/-- Flag `O_RDONLY`. -/
def O_RDONLY : Nat := 0
/-- Flag `O_WRONLY`. -/
def O_WRONLY : Nat := 0o1
/-- Flag `O_CREAT`. -/
def O_CREAT : Nat := 0o100
/-- Flag `O_TRUNC`. -/
def O_TRUNC : Nat := 0o1000
/-- Flag `O_CLOEXEC`. -/
def O_CLOEXEC : Nat := 0o2000000
/-- Flag `AT_REMOVEDIR`. -/
def AT_REMOVEDIR : Nat := 0x200

/-- Error number `ENOENT`. -/
def ENOENT : Nat := 2
/-- Error number `EEXIST`. -/
def EEXIST : Nat := 17
/-- Error number `ENAMETOOLONG`. -/
def ENAMETOOLONG : Nat := 36

/-- The longest name of a directory entry, in bytes (`NAME_MAX`). -/
def NAME_MAX : Nat := 255

/-- The size of the path buffers of the library (`PATH_MAX`, and the literal
`4096` of `char buf[4096]`). -/
def PATH_MAX : Nat := 4096

/-- What the filesystem stores for one file: inode number, `st_mode` (type and
permission bits), owner, group, security label, and the bytes of a regular
file or the target of a symbolic link. -/
structure Inode where
  ino : Nat
  mode : Nat
  uid : Nat
  gid : Nat
  con : String
  data : String
deriving DecidableEq, Repr

/-- The content of a directory: its entries in `readdir` order, each with its
name, its inode and, for a directory, its own content. -/
inductive Fs
  | nil : Fs
  | cons (name : String) (i : Inode) (sub : Fs) (rest : Fs) : Fs
deriving DecidableEq, Repr

/-- The inode of the root directory. -/
def root_inode : Inode := ⟨2, S_IFDIR ||| 0o755, 0, 0, "", ""⟩

/-- The entry called `name` directly in a directory. -/
def Fs.find (name : String) : Fs → Option (Inode × Fs)
  | Fs.nil => none
  | Fs.cons n i sub rest => if n = name then some (i, sub) else rest.find name

/-- The file at a path below the root, no symbolic link followed. -/
def Fs.get : Fs → Path → Option (Inode × Fs)
  | fs, [] => some (root_inode, fs)
  | fs, n :: p =>
    match fs.find n with
    | none => none
    | some (i, sub) =>
      if p.isEmpty then some (i, sub)
      else if S_ISDIR i.mode then sub.get p else none

/-- Apply `f` to the content of the directory at path `p`. -/
def Fs.modifyDir (f : Fs → Fs) : Fs → Path → Fs
  | fs, [] => f fs
  | Fs.nil, _ :: _ => Fs.nil
  | Fs.cons n i sub rest, m :: p =>
    if n = m then
      (if S_ISDIR i.mode then Fs.cons n i (Fs.modifyDir f sub p) rest else Fs.cons n i sub rest)
    else Fs.cons n i sub (Fs.modifyDir f rest (m :: p))

/-- Add an entry at the end of a directory. -/
def Fs.append (name : String) (i : Inode) (sub : Fs) : Fs → Fs
  | Fs.nil => Fs.cons name i sub Fs.nil
  | Fs.cons n j s rest => Fs.cons n j s (Fs.append name i sub rest)

/-- Remove the entry called `name` from a directory. -/
def Fs.erase (name : String) : Fs → Fs
  | Fs.nil => Fs.nil
  | Fs.cons n j s rest => if n = name then rest else Fs.cons n j s (rest.erase name)

/-- Change the inode of the entry called `name` of a directory. -/
def Fs.update (name : String) (g : Inode → Inode) : Fs → Fs
  | Fs.nil => Fs.nil
  | Fs.cons n j s rest =>
    if n = name then Fs.cons n (g j) s rest else Fs.cons n j s (rest.update name g)

/-- Change the inode of the file at path `p`; the root directory is left alone. -/
def Fs.setInode (fs : Fs) (p : Path) (g : Inode → Inode) : Fs :=
  match p.getLast? with
  | none => fs
  | some name => Fs.modifyDir (Fs.update name g) fs p.dropLast

/-- The directory stream of a directory: for a privileged caller every
directory of the tree opens. -/
def Fs.listing : Fs → Listing
  | Fs.nil => Listing.done
  | Fs.cons n i sub rest =>
    Listing.entry ⟨n, IFTODT i.mode⟩ true sub.listing rest.listing

/-- The pieces of a path string between its `/` characters. -/
def pieces : List Char → List String
  | [] => [""]
  | c :: cs =>
    match pieces cs with
    | [] => [""]
    | w :: ws => if c = '/' then "" :: w :: ws else String.mk (c :: w.data) :: ws

/-- The absolute path string of a path. -/
def pathStr : Path → String
  | [] => "/"
  | c :: p => p.foldl (fun acc x => acc ++ "/" ++ x) ("/" ++ c)

/-- Where a stretch of path resolution ends: at a file or with an error
(`stop`), or at a symbolic link that is to be expanded, with the directory and
the components the resolution goes on with (`jump`). -/
inductive Reached
  | stop (r : Option Path)
  | jump (cur : Path) (comps : List String)
deriving DecidableEq, Repr

/-- Path resolution from directory `cur` over the remaining components, up to
the first symbolic link it has to expand: `.` and empty components are passed
over, `..` steps to the parent, a symbolic link is replaced by its target
(always inside the path, at the last component only when `follow` is set). -/
def Fs.walkTo (fs : Fs) (follow : Bool) : Path → List String → Reached
  | cur, [] => Reached.stop (if (fs.get cur).isSome then some cur else none)
  | cur, c :: rest =>
    if c = "" ∨ c = "." then fs.walkTo follow cur rest
    else if c = ".." then fs.walkTo follow cur.dropLast rest
    else
      match fs.get cur, fs.get (cur ++ [c]) with
      | some (d, _), some (i, _) =>
        if ¬ S_ISDIR d.mode then Reached.stop none
        else if S_ISLNK i.mode ∧ (follow ∨ rest.any (fun x => x ≠ "" ∧ x ≠ ".")) then
          Reached.jump (if i.data.data.head? = some '/' then [] else cur)
            (pieces i.data.data ++ rest)
        else fs.walkTo follow (cur ++ [c]) rest
      | _, _ => Reached.stop none

/-- Path resolution: the path of the file reached. Each symbolic link that is
expanded uses one unit of `fuel`; running out is the error `ELOOP`. A path
without symbolic links resolves whatever its length. -/
def Fs.walk (fs : Fs) : Nat → Path → List String → Bool → Option Path
  | 0, cur, comps, follow =>
    match fs.walkTo follow cur comps with
    | Reached.stop r => r
    | Reached.jump _ _ => none
  | fuel + 1, cur, comps, follow =>
    match fs.walkTo follow cur comps with
    | Reached.stop r => r
    | Reached.jump c cs => fs.walk fuel c cs follow

/-- The number of symbolic links one path resolution expands at most. -/
def MAXSYMLINKS : Nat := 40

/-- The state the system calls act on: the filesystem, the next free inode
number, the identity and `umask` of the calling process, the security label a
new file receives, `errno` as left by the last failing `mkdir` (the one call
whose `errno` the library inspects), and whether the library was compiled for
`__i386__` / `__x86_64__`. The caller is privileged: permission bits never
make a call fail. -/
structure Sys where
  fs : Fs
  next_ino : Nat
  euid : Nat
  egid : Nat
  umask : Nat
  newcon : String
  errno : Nat
  x86 : Bool
deriving DecidableEq, Repr

/-- Whether a path string is absolute. -/
def isAbs (path : String) : Bool := path.data.head? = some '/'

/-- The file a path string names, relative paths starting at `base` (the
directory of a descriptor; `none` for a descriptor that is not open). -/
def Sys.resolve (k : Sys) (base : Option Path) (path : String) (follow : Bool) : Option Path :=
  if path = "" then none
  else if isAbs path then k.fs.walk MAXSYMLINKS [] (pieces path.data) follow
  else match base with
    | some b => k.fs.walk MAXSYMLINKS b (pieces path.data) follow
    | none => none

/-- The components of a path string that name something. -/
def realPieces (path : String) : List String :=
  (pieces path.data).filter (fun c => decide (c ≠ "" ∧ c ≠ "."))

/-- The directory in which a path string names an entry, and the name of that
entry: all components but the last are resolved, the directory must exist. -/
def Sys.resolveParent (k : Sys) (base : Option Path) (path : String) : Option (Path × String) :=
  match (realPieces path).getLast? with
  | none => none
  | some name =>
    if name = ".." then none
    else
      match (if isAbs path then some [] else base) with
      | none => none
      | some b =>
        match k.fs.walk MAXSYMLINKS b (realPieces path).dropLast true with
        | none => none
        | some par =>
          match k.fs.get par with
          | some (d, _) => if S_ISDIR d.mode then some (par, name) else none
          | none => none

/-- The inode of a file created now with the given mode and content. -/
def Sys.fresh (k : Sys) (mode : Nat) (data : String) : Inode :=
  ⟨k.next_ino, mode, k.euid, k.egid, k.newcon, data⟩

/-- The permission bits a creating call passes, after `umask`. -/
def Sys.masked (k : Sys) (mode : Nat) : Nat :=
  (mode &&& 0o7777) &&& (0o7777 ^^^ (k.umask &&& 0o7777))

/-- The mode bits `mkdir` gives a new directory: the permission bits and the
sticky bit of `mode` that `umask` leaves; the set-user-ID and set-group-ID bits
of `mode` are dropped. -/
def Sys.masked_dir (k : Sys) (mode : Nat) : Nat :=
  (mode &&& 0o1777) &&& (0o7777 ^^^ (k.umask &&& 0o7777))

/-- Add a new entry `name` to the directory `par`. -/
def Sys.create (k : Sys) (par : Path) (name : String) (mode : Nat) (data : String) : Sys :=
  { k with
    fs := Fs.modifyDir (Fs.append name (k.fresh mode data) Fs.nil) k.fs par
    next_ino := k.next_ino + 1 }

/-- The system call `openat` (and `open`, with `base` the working directory).
The last component is followed when it is a symbolic link. With `O_CREAT` a
missing file is created in an existing directory; a name that exists but does
not resolve (a dangling link) makes the call fail. -/
def Sys.openat (k : Sys) (t : FdTable) (base : Option Path) (path : String)
    (flags mode : Nat) : Int × FdTable × Sys :=
  match k.resolve base path true with
  | some q =>
    match k.fs.get q with
    | none => (-1, t, k)
    | some (i, _) =>
      if S_ISDIR i.mode ∧ (flags &&& 3 ≠ O_RDONLY ∨ flags &&& O_CREAT ≠ 0) then (-1, t, k)
      else
        let k1 :=
          if flags &&& O_TRUNC ≠ 0 ∧ flags &&& 3 ≠ O_RDONLY ∧ S_ISREG i.mode = true then
            { k with fs := k.fs.setInode q (fun j => { j with data := "" }) }
          else k
        ((t.alloc q).1, (t.alloc q).2, k1)
  | none =>
    if flags &&& O_CREAT ≠ 0 then
      match k.resolveParent base path with
      | some (par, name) =>
        if (k.fs.get (par ++ [name])).isSome then (-1, t, k)
        else
          ((t.alloc (par ++ [name])).1, (t.alloc (par ++ [name])).2,
            k.create par name (S_IFREG ||| k.masked mode) "")
      | none => (-1, t, k)
    else (-1, t, k)

/-- The wrapper `xopen(pathname, flags, mode)`; the working directory is the root. -/
def Sys.xopen (k : Sys) (t : FdTable) (path : String) (flags : Nat) (mode : Nat) :
    Int × FdTable × Sys :=
  k.openat t (some []) path flags mode

/-- The wrapper `xopenat(dirfd, pathname, flags, mode)` on the filesystem. -/
def Sys.xopenat (k : Sys) (t : FdTable) (dirfd : Int) (path : String) (flags : Nat)
    (mode : Nat) : Int × FdTable × Sys :=
  k.openat t (t.lookup dirfd) path flags mode

/-- The inode `lstat(path)` reports. -/
def Sys.lstat (k : Sys) (path : String) : Option Inode :=
  (k.resolve (some []) path false).bind (fun q => (k.fs.get q).map Prod.fst)

/-- The inode `fstat(fd)` reports. -/
def Sys.fstat (k : Sys) (t : FdTable) (fd : Int) : Option Inode :=
  (t.lookup fd).bind (fun q => (k.fs.get q).map Prod.fst)

/-- Set the permission bits of the file at path `q`. -/
def Sys.chmodAt (k : Sys) (q : Path) (m : Nat) : Sys :=
  { k with
    fs := k.fs.setInode q (fun i => { i with mode := (i.mode &&& S_IFMT) ||| (m &&& 0o7777) }) }

/-- Set owner and group of the file at path `q`. -/
def Sys.chownAt (k : Sys) (q : Path) (uid gid : Nat) : Sys :=
  { k with fs := k.fs.setInode q (fun i => { i with uid := uid, gid := gid }) }

/-- Set the security label of the file at path `q`. -/
def Sys.setconAt (k : Sys) (q : Path) (con : String) : Sys :=
  { k with fs := k.fs.setInode q (fun i => { i with con := con }) }

/-- The system call `chmod(path, mode)`; it follows symbolic links. -/
def Sys.chmod (k : Sys) (path : String) (m : Nat) : Int × Sys :=
  match k.resolve (some []) path true with
  | none => (-1, k)
  | some q => (0, k.chmodAt q m)

/-- The system call `chown(path, uid, gid)`; it follows symbolic links. -/
def Sys.chown (k : Sys) (path : String) (uid gid : Nat) : Int × Sys :=
  match k.resolve (some []) path true with
  | none => (-1, k)
  | some q => (0, k.chownAt q uid gid)

/-- The call `lsetfilecon(path, con)`; it does not follow symbolic links. -/
def Sys.lsetfilecon (k : Sys) (path : String) (con : String) : Int × Sys :=
  match k.resolve (some []) path false with
  | none => (-1, k)
  | some q => (0, k.setconAt q con)

/-- The system call `fchmod(fd, mode)`. -/
def Sys.fchmod (k : Sys) (t : FdTable) (fd : Int) (m : Nat) : Int × Sys :=
  match t.lookup fd with
  | none => (-1, k)
  | some q => if (k.fs.get q).isSome then (0, k.chmodAt q m) else (-1, k)

/-- The system call `fchown(fd, uid, gid)`. -/
def Sys.fchown (k : Sys) (t : FdTable) (fd : Int) (uid gid : Nat) : Int × Sys :=
  match t.lookup fd with
  | none => (-1, k)
  | some q => if (k.fs.get q).isSome then (0, k.chownAt q uid gid) else (-1, k)

/-- The call `fsetfilecon(fd, con)`. -/
def Sys.fsetfilecon (k : Sys) (t : FdTable) (fd : Int) (con : String) : Int × Sys :=
  match t.lookup fd with
  | none => (-1, k)
  | some q => if (k.fs.get q).isSome then (0, k.setconAt q con) else (-1, k)

/-- The system call `mkdirat` (and `mkdir`); on failure it sets `errno`. A path
of `PATH_MAX` bytes or more fails with `ENAMETOOLONG`, and so does a path with
a component of more than `NAME_MAX` bytes when the components before the first
such one lead to a directory (`ENOENT` when they do not). A path that names the
root, or ends in `..` and resolves, exists already. The new directory has the
mode `S_IFDIR | (mode & ~umask & 01777)`. -/
def Sys.mkdirat (k : Sys) (base : Option Path) (path : String) (mode : Nat) : Int × Sys :=
  if PATH_MAX ≤ path.length then (-1, { k with errno := ENAMETOOLONG })
  else if (realPieces path).any (fun c => decide (NAME_MAX < c.length)) then
    (-1, { k with errno :=
      match (if isAbs path then some [] else base) with
      | none => ENOENT
      | some b =>
        match k.fs.walk MAXSYMLINKS b
            ((realPieces path).takeWhile (fun c => decide (c.length ≤ NAME_MAX))) true with
        | none => ENOENT
        | some par =>
          match k.fs.get par with
          | some (d, _) => if S_ISDIR d.mode then ENAMETOOLONG else ENOENT
          | none => ENOENT })
  else if path ≠ "" ∧ realPieces path = [] ∧ (isAbs path ∨ base.isSome) then
    (-1, { k with errno := EEXIST })
  else if (realPieces path).getLast? = some ".." then
    (-1, { k with errno := if (k.resolve base path true).isSome then EEXIST else ENOENT })
  else
    match k.resolveParent base path with
    | none => (-1, { k with errno := ENOENT })
    | some (par, name) =>
      if (k.fs.get (par ++ [name])).isSome then (-1, { k with errno := EEXIST })
      else (0, k.create par name (S_IFDIR ||| k.masked_dir mode) "")

/-- The system call `symlinkat` (and `symlink`). -/
def Sys.symlinkat (k : Sys) (target : String) (base : Option Path) (linkpath : String) :
    Int × Sys :=
  if target = "" then (-1, k)
  else match k.resolveParent base linkpath with
  | none => (-1, k)
  | some (par, name) =>
    if (k.fs.get (par ++ [name])).isSome then (-1, k)
    else (0, k.create par name (S_IFLNK ||| 0o777) target)

/-- The target `readlinkat` (and `readlink`) reads, when the path names a
symbolic link. -/
def Sys.readlinkat (k : Sys) (base : Option Path) (path : String) : Option String :=
  match k.resolve base path false with
  | none => none
  | some q =>
    match k.fs.get q with
    | some (i, _) => if S_ISLNK i.mode then some i.data else none
    | none => none

/-- The system call `faccessat(dirfd, pathname, F_OK, 0)`. -/
def Sys.faccessat (k : Sys) (base : Option Path) (path : String) : Int :=
  if (k.resolve base path true).isSome then 0 else -1

/-- The system call `unlinkat(dirfd, pathname, flags)`: with `AT_REMOVEDIR`
it removes an empty directory, without it a file that is not a directory. -/
def Sys.unlinkat (k : Sys) (base : Option Path) (path : String) (flags : Nat) : Int × Sys :=
  match k.resolveParent base path with
  | none => (-1, k)
  | some (par, name) =>
    match k.fs.get (par ++ [name]) with
    | none => (-1, k)
    | some (i, sub) =>
      if flags &&& AT_REMOVEDIR ≠ 0 then
        if S_ISDIR i.mode ∧ sub = Fs.nil then
          (0, { k with fs := Fs.modifyDir (Fs.erase name) k.fs par })
        else (-1, k)
      else if S_ISDIR i.mode then (-1, k)
      else (0, { k with fs := Fs.modifyDir (Fs.erase name) k.fs par })

/-- The system call `renameat(olddirfd, oldpath, newdirfd, newpath)`: the
entry moves with everything below it; an existing target is replaced when it
is a file and the source is one, or an empty directory and the source is a
directory; a directory does not move below itself. When the two names are
links of one inode (the same inode number) nothing is done and the call
returns 0. -/
def Sys.renameat (k : Sys) (oldbase : Option Path) (oldpath : String)
    (newbase : Option Path) (newpath : String) : Int × Sys :=
  match k.resolveParent oldbase oldpath, k.resolveParent newbase newpath with
  | some (op, oname), some (np, nn) =>
    match k.fs.get (op ++ [oname]) with
    | none => (-1, k)
    | some (i, sub) =>
      if op ++ [oname] = np ++ [nn] then (0, k)
      else if (k.fs.get (np ++ [nn])).any (fun r => decide (r.1.ino = i.ino)) then (0, k)
      else if (op ++ [oname]) <+: np then (-1, k)
      else
        let ok :=
          match k.fs.get (np ++ [nn]) with
          | none => true
          | some (j, jsub) =>
            if S_ISDIR i.mode then S_ISDIR j.mode && decide (jsub = Fs.nil)
            else !S_ISDIR j.mode
        if ok then
          let fs1 := Fs.modifyDir (Fs.erase oname) k.fs op
          let fs2 := Fs.modifyDir (fun d => Fs.append nn i sub (d.erase nn)) fs1 np
          (0, { k with fs := fs2 })
        else (-1, k)
  | _, _ => (-1, k)

/-- The system call `linkat(olddirfd, oldpath, newdirfd, newpath, 0)`: a new
name for the inode `oldpath` names; `oldpath` is not followed when it is a
symbolic link, and a directory cannot be linked. -/
def Sys.linkat (k : Sys) (oldbase : Option Path) (oldpath : String)
    (newbase : Option Path) (newpath : String) : Int × Sys :=
  match k.resolve oldbase oldpath false, k.resolveParent newbase newpath with
  | some q, some (np, nn) =>
    match k.fs.get q with
    | none => (-1, k)
    | some (i, _) =>
      if S_ISDIR i.mode ∨ (k.fs.get (np ++ [nn])).isSome then (-1, k)
      else (0, { k with fs := Fs.modifyDir (Fs.append nn i Fs.nil) k.fs np })
  | _, _ => (-1, k)

/-- Append bytes to the regular file behind a descriptor (a write at the end
of the file); `-1` when the descriptor is not open on a regular file. -/
def Sys.write (k : Sys) (t : FdTable) (fd : Int) (bytes : String) : Int × Sys :=
  match t.lookup fd with
  | none => (-1, k)
  | some q =>
    match k.fs.get q with
    | some (i, _) =>
      if S_ISREG i.mode then
        ((bytes.length : Int),
          { k with fs := k.fs.setInode q (fun j => { j with data := j.data ++ bytes }) })
      else (-1, k)
    | none => (-1, k)

/-- All bytes a descriptor open on a regular file delivers from offset 0;
`none` when `read` fails. -/
def Sys.read (k : Sys) (t : FdTable) (fd : Int) : Option String :=
  match k.fstat t fd with
  | some i => if S_ISREG i.mode then some i.data else none
  | none => none

/-- The wrapper `xsendfile(out_fd, in_fd, nullptr, count)`: up to `count`
bytes of the input file are appended to the output file. -/
def Sys.xsendfile (k : Sys) (t : FdTable) (out_fd in_fd : Int) (count : Nat) : Int × Sys :=
  match k.read t in_fd with
  | none => (-1, k)
  | some bytes => k.write t out_fd (String.mk (bytes.data.take count))

/-! ## C strings and buffers -/

/-- The terminating byte of a C string. -/
def NUL : Char := Char.ofNat 0

/-- The C string that starts at the beginning of a buffer. -/
def cstr (b : List Char) : String := String.mk (b.takeWhile (fun c => c ≠ NUL))

/-- The function `strlen`. -/
def strlen (b : List Char) : Nat := (b.takeWhile (fun c => c ≠ NUL)).length

/-- Store the bytes `s` into a buffer from offset `off` on. -/
def poke (b : List Char) (off : Nat) (s : List Char) : List Char :=
  b.take off ++ s ++ b.drop (off + s.length)

/-- The call `snprintf(buf, size, "%s", s)`, and `strlcpy(buf, s, size)`: at
most `size - 1` bytes of `s` and a terminating `NUL`. -/
def snprintf (b : List Char) (size : Nat) (s : String) : List Char :=
  if size = 0 then b else poke b 0 (s.data.take (size - 1) ++ [NUL])

/-- The call `strlcpy(buf + off, s, size)`. -/
def strlcpy (b : List Char) (off : Nat) (s : String) (size : Nat) : List Char :=
  if size = 0 then b else poke b off (s.data.take (size - 1) ++ [NUL])

/-- The wrapper `xreadlink(pathname, buf, bufsiz)` (xwrap.cpp 398-406) given
what `readlink` reads: on success the first `min(len, bufsiz)` bytes of the
target are stored and then `buf[ret] = 0`. -/
def xreadlink (target : Option String) (buf : List Char) (bufsiz : Nat) : Int × List Char :=
  match target with
  | none => (-1, buf)
  | some s =>
    ((min s.length bufsiz : Nat),
      poke (poke buf 0 (s.data.take bufsiz)) (min s.length bufsiz) [NUL])

/-- The wrapper `xreadlinkat(dirfd, pathname, buf, bufsiz)` (xwrap.cpp
409-428) given what `readlinkat` reads: compiled for x86 the buffer is zeroed
first and nothing is stored after the call, elsewhere `buf[ret] = 0` follows a
successful call. -/
def xreadlinkat (x86 : Bool) (target : Option String) (buf : List Char) (bufsiz : Nat) :
    Int × List Char :=
  if x86 then
    match target with
    | none => (-1, poke buf 0 (List.replicate bufsiz NUL))
    | some s =>
      ((min s.length bufsiz : Nat),
        poke (poke buf 0 (List.replicate bufsiz NUL)) 0 (s.data.take bufsiz))
  else xreadlink target buf bufsiz

/-- The text `%d` prints for a descriptor. -/
def fmt_d (fd : Int) : String :=
  if fd < 0 then "-" ++ Nat.repr (-fd).toNat else Nat.repr fd.toNat

/-- The function `fd_path(fd, path, size)` (files.cpp 34-37): the link
`/proc/self/fd/<fd>` reads as the absolute path of the file the descriptor is
open on. -/
def fd_path (t : FdTable) (fd : Int) (path : List Char) (size : Nat) : Int × List Char :=
  xreadlink ((t.lookup fd).map pathStr) (snprintf path size ("/proc/self/fd/" ++ fmt_d fd)) size

/-- The function `fd_pathat(dirfd, name, path, size)` (files.cpp 39-46). -/
def fd_pathat (t : FdTable) (dirfd : Int) (name : String) (path : List Char) (size : Nat) :
    Int × List Char :=
  let r := fd_path t dirfd path size
  if r.1 < 0 then (-1, r.2)
  else
    let len := strlen r.2
    (0, strlcpy (poke r.2 len ['/']) (len + 1) name (size - len - 1))

/-- The wrapper `xrealpath(path, resolved_path)` (xwrap.cpp 651-660): `true`
when `realpath` succeeds, and then the resolved path is copied. -/
def xrealpath (k : Sys) (path : String) (resolved : List Char) : Bool × List Char :=
  match k.resolve (some []) path true with
  | none => (false, resolved)
  | some q => (true, poke resolved 0 ((pathStr q).data ++ [NUL]))

/-! ## The attribute layer (files.cpp 251-327) -/

/-- The fields of `struct stat` the library reads. -/
structure stat where
  st_ino : Nat
  st_mode : Nat
  st_uid : Nat
  st_gid : Nat
  st_size : Nat
deriving DecidableEq, Repr

/-- The structure `file_attr` (files.hpp 27-30). -/
structure file_attr where
  st : stat
  con : String
deriving DecidableEq, Repr

/-- What `lstat` / `fstat` store for an inode. -/
def Inode.stat (i : Inode) : stat := ⟨i.ino, i.mode, i.uid, i.gid, i.data.length⟩

/-- The function `getattr(path, a)`: `xlstat` and `lgetfilecon`; on failure
`*a` keeps what it held. -/
def getattr (k : Sys) (path : String) (a : file_attr) : Int × file_attr :=
  match k.lstat path with
  | none => (-1, a)
  | some i => (0, ⟨i.stat, i.con⟩)

/-- The function `getattrat(dirfd, name, a)`; the result of `fd_pathat` is not
checked. -/
def getattrat (k : Sys) (t : FdTable) (dirfd : Int) (name : String) (a : file_attr) :
    Int × file_attr :=
  getattr k (cstr (fd_pathat t dirfd name [] PATH_MAX).2) a

/-- The function `fgetattr(fd, a)`: `xfstat` and `fgetfilecon`. -/
def fgetattr (k : Sys) (t : FdTable) (fd : Int) (a : file_attr) : Int × file_attr :=
  match k.fstat t fd with
  | none => (-1, a)
  | some i => (0, ⟨i.stat, i.con⟩)

/-- The function `setattr(path, a)` (files.cpp 287-297). -/
def setattr (k : Sys) (path : String) (a : file_attr) : Int × Sys :=
  let r1 := k.chmod path (a.st.st_mode &&& 0o777)
  if r1.1 < 0 then (-1, r1.2)
  else
    let r2 := r1.2.chown path a.st.st_uid a.st.st_gid
    if r2.1 < 0 then (-1, r2.2)
    else if a.con ≠ "" then
      let r3 := r2.2.lsetfilecon path a.con
      if r3.1 < 0 then (-1, r3.2) else (0, r3.2)
    else (0, r2.2)

/-- The function `setattrat(dirfd, name, a)` (files.cpp 299-303). -/
def setattrat (k : Sys) (t : FdTable) (dirfd : Int) (name : String) (a : file_attr) :
    Int × Sys :=
  setattr k (cstr (fd_pathat t dirfd name [] PATH_MAX).2) a

/-- The function `fsetattr(fd, a)` (files.cpp 305-315). -/
def fsetattr (k : Sys) (t : FdTable) (fd : Int) (a : file_attr) : Int × Sys :=
  let r1 := k.fchmod t fd (a.st.st_mode &&& 0o777)
  if r1.1 < 0 then (-1, r1.2)
  else
    let r2 := r1.2.fchown t fd a.st.st_uid a.st.st_gid
    if r2.1 < 0 then (-1, r2.2)
    else if a.con ≠ "" then
      let r3 := r2.2.fsetfilecon t fd a.con
      if r3.1 < 0 then (-1, r3.2) else (0, r3.2)
    else (0, r2.2)

/-- The function `full_read(fd)`: `xread` until it returns no more bytes. -/
def full_read (k : Sys) (t : FdTable) (fd : Int) : String :=
  (k.read t fd).getD ""

/-! ## Tree operations (files.cpp 113-249) -/

/-- The function `remove_at(dirfd, entry)` (files.cpp 113-115). -/
def remove_at : PostVisitor Sys := fun t dirfd e k =>
  (k.unlinkat (t.lookup dirfd) e.d_name (if e.d_type = DT_DIR then AT_REMOVEDIR else 0)).2

/-- The function `frm_rf(dirfd)` (files.cpp 117-119); `l` is the listing of
the directory `dirfd` refers to. -/
def frm_rf (dirfd : Int) (l : Listing) (s : FdTable × Sys) : FdTable × Sys :=
  post_order_walk remove_at dirfd l s

/-- The frame shared by `mv_dir`, `clone_dir` and `link_dir` around their
loops: `xopen_dir(src)`, the loop, then `close(dest)` from `run_finally` and
the `closedir` of the `sDIR` destructor. None of the three checks the stream:
when `src` is not open, `xreaddir` is handed a null stream and the call does
not return (`none`). -/
def dir_frame (src dest : Int) (loop : FdTable × Sys → Option (FdTable × Sys))
    (s : FdTable × Sys) : Option (FdTable × Sys) :=
  match s.1.lookup src with
  | none => none
  | some _ =>
    match loop s with
    | none => none
    | some r => some ((r.1.close dest).close src, r.2)

/-- The loop of `mv_dir` (files.cpp 150-167). -/
def mv_dir_loop (src dest : Int) : Listing → FdTable × Sys → Option (FdTable × Sys)
  | Listing.done, s => some s
  | Listing.entry e opens sub rest, s =>
    if e.d_type = DT_DIR ∧ s.2.faccessat (s.1.lookup dest) e.d_name = 0 then
      let o1 := xopenat s.1 src e.d_name opens
      let o2 := s.2.xopenat o1.2 dest e.d_name (O_RDONLY ||| O_CLOEXEC) 0
      match dir_frame o1.1 o2.1 (mv_dir_loop o1.1 o2.1 sub) (o2.2.1, o2.2.2) with
      | none => none
      | some r =>
        mv_dir_loop src dest rest
          (r.1, (r.2.unlinkat (r.1.lookup src) e.d_name AT_REMOVEDIR).2)
    else if e.d_type = DT_DIR ∨ e.d_type = DT_LNK ∨ e.d_type = DT_REG then
      mv_dir_loop src dest rest
        (s.1, (s.2.renameat (s.1.lookup src) e.d_name (s.1.lookup dest) e.d_name).2)
    else mv_dir_loop src dest rest s

/-- The function `mv_dir(src, dest)` (files.cpp 147-168); `l` is the listing
of the directory `src` refers to. -/
def mv_dir (src dest : Int) (l : Listing) (s : FdTable × Sys) : Option (FdTable × Sys) :=
  dir_frame src dest (mv_dir_loop src dest l) s

/-- The loop of `clone_dir` (files.cpp 197-226); `a0` is what the
uninitialised `file_attr a` holds. -/
def clone_dir_loop (a0 : file_attr) (src dest : Int) :
    Listing → FdTable × Sys → Option (FdTable × Sys)
  | Listing.done, s => some s
  | Listing.entry e opens sub rest, s =>
    let a := (getattrat s.2 s.1 src e.d_name a0).2
    if e.d_type = DT_DIR then
      let k1 := (s.2.mkdirat (s.1.lookup dest) e.d_name 0).2
      let k2 := (setattrat k1 s.1 dest e.d_name a).2
      let o1 := xopenat s.1 src e.d_name opens
      let o2 := k2.xopenat o1.2 dest e.d_name (O_RDONLY ||| O_CLOEXEC) 0
      match dir_frame o1.1 o2.1 (clone_dir_loop a0 o1.1 o2.1 sub) (o2.2.1, o2.2.2) with
      | none => none
      | some r => clone_dir_loop a0 src dest rest r
    else if e.d_type = DT_REG then
      let o1 := s.2.xopenat s.1 src e.d_name (O_RDONLY ||| O_CLOEXEC) 0
      let o2 := o1.2.2.xopenat o1.2.1 dest e.d_name
        (O_WRONLY ||| O_CREAT ||| O_TRUNC ||| O_CLOEXEC) 0
      let k3 := (o2.2.2.xsendfile o2.2.1 o2.1 o1.1 a.st.st_size).2
      let k4 := (fsetattr k3 o2.2.1 o2.1 a).2
      clone_dir_loop a0 src dest rest ((o2.2.1.close o2.1).close o1.1, k4)
    else if e.d_type = DT_LNK then
      let b := xreadlinkat s.2.x86 (s.2.readlinkat (s.1.lookup src) e.d_name) [] PATH_MAX
      let k1 := (s.2.symlinkat (cstr b.2) (s.1.lookup dest) e.d_name).2
      let k2 := (setattrat k1 s.1 dest e.d_name a).2
      clone_dir_loop a0 src dest rest (s.1, k2)
    else clone_dir_loop a0 src dest rest s

/-- The function `clone_dir(src, dest)` (files.cpp 194-227). -/
def clone_dir (a0 : file_attr) (src dest : Int) (l : Listing) (s : FdTable × Sys) :
    Option (FdTable × Sys) :=
  dir_frame src dest (clone_dir_loop a0 src dest l) s

/-- The loop of `link_dir` (files.cpp 236-248). -/
def link_dir_loop (a0 : file_attr) (src dest : Int) :
    Listing → FdTable × Sys → Option (FdTable × Sys)
  | Listing.done, s => some s
  | Listing.entry e opens sub rest, s =>
    if e.d_type = DT_DIR then
      let a := (getattrat s.2 s.1 src e.d_name a0).2
      let k1 := (s.2.mkdirat (s.1.lookup dest) e.d_name 0).2
      let k2 := (setattrat k1 s.1 dest e.d_name a).2
      let o1 := xopenat s.1 src e.d_name opens
      let o2 := k2.xopenat o1.2 dest e.d_name (O_RDONLY ||| O_CLOEXEC) 0
      match dir_frame o1.1 o2.1 (link_dir_loop a0 o1.1 o2.1 sub) (o2.2.1, o2.2.2) with
      | none => none
      | some r => link_dir_loop a0 src dest rest r
    else
      link_dir_loop a0 src dest rest
        (s.1, (s.2.linkat (s.1.lookup src) e.d_name (s.1.lookup dest) e.d_name).2)

/-- The function `link_dir(src, dest)` (files.cpp 233-249). -/
def link_dir (a0 : file_attr) (src dest : Int) (l : Listing) (s : FdTable × Sys) :
    Option (FdTable × Sys) :=
  dir_frame src dest (link_dir_loop a0 src dest l) s

/-! ## mkdirs, backup and restore (files.cpp 49-68, 454-495) -/

/-- The `for` loop of `mkdirs` from `p` on, `pre` being the bytes of `buf`
before `p`; `false` stands for `return -1`. -/
def mkdirs_loop (mode : Nat) : List Char → List Char → Sys → Bool × Sys
  | [], _, k => (true, k)
  | c :: cs, pre, k =>
    if c = '/' then
      let r := k.mkdirat (some []) (String.mk pre) mode
      if r.1 = -1 ∧ r.2.errno ≠ EEXIST then (false, r.2)
      else mkdirs_loop mode cs (pre ++ [c]) r.2
    else mkdirs_loop mode cs (pre ++ [c]) k

/-- The function `mkdirs(path, mode)` (files.cpp 49-68). -/
def mkdirs (k : Sys) (path : String) (mode : Nat) : Int × Sys :=
  let buf := path.data.take (PATH_MAX - 1)
  let r := mkdirs_loop mode buf.tail (buf.take 1) { k with errno := 0 }
  if r.1 = false then (-1, r.2)
  else
    let m := r.2.mkdirat (some []) (String.mk buf) mode
    if m.1 = -1 ∧ m.2.errno ≠ EEXIST then (-1, m.2) else (0, m.2)

/-- The structure `raw_file` (files.hpp 45-53). -/
structure raw_file where
  path : String
  attr : file_attr
  content : String
deriving DecidableEq, Repr

/-- The visitor of `backup_folder` (files.cpp 458-477); its state is the
vector `files` and the buffer `path`, `len` is the length of the resolved
root. The descriptor it opens is closed again on every return. -/
def backup_visitor (k : Sys) (len : Nat) : Visitor (List raw_file × List Char) :=
  fun t dfd entry st =>
    let o := k.xopenat t dfd entry.d_name O_RDONLY 0
    if o.1 < 0 then (SKIP, st)
    else
      let r := fd_path o.2.1 o.1 st.2 PATH_MAX
      if r.1 < 0 then (SKIP, (st.1, r.2))
      else
        let file_path := cstr (r.2.drop (len + 1))
        let g := fgetattr o.2.2 o.2.1 o.1 ⟨⟨0, 0, 0, 0, 0⟩, ""⟩
        if g.1 < 0 then (SKIP, (st.1, r.2))
        else if entry.d_type = DT_REG then
          (CONTINUE, (st.1 ++ [⟨file_path, g.2, full_read o.2.2 o.2.1 o.1⟩], r.2))
        else if entry.d_type = DT_LNK then
          let b := xreadlinkat k.x86 (k.readlinkat (t.lookup dfd) entry.d_name) r.2 PATH_MAX
          (CONTINUE, (st.1 ++ [⟨file_path, g.2, cstr b.2⟩], b.2))
        else (CONTINUE, (st.1 ++ [⟨file_path, g.2, ""⟩], r.2))

/-- The listing of the directory a descriptor is open on. -/
def Sys.fdListing (k : Sys) (t : FdTable) (fd : Int) : Listing :=
  match t.lookup fd with
  | none => Listing.done
  | some q =>
    match k.fs.get q with
    | some (_, sub) => sub.listing
    | none => Listing.done

/-- The function `backup_folder(dir, files)` (files.cpp 454-478); `path0` is
what the uninitialised buffer `path` holds. The result is the descriptor table
and the vector `files` afterwards. -/
def backup_folder (k : Sys) (t : FdTable) (dir : String) (path0 : List Char)
    (files : List raw_file) : FdTable × List raw_file :=
  let path := (xrealpath k dir path0).2
  let len := strlen path
  let o := k.xopen t dir O_RDONLY 0
  let r := pre_order_walk (backup_visitor k len) o.1 (k.fdListing o.2.1 o.1)
    (o.2.1, (files, path))
  (r.2.1, r.2.2.1)

/-- The function `restore_folder(dir, files)` (files.cpp 480-495). -/
def restore_folder (dir : String) : List raw_file → FdTable × Sys → FdTable × Sys
  | [], s => s
  | file :: files, s =>
    let path := dir ++ "/" ++ file.path
    let s1 : FdTable × Sys :=
      if S_ISDIR file.attr.st.st_mode then (s.1, (mkdirs s.2 path 0).2)
      else if S_ISREG file.attr.st.st_mode then
        let o := s.2.xopen s.1 path (O_WRONLY ||| O_CREAT ||| O_TRUNC ||| O_CLOEXEC) 0o666
        if o.1 < 0 then (o.2.1, o.2.2)
        else (o.2.1.close o.1, (o.2.2.write o.2.1 o.1 file.content).2)
      else if S_ISLNK file.attr.st.st_mode then
        (s.1, (s.2.symlinkat file.content (some []) path).2)
      else s
    restore_folder dir files (s1.1, (setattr s1.2 path file.attr).2)

/-- The table `t1` is the table `t` with the descriptors `fds` released:
none of them is open any more, every other descriptor of `t` is still open,
no descriptor opened in between is left open, and no `close` in between hit a
descriptor that was not open. -/
def Released (fds : List Int) (t t1 : FdTable) : Prop :=
  (∀ fd ∈ fds, t1.lookup fd = none) ∧ t1.stray = t.stray ∧
  t1.slots = t.slots.filter (fun s => decide ((s.1 : Int) ∉ fds))

/-! ## Example trees and visitors -/

/-- The tree `sub/{g, deep/{h}}, f, link`, every directory of which opens. -/
def demo_tree : Listing :=
  Listing.entry ⟨"sub", DT_DIR⟩ true
    (Listing.entry ⟨"g", DT_REG⟩ true Listing.done
      (Listing.entry ⟨"deep", DT_DIR⟩ true
        (Listing.entry ⟨"h", DT_REG⟩ true Listing.done Listing.done) Listing.done))
    (Listing.entry ⟨"f", DT_REG⟩ true Listing.done
      (Listing.entry ⟨"link", DT_LNK⟩ true Listing.done Listing.done))

/-- The tree `priv/{secret}, sub/{g}, f` in which `priv` cannot be opened. -/
def sealed_tree : Listing :=
  Listing.entry ⟨"priv", DT_DIR⟩ false
    (Listing.entry ⟨"secret", DT_REG⟩ true Listing.done Listing.done)
    (Listing.entry ⟨"sub", DT_DIR⟩ true
      (Listing.entry ⟨"g", DT_REG⟩ true Listing.done Listing.done)
      (Listing.entry ⟨"f", DT_REG⟩ true Listing.done Listing.done))

/-- A descriptor table in which descriptor 3 is open on the directory `/a`. -/
def demo_table : FdTable := ⟨[(3, ["a"])], 0⟩

/-- The visitor that returns `CONTINUE` on every entry. -/
def always_continue : Visitor Unit := fun _ _ _ s => (CONTINUE, s)

/-- The visitor that returns `SKIP` on the entries named `sub`. -/
def skip_sub : Visitor Unit := fun _ _ e s =>
  (if e.d_name = "sub" then SKIP else CONTINUE, s)

/-- The visitor that returns `ABORT` on the entries named `g`. -/
def abort_on_g : Visitor Unit := fun _ _ e s =>
  (if e.d_name = "g" then ABORT else CONTINUE, s)

/-- The post-order visitor that does nothing. -/
def post_nothing : PostVisitor Unit := fun _ _ _ s => s

/-- A directory inode owned by root. -/
def mkDir (ino perm : Nat) : Inode := ⟨ino, S_IFDIR ||| perm, 0, 0, "", ""⟩
/-- A regular file owned by root. -/
def mkReg (ino perm : Nat) (data : String) : Inode := ⟨ino, S_IFREG ||| perm, 0, 0, "", data⟩
/-- A symbolic link owned by root. -/
def mkLnk (ino : Nat) (target : String) : Inode := ⟨ino, S_IFLNK ||| 0o777, 0, 0, "", target⟩

/-- The filesystem of scenario S1: `/tmp/a/{f (0644, "hi"), link -> f,
sub/g (0600, empty)}` in this `readdir` order, and an empty `/tmp/b`. -/
def s1_fs : Fs :=
  Fs.cons "tmp" (mkDir 3 0o777)
    (Fs.cons "a" (mkDir 4 0o755)
      (Fs.cons "f" (mkReg 5 0o644 "hi") Fs.nil
        (Fs.cons "link" (mkLnk 6 "f") Fs.nil
          (Fs.cons "sub" (mkDir 7 0o755)
            (Fs.cons "g" (mkReg 8 0o600 "") Fs.nil Fs.nil) Fs.nil)))
      (Fs.cons "b" (mkDir 9 0o755) Fs.nil Fs.nil))
    Fs.nil

/-- The system of scenario S1, the caller being root with `umask` 022. -/
def s1_sys : Sys := ⟨s1_fs, 10, 0, 0, 0o022, "", 0, true⟩

/-- A descriptor table with the three standard descriptors. -/
def std_table : FdTable :=
  ⟨[(0, ["dev", "stdin"]), (1, ["dev", "stdout"]), (2, ["dev", "stderr"])], 0⟩

/-- A descriptor table with descriptor 3 open on `/tmp/a` and 4 on `/tmp/b`. -/
def two_dirs : FdTable := ⟨[(3, ["tmp", "a"]), (4, ["tmp", "b"])], 0⟩

/-- A zeroed `file_attr`. -/
def zero_attr : file_attr := ⟨⟨0, 0, 0, 0, 0⟩, ""⟩


/-- The tree `/tmp/a/{link -> sub/g, sub/{g}}` in this `readdir` order, and an
empty `/tmp/b`. -/
def s8_fs : Fs :=
  Fs.cons "tmp" (mkDir 3 0o777)
    (Fs.cons "a" (mkDir 4 0o755)
      (Fs.cons "link" (mkLnk 5 "sub/g") Fs.nil
        (Fs.cons "sub" (mkDir 6 0o755)
          (Fs.cons "g" (mkReg 7 0o600 "x") Fs.nil Fs.nil) Fs.nil))
      (Fs.cons "b" (mkDir 8 0o755) Fs.nil Fs.nil))
    Fs.nil
/-- The system over `s8_fs`, the caller being root. -/
def s8_sys : Sys := ⟨s8_fs, 9, 0, 0, 0o022, "", 0, true⟩

/-- The tree `/a/{link -> /bb/c}`, `/bb/{c}`. -/
def s9_fs : Fs :=
  Fs.cons "a" (mkDir 3 0o755)
    (Fs.cons "link" (mkLnk 4 "/bb/c") Fs.nil Fs.nil)
    (Fs.cons "bb" (mkDir 5 0o755)
      (Fs.cons "c" (mkReg 6 0o644 "data") Fs.nil Fs.nil) Fs.nil)
/-- The system over `s9_fs`, the caller being root. -/
def s9_sys : Sys := ⟨s9_fs, 7, 0, 0, 0o022, "", 0, true⟩

/-! ## Byte buffers (files.hpp 32-43, files.cpp 510-595) -/

/-- The structure `byte_data` (files.hpp 32-43). The pointer `buf` is either
null (`none`) or gives the memory seen from the address it holds, offset by
offset; that memory does not end where the buffer ends, and the bytes at the
offsets from `sz` on are whatever follows the buffer in the address space. -/
structure byte_data where
  buf : Option (Nat → Nat) := none
  sz : Nat := 0

/-- The memory that holds the bytes `l` from offset 0 on, followed by zero
bytes: for instance a file of these bytes mapped by `mmap`, which fills the
rest of the last page with zeros. -/
def bytes_at (l : List Nat) : Nat → Nat := fun i => l.getD i 0

/-- The test `memcmp(p, s, n) == 0` for the `n` bytes `s`. -/
def memcmp_eq (m : Nat → Nat) : Nat → List Nat → Bool
  | _, [] => true
  | p, b :: bs => m p == b && memcmp_eq m (p + 1) bs

/-- The call `memset(p, c, n)`. -/
def memset (m : Nat → Nat) (p c n : Nat) : Nat → Nat :=
  fun i => if p ≤ i ∧ i < p + n then c else m i

/-- The call `memcpy(p, s, n)` for the `n` bytes `s`. -/
def memcpy (m : Nat → Nat) (p : Nat) (s : List Nat) : Nat → Nat :=
  fun i => if p ≤ i ∧ i < p + s.length then s.getD (i - p) 0 else m i

/-- The inner loop of `byte_data::patch` (files.cpp 515-523): the pairs of the
list are tried in turn at `p`, and a replacement moves `p` for the pairs after
it. The `length() + 1` bytes compared are those of the view and the `NUL` that
ends the literal it was made from. The state is the memory, `p - buf` and
`count`. -/
def patch_pairs : List (List Nat × List Nat) → (Nat → Nat) × Nat × Nat → (Nat → Nat) × Nat × Nat
  | [], st => st
  | (f, t) :: rest, (m, p, count) =>
    if memcmp_eq m p (f ++ [0]) then
      patch_pairs rest (memcpy (memset m p 0 f.length) p t, p + f.length, count + 1)
    else patch_pairs rest (m, p, count)

/-- The outer loop of `byte_data::patch` (files.cpp 514-524), from `p` on. Each
round moves `p` forward, so `sz - p` rounds are all there are: the first
argument only counts them down. -/
def patch_loop (sz : Nat) (list : List (List Nat × List Nat)) :
    Nat → (Nat → Nat) → Nat → Nat → (Nat → Nat) × Nat
  | 0, m, _, count => (m, count)
  | fuel + 1, m, p, count =>
    if p < sz then
      match patch_pairs list (m, p, count) with
      | (m1, p1, c1) => patch_loop sz list fuel m1 (p1 + 1) c1
    else (m, count)

/-- The function `byte_data::patch` (files.cpp 510-526), without its log
lines: the count returned and the buffer afterwards. -/
def byte_data.patch (d : byte_data) (list : List (List Nat × List Nat)) : Nat × byte_data :=
  match d.buf with
  | none => (0, d)
  | some m =>
    match patch_loop d.sz list d.sz m 0 0 with
    | (m1, count) => (count, { d with buf := some m1 })

/-- The loop of `byte_data::contains` (files.cpp 531-536), from `p` on. -/
def contains_loop (sz : Nat) (pattern : List Nat) (m : Nat → Nat) : Nat → Nat → Bool
  | 0, _ => false
  | fuel + 1, p =>
    if p < sz then
      if memcmp_eq m p (pattern ++ [0]) then true
      else contains_loop sz pattern m fuel (p + 1)
    else false

/-- The function `byte_data::contains` (files.cpp 528-538), a `const` member:
it returns its answer and nothing else. -/
def byte_data.contains (d : byte_data) (pattern : List Nat) : Bool :=
  match d.buf with
  | none => false
  | some m => contains_loop d.sz pattern m d.sz 0

/-- The pattern stands at offset `i` of the memory, followed by a `NUL`. -/
def occurs (m : Nat → Nat) (pattern : List Nat) (i : Nat) : Prop :=
  (∀ j, j < pattern.length → m (i + j) = pattern.getD j 0) ∧ m (i + pattern.length) = 0

/-- The platform the file is compiled for: the branches of the preprocessor
in `mmap_data::mmap_data` (files.cpp 551-588). -/
inductive Platform
  | linux | apple | other | win32
deriving DecidableEq, Repr

/-- Type bits of a block device. -/
def S_IFBLK : Nat := 0o060000
/-- The macro `S_ISBLK`. -/
def S_ISBLK (m : Nat) : Bool := m &&& S_IFMT == S_IFBLK

/-- What the system answers to the calls of the `mmap_data` constructor: the
descriptor `xopen` returns, the result of `fstat` (`none` when it fails), the
size the `BLKGETSIZE64` request stores (`none` when `ioctl` fails) and the
memory `mmap` returns (`none` for `MAP_FAILED`). -/
structure Probe where
  fd : Int
  st : Option stat
  blk : Option Nat
  map : Option (Nat → Nat)

/-- The system calls the constructor makes after `xopen`. -/
inductive Call
  | fstat (fd : Int)
  | ioctl (fd : Int)
  | mmap (len : Nat) (rw : Bool)
  | close (fd : Int)
deriving DecidableEq, Repr

/-- The length the constructor takes for the file (files.cpp 551-588), and
whether it asked `ioctl` for it. `b_size` is a `uint64_t`, `sz` a `size_t` of
`w` bits. -/
def probe_size (pf : Platform) (w : Nat) (r : Probe) (st : stat) : Nat × List Call :=
  match pf with
  | .linux =>
    if S_ISBLK st.st_mode then
      match r.blk with
      | some b_size => (b_size % 2 ^ 64 % 2 ^ w, [Call.ioctl r.fd])
      | none => (st.st_size % 2 ^ w, [Call.ioctl r.fd])
    else (st.st_size % 2 ^ w, [])
  | _ => (st.st_size % 2 ^ w, [])

/-- The constructor `mmap_data::mmap_data(name, rw)` (files.cpp 545-595): the
object it leaves and the calls it made. The members start as `buf = nullptr`
and `sz = 0` (files.hpp 35-36). -/
def mmap_data (pf : Platform) (w : Nat) (r : Probe) (rw : Bool) : byte_data × List Call :=
  if r.fd < 0 then ({}, [])
  else
    match r.st with
    | none => ({}, [Call.fstat r.fd])
    | some st =>
      match probe_size pf w r st with
      | (sz, calls) =>
        if sz > 0 then
          ({ buf := r.map, sz := sz }, Call.fstat r.fd :: calls ++ [Call.mmap sz rw, Call.close r.fd])
        else ({ buf := none, sz := sz }, Call.fstat r.fd :: calls ++ [Call.close r.fd])

instance (m : Nat → Nat) (pattern : List Nat) (i : Nat) : Decidable (occurs m pattern i) := by
  unfold occurs; infer_instance

/-- The answers of the system for a block device of 8192 bytes whose `st_size`
is 0. -/
def blk_probe : Probe :=
  { fd := 3, st := some ⟨5, S_IFBLK ||| 0o600, 0, 0, 0⟩, blk := some 8192,
    map := some (bytes_at []) }

/-! ## Line readers (files.cpp 365-405) -/

/-- The function `getline` of the C library on the unread characters of a
stream: the next line with its newline if it has one, and what is left of the
stream; `none` is the result -1 at the end of the stream. -/
def getline : List Char → Option (List Char × List Char)
  | [] => none
  | c :: cs =>
    if c = '\n' then some ([c], cs)
    else
      match getline cs with
      | none => some ([c], [])
      | some (l, rest) => some (c :: l, rest)

/-- The loop `while (read && "\n\r "sv.find(buf[read - 1]) != npos) --read`
(files.cpp 373-374). -/
def trim_end (buf : List Char) : Nat → Nat
  | 0 => 0
  | read + 1 =>
    if buf.getD read NUL ∈ ['\n', '\r', ' '] then trim_end buf read else read + 1

/-- The loop `while (*start == ' ') ++start` (files.cpp 376-377): the memory
from the new `start` on. -/
def skip_spaces : List Char → List Char
  | [] => []
  | c :: cs => if c = ' ' then skip_spaces cs else c :: cs

/-- The loop of `file_readline(trim, fp, fn)` (files.cpp 365-383). The visitor
is handed the pointer `start`, as the memory from it on, and sees the C string
there; `buf` is the line buffer, which keeps what earlier lines left behind
its terminator. Every round takes at least one character off the stream, so
the rounds counted down by the first argument are enough when it starts at the
length of the stream. -/
def file_readline_loop {σ : Type} (trim : Bool) (fn : σ → List Char → Bool × σ) :
    Nat → List Char → List Char → σ → σ
  | 0, _, _, s => s
  | fuel + 1, buf, fp, s =>
    match getline fp with
    | none => s
    | some (line, rest) =>
      let buf1 := poke buf 0 (line ++ [NUL])
      let buf2 := if trim then poke buf1 (trim_end buf1 line.length) [NUL] else buf1
      let start := if trim then skip_spaces buf2 else buf2
      match fn s start with
      | (true, s1) => file_readline_loop trim fn fuel buf2 rest s1
      | (false, s1) => s1

/-- The function `file_readline(trim, fp, fn)` (files.cpp 365-383) on a line
buffer with the contents `buf`, which `malloc` leaves unspecified. -/
def file_readline {σ : Type} (trim : Bool) (fn : σ → List Char → Bool × σ)
    (buf fp : List Char) (s : σ) : σ :=
  file_readline_loop trim fn fp.length buf fp s

/-- The function `strchr`: the offset of the first `c` in a C string. -/
def strchr : List Char → Char → Option Nat
  | [], _ => none
  | x :: xs, c =>
    if x = c then some 0
    else if x = NUL then none
    else (strchr xs c).map (fun i => i + 1)

/-- The visitor that `parse_prop_file` hands to `file_readline`
(files.cpp 395-403). -/
def parse_prop_line {σ : Type} (fn : σ → String → String → Bool × σ) (s : σ)
    (line : List Char) : Bool × σ :=
  if line.getD 0 NUL = '#' then (true, s)
  else
    match strchr line '=' with
    | none => (true, s)
    | some eql =>
      if eql = 0 then (true, s)
      else
        let line1 := poke line eql [NUL]
        fn s (cstr line1) (cstr (line1.drop (eql + 1)))

/-- The function `parse_prop_file(fp, fn)` (files.cpp 394-405). -/
def parse_prop_file {σ : Type} (fn : σ → String → String → Bool × σ)
    (buf fp : List Char) (s : σ) : σ :=
  file_readline true (parse_prop_line fn) buf fp s

/-- The lines of a stream, each with its newline: what successive calls of
`getline` return. -/
def lines_loop : Nat → List Char → List (List Char)
  | 0, _ => []
  | fuel + 1, fp =>
    match getline fp with
    | none => []
    | some (line, rest) => line :: lines_loop fuel rest

/-- The lines of a stream. -/
def lines_of (fp : List Char) : List (List Char) := lines_loop fp.length fp

/-- A visitor called on the items of a list in order, until it returns false. -/
def feed {σ α : Type} (fn : σ → α → Bool × σ) : List α → σ → σ
  | [], s => s
  | x :: xs, s =>
    match fn s x with
    | (true, s1) => feed fn xs s1
    | (false, s1) => s1

/-- The characters removed at the end of a line. -/
def blank (c : Char) : Bool := c = '\n' || c = '\r' || c = ' '

/-- A line as the specification describes it under `trim = true`: every
trailing newline, carriage return and space removed, then every leading space
removed. -/
def spec_trimmed (l : List Char) : String :=
  String.mk ((l.rdropWhile blank).dropWhile (fun c => c = ' '))

/-- A trimmed line as the specification of `parse_prop_file` reads it: nothing
for a line that begins with `#`, has no `=` or begins with `=`, otherwise the
text before the first `=` and all the text after it. -/
def spec_prop (l : String) : Option (String × String) :=
  if l.data.head? ≠ some '#' ∧ '=' ∈ l.data ∧ l.data.head? ≠ some '=' then
    some (String.mk (l.data.takeWhile (fun c => c ≠ '=')),
      String.mk ((l.data.dropWhile (fun c => c ≠ '=')).drop 1))
  else none

/-- A visitor that records the strings it is called on. -/
def recording (g : String → Bool) : List String → String → Bool × List String :=
  fun log x => (g x, log ++ [x])

/-! ## Well-formed trees, removal (files.cpp 121-128) -/

/-- A name a directory entry can have: not empty, not `.` or `..`, without `/`. -/
def goodName (n : String) : Bool :=
  decide (n ≠ "") && decide (n ≠ ".") && decide (n ≠ "..") && !(n.data.contains '/')

/-- The names of the entries of a directory. -/
def Fs.names : Fs → List String
  | Fs.nil => []
  | Fs.cons n _ _ rest => n :: rest.names

/-- A well-formed tree: in every directory the names are entry names and no
name occurs twice. -/
def Fs.ok : Fs → Bool
  | Fs.nil => true
  | Fs.cons n _ sub rest => goodName n && !(rest.names.contains n) && sub.ok && rest.ok

/-- Two paths neither of which lies at or below the other. -/
def apart (p q : Path) : Prop := ¬ p <+: q ∧ ¬ q <+: p

/-- The function `remove(path)` of the C library: `unlink`, and `rmdir` when
that fails. -/
def Sys.remove (k : Sys) (path : String) : Int × Sys :=
  if (k.unlinkat (some []) path 0).1 = 0 then k.unlinkat (some []) path 0
  else k.unlinkat (some []) path AT_REMOVEDIR

/-- The function `rm_rf(path)` (files.cpp 121-128). -/
def rm_rf (path : String) (s : FdTable × Sys) : FdTable × Sys :=
  match s.2.lstat path with
  | none => s
  | some st =>
    let s1 :=
      if S_ISDIR st.mode then
        let o := s.2.xopen s.1 path (O_RDONLY ||| O_CLOEXEC) 0
        frm_rf o.1 (o.2.2.fdListing o.2.1 o.1) (o.2.1, o.2.2)
      else s
    (s1.1, (s1.2.remove path).2)

/-- The tree `/d/{f, sub/{g}}` next to a file `/e`. -/
def rm_fs : Fs :=
  Fs.cons "d" (mkDir 3 0o755)
    (Fs.cons "f" (mkReg 4 0o644 "x") Fs.nil
      (Fs.cons "sub" (mkDir 5 0o700) (Fs.cons "g" (mkLnk 6 "../f") Fs.nil Fs.nil) Fs.nil))
    (Fs.cons "e" (mkReg 7 0o600 "") Fs.nil Fs.nil)

/-- The system over `rm_fs`. -/
def rm_sys : Sys := ⟨rm_fs, 8, 0, 0, 0o022, "", 0, true⟩

/-! ## Merging trees (files.cpp 147-168) -/

instance (p q : Path) : Decidable (apart p q) := by
  unfold apart; infer_instance

/-- An inode without its attributes: the inode number, the type bits and the
content stay; permission bits, owner, group and label are blanked. -/
def Inode.core (i : Inode) : Inode :=
  { i with mode := i.mode &&& S_IFMT, uid := 0, gid := 0, con := "" }

/-- A tree without the attributes of its inodes. -/
def Fs.core : Fs → Fs
  | Fs.nil => Fs.nil
  | Fs.cons n i sub rest => Fs.cons n i.core sub.core rest.core

/-- Whether every file of a tree is a directory. -/
def Fs.allDirs : Fs → Bool
  | Fs.nil => true
  | Fs.cons _ i sub rest => S_ISDIR i.mode && sub.allDirs && rest.allDirs

/-- The state `k1` is a later state of `k` in which the tree, still one of
directories, has grown: every file of `k` is there with its inode, and a file
that is new is a directory made by `mkdir` with `mode`. -/
def Grown (mode : Nat) (k k1 : Sys) : Prop :=
  k1.fs.allDirs = true ∧ k1.umask = k.umask ∧
  (∀ x i c, k.fs.get x = some (i, c) → ∃ c1, k1.fs.get x = some (i, c1)) ∧
  (∀ x i c, k.fs.get x = none → k1.fs.get x = some (i, c) →
    i.mode = S_IFDIR ||| k.masked_dir mode)

/-- A filesystem of directories in which `/a` exists; the `umask` is 022. -/
def dirs_sys : Sys :=
  ⟨Fs.cons "a" ⟨3, S_IFDIR ||| 0o700, 0, 0, "", ""⟩ Fs.nil Fs.nil, 4, 0, 0, 0o022, "", 0, true⟩

/-- The three system calls `setattr` and `fsetattr` make, on a state of any
kind: each returns its result and the state it leaves. -/
structure AttrOps (σ : Type) where
  chmod : σ → Nat → Int × σ
  chown : σ → Nat → Nat → Int × σ
  setcon : σ → String → Int × σ

/-- The body `setattr` (files.cpp 287-297) and `fsetattr` (files.cpp 305-315)
share, over the three calls it makes. -/
def setattr_with {σ : Type} (o : AttrOps σ) (s : σ) (a : file_attr) : Int × σ :=
  let r1 := o.chmod s (a.st.st_mode &&& 0o777)
  if r1.1 < 0 then (-1, r1.2)
  else
    let r2 := o.chown r1.2 a.st.st_uid a.st.st_gid
    if r2.1 < 0 then (-1, r2.2)
    else if a.con ≠ "" then
      let r3 := o.setcon r2.2 a.con
      if r3.1 < 0 then (-1, r3.2) else (0, r3.2)
    else (0, r2.2)

/-- The calls of `setattr(path, a)`: `chmod`, `chown` and `lsetfilecon`. -/
def path_ops (path : String) : AttrOps Sys :=
  ⟨fun k m => k.chmod path m, fun k u g => k.chown path u g, fun k c => k.lsetfilecon path c⟩

/-- The calls of `fsetattr(fd, a)`: `fchmod`, `fchown` and `fsetfilecon`. -/
def fd_ops (t : FdTable) (fd : Int) : AttrOps Sys :=
  ⟨fun k m => k.fchmod t fd m, fun k u g => k.fchown t fd u g,
    fun k c => k.fsetfilecon t fd c⟩

/-- One call of an attribute setter, with its arguments. -/
inductive AttrCall
  | chmod (mode : Nat)
  | chown (uid gid : Nat)
  | setcon (con : String)
deriving DecidableEq, Repr

/-- Make one call. -/
def AttrOps.call {σ : Type} (o : AttrOps σ) (s : σ) : AttrCall → Int × σ
  | AttrCall.chmod m => o.chmod s m
  | AttrCall.chown u g => o.chown s u g
  | AttrCall.setcon c => o.setcon s c

/-- The same calls, each recorded with its result in the order it is made. -/
def AttrOps.logged {σ : Type} (o : AttrOps σ) : AttrOps (σ × List (AttrCall × Int)) :=
  ⟨fun s m => ((o.chmod s.1 m).1, (o.chmod s.1 m).2, s.2 ++ [(AttrCall.chmod m, (o.chmod s.1 m).1)]),
   fun s u g =>
    ((o.chown s.1 u g).1, (o.chown s.1 u g).2, s.2 ++ [(AttrCall.chown u g, (o.chown s.1 u g).1)]),
   fun s c =>
    ((o.setcon s.1 c).1, (o.setcon s.1 c).2, s.2 ++ [(AttrCall.setcon c, (o.setcon s.1 c).1)])⟩

/-- Make a list of calls one after the other, whatever each returns, and
record them. -/
def AttrOps.replay {σ : Type} (o : AttrOps σ) :
    σ × List (AttrCall × Int) → List AttrCall → σ × List (AttrCall × Int)
  | s, [] => s
  | s, c :: cs => o.replay ((o.call s.1 c).2, s.2 ++ [(c, (o.call s.1 c).1)]) cs

/-- The steps a complete run of an attribute setter takes for `a`. -/
def plan (a : file_attr) : List AttrCall :=
  [AttrCall.chmod (a.st.st_mode &&& 0o777), AttrCall.chown a.st.st_uid a.st.st_gid] ++
    (if a.con ≠ "" then [AttrCall.setcon a.con] else [])

/-! ## Transfer loops (xwrap.cpp 75-122) -/

/-- What one call of `read` or `write` does: it can move up to `n` bytes (0 at
the end of the file, or when nothing can be moved), it is interrupted
(`-1` with `errno == EINTR`), or it fails otherwise (`-1`). -/
inductive Outcome
  | moved (n : Nat)
  | eintr
  | failed
deriving DecidableEq, Repr

/-- A `size_t` of `w` bits read as `ssize_t`. -/
def ssize_t (w : Nat) (n : Nat) : Int :=
  if n % 2 ^ w < 2 ^ (w - 1) then ((n % 2 ^ w : Nat) : Int)
  else ((n % 2 ^ w : Nat) : Int) - 2 ^ w

/-- The `do ... while` loop of `xwrite` and `xxread`, from the call that meets
the head of the outcomes on, with `sz` bytes moved so far. A call asked for
`count - sz` bytes moves no more than that. `continue` goes to the test of the
loop, which a call that was interrupted passes when `sz != count`. Outcomes
that are used up go on as 0. -/
def transfer_loop (w count : Nat) : List Outcome → Nat → Int
  | [], sz => ssize_t w sz
  | Outcome.failed :: _, _ => -1
  | Outcome.eintr :: rest, sz =>
    if sz ≠ count then transfer_loop w count rest sz else ssize_t w sz
  | Outcome.moved n :: rest, sz =>
    if sz + min n (count - sz) ≠ count ∧ min n (count - sz) ≠ 0 then
      transfer_loop w count rest (sz + min n (count - sz))
    else ssize_t w (sz + min n (count - sz))

/-- The wrapper `xwrite(fd, buf, count)` (xwrap.cpp 75-93) over the outcomes of
its calls of `write`. -/
def xwrite (w : Nat) (outs : List Outcome) (count : Nat) : Int :=
  transfer_loop w count outs 0

/-- The wrapper `xxread(fd, buf, count)` (xwrap.cpp 104-122) over the outcomes
of its calls of `read`. -/
def xxread (w : Nat) (outs : List Outcome) (count : Nat) : Int :=
  transfer_loop w count outs 0

/-- Whether a call moves at least one byte. -/
def Outcome.progress : Outcome → Bool
  | Outcome.moved n => decide (n ≠ 0)
  | _ => false

/-- The bytes a call can move. -/
def Outcome.amount : Outcome → Nat
  | Outcome.moved n => n
  | _ => 0

/-- The outcomes without the interrupted calls. -/
def uninterrupted (outs : List Outcome) : List Outcome :=
  outs.filter (fun o => decide (o ≠ Outcome.eintr))

/-- The bytes on offer before the first call that moves nothing or fails. -/
def offered (outs : List Outcome) : Nat :=
  ((outs.takeWhile Outcome.progress).map Outcome.amount).sum

/-- Whether the first call that does not move a byte fails. -/
def ends_failing (outs : List Outcome) : Bool :=
  decide ((outs.dropWhile Outcome.progress).head? = some Outcome.failed)

/-! ## Numbers (misc.cpp 158-189) -/

/-- The `int` (32 bits, two's complement) an arithmetic result wraps to. -/
def wrap_int (x : Int) : Int := (x + 2147483648) % 4294967296 - 2147483648

/-- The loop of `parse_int` over the bytes that are left, with `val` so far;
each operation of `val * 10 + c - '0'` yields an `int`. -/
def parse_int_loop : List Char → Int → Int
  | [], val => val
  | c :: cs, val =>
    if c = NUL then val
    else if c > '9' ∨ c < '0' then -1
    else parse_int_loop cs
      (wrap_int (wrap_int (wrap_int (val * 10) + (c.toNat : Int)) - (Char.toNat '0' : Int)))

/-- The function `parse_int(s)` (misc.cpp 161-170). -/
def parse_int (s : String) : Int := parse_int_loop s.data 0

/-- The decimal value of a list of digits, after the value `acc` of the digits
before them. -/
def decimal (acc : Nat) : List Char → Nat
  | [] => acc
  | c :: cs => decimal (acc * 10 + (c.toNat - 48)) cs

/-- The bytes of a string before its first `NUL`, or all of them. -/
def before_nul (s : String) : List Char := s.data.takeWhile (fun c => c ≠ NUL)

/-! ## Splitting and replacing (misc.cpp 207-237) -/

/-- The index of the first character of `r` that belongs to `delims`. -/
def first_of (delims : List Char) : List Char → Option Nat
  | [] => none
  | c :: cs => if c ∈ delims then some 0 else (first_of delims cs).map (fun i => i + 1)

/-- The call `s.find_first_of(delims, base)`: the search is over the characters
from index `base` on; `none` stands for `npos`. -/
def find_first_of (s delims : List Char) (base : Nat) : Option Nat :=
  (first_of delims (s.drop base)).map (fun i => i + base)

/-- The call `s.substr(base, found - base)` for `base` within the string: with
`found == npos` the count `npos - base` is no less than what is left of the
string, and the rest of the string is taken. -/
def substr (s : List Char) (base : Nat) (found : Option Nat) : List Char :=
  match found with
  | none => s.drop base
  | some f => (s.drop base).take (f - base)

/-- The loop of `split_impl` from `base` on: each pass uses one unit of fuel,
and `none` is a loop that has not ended when the fuel is used up. -/
def split_loop (s delims : List Char) : Nat → Nat → Option (List (List Char))
  | 0, _ => none
  | fuel + 1, base =>
    match find_first_of s delims base with
    | none => some [substr s base none]
    | some found =>
      (split_loop s delims fuel (found + 1)).map (fun r => substr s base (some found) :: r)

/-- The template `split_impl(s, delims)` (misc.cpp 216-229). -/
def split_impl (s delims : List Char) : Option (List (List Char)) :=
  split_loop s delims (s.length + 1) 0

/-- The function `split(s, delims)` (misc.cpp 231-233). -/
def split (s delims : String) : Option (List String) :=
  (split_impl s.data delims.data).map (List.map String.mk)

/-- The function `split_ro(s, delims)` (misc.cpp 235-237); the views are given
by what they show. -/
def split_ro (s delims : String) : Option (List String) :=
  (split_impl s.data delims.data).map (List.map String.mk)

/-- The pieces put together again with the delimiters between them. -/
def rejoin : List (List Char) → List Char → List Char
  | [], _ => []
  | [p], _ => p
  | p :: _ :: _, [] => p
  | p :: q :: ps, d :: ds => p ++ d :: rejoin (q :: ps) ds

/-- The index of the first place in `r` where the text `pat` begins. -/
def find_in (pat : List Char) : List Char → Option Nat
  | [] => if pat = [] then some 0 else none
  | c :: cs =>
    if pat <+: c :: cs then some 0 else (find_in pat cs).map (fun i => i + 1)

/-- The call `str.find(pat, pos)`; `none` stands for `npos`. -/
def string_find (str pat : List Char) (pos : Nat) : Option Nat :=
  if str.length < pos then none else (find_in pat (str.drop pos)).map (fun i => i + pos)

/-- The call `str.replace(pos, len, to)` for `pos` within the string. -/
def string_replace (str : List Char) (pos len : Nat) (repl : List Char) : List Char :=
  str.take pos ++ repl ++ str.drop (pos + len)

/-- The loop of `replace_all`: each pass uses one unit of fuel, and `none` is a
loop that has not ended when the fuel is used up. -/
def replace_all_loop (frm repl : List Char) : Nat → List Char → Nat → Option (List Char)
  | 0, _, _ => none
  | fuel + 1, str, pos =>
    match string_find str frm pos with
    | none => some str
    | some p =>
      replace_all_loop frm repl fuel (string_replace str p frm.length repl) (p + repl.length)

/-- The function `replace_all(str, from, to)` (misc.cpp 207-214): the string it
leaves in `str`. -/
def replace_all (str frm repl : String) : Option String :=
  (replace_all_loop frm.data repl.data (str.length + 1) str.data 0).map String.mk

/-- The replacement from left to right of each occurrence of `frm` by `to`,
occurrences not overlapping: where `frm` begins it is replaced and the scan goes
on after it, elsewhere one character is kept. -/
inductive Replaced (frm repl : List Char) : List Char → List Char → Prop
  | done : Replaced frm repl [] []
  | hit (rest r : List Char) : Replaced frm repl rest r →
      Replaced frm repl (frm ++ rest) (repl ++ r)
  | miss (c : Char) (cs r : List Char) : ¬ frm <+: c :: cs → Replaced frm repl cs r →
      Replaced frm repl (c :: cs) (c :: r)

/-! ## The greatest common divisor (misc.cpp 174-189) -/

/-- The number of zero bits below the lowest set bit among the low `f` bits. -/
def ctz_loop : Nat → Nat → Nat
  | 0, _ => 0
  | f + 1, n => if n % 2 = 1 then 0 else 1 + ctz_loop f (n / 2)

/-- The builtin `__builtin_ctz(n)` on a 32-bit `unsigned`: the result is
undefined for 0, which is `none`. -/
def ctz (n : Nat) : Option Nat := if n = 0 then none else some (ctz_loop 32 n)

/-- The `do ... while` loop of `binary_gcd` on 32-bit values: each pass uses one
unit of fuel; `none` is an undefined `__builtin_ctz(0)` or a loop that has not
ended when the fuel is used up. -/
def binary_gcd_loop : Nat → Nat → Nat → Option Nat
  | 0, _, _ => none
  | fuel + 1, u, v =>
    match ctz v with
    | none => none
    | some s =>
      if (if u > v >>> s then (u + 4294967296 - v >>> s) % 4294967296
          else (v >>> s + 4294967296 - u) % 4294967296) ≠ 0 then
        binary_gcd_loop fuel (if u > v >>> s then v >>> s else u)
          (if u > v >>> s then (u + 4294967296 - v >>> s) % 4294967296
            else (v >>> s + 4294967296 - u) % 4294967296)
      else some (if u > v >>> s then v >>> s else u)

/-- The function `binary_gcd(u, v)` (misc.cpp 174-189) on `uint32_t` values. -/
def binary_gcd (u v : Nat) : Option Nat :=
  if u = 0 then some v
  else if v = 0 then some u
  else
    match ctz (u ||| v), ctz u with
    | some shift, some s =>
      (binary_gcd_loop (u + v) (u >>> s) v).map (fun r => (r <<< shift) % 4294967296)
    | _, _ => none

/-- The filesystem `/tmp/a/{priv/{secret}, sub/{g}, f}` and `/tmp/b/{priv/}`,
the tree `sealed_tree` is the listing of `/tmp/a` in when `priv` cannot be
opened. -/
def sealed_fs : Fs :=
  Fs.cons "tmp" (mkDir 3 0o777)
    (Fs.cons "a" (mkDir 4 0o755)
      (Fs.cons "priv" (mkDir 5 0o700)
        (Fs.cons "secret" (mkReg 6 0o600 "") Fs.nil Fs.nil)
        (Fs.cons "sub" (mkDir 7 0o755)
          (Fs.cons "g" (mkReg 8 0o644 "") Fs.nil Fs.nil)
          (Fs.cons "f" (mkReg 9 0o644 "") Fs.nil Fs.nil)))
      (Fs.cons "b" (mkDir 10 0o755)
        (Fs.cons "priv" (mkDir 11 0o700) Fs.nil Fs.nil) Fs.nil))
    Fs.nil

/-- The system over `sealed_fs`. -/
def sealed_sys : Sys := ⟨sealed_fs, 12, 0, 0, 0o022, "", 0, true⟩

/-! ## Lemmas on the descriptor table -/

theorem FdTable.lowest_not_mem (t : FdTable) : t.lowest ∉ t.slots.map Prod.fst := by
  unfold FdTable.lowest
  cases h : (List.range (t.slots.length + 1)).find?
      (fun k => decide (k ∉ t.slots.map Prod.fst)) with
  | some k =>
    have := List.find?_some h
    simpa using this
  | none =>
    exfalso
    rw [List.find?_eq_none] at h
    have hsub : List.range (t.slots.length + 1) ⊆ t.slots.map Prod.fst := by
      intro k hk
      have := h k hk
      simpa using this
    have hle := ((List.nodup_range _).subperm hsub).length_le
    simp at hle

theorem FdTable.lookup_neg (t : FdTable) : t.lookup (-1) = none := by
  simp [FdTable.lookup]

theorem FdTable.close_neg (t : FdTable) : t.close (-1) = t := by
  simp [FdTable.close]

theorem FdTable.lookup_alloc (t : FdTable) (p : Path) :
    (t.alloc p).2.lookup (t.alloc p).1 = some p := by
  simp [FdTable.alloc, FdTable.lookup]

theorem FdTable.close_alloc (t : FdTable) (p : Path) :
    (t.alloc p).2.close (t.alloc p).1 = t := by
  have hl := FdTable.lookup_alloc t p
  have hn := t.lowest_not_mem
  unfold FdTable.close
  rw [hl]
  simp only [FdTable.alloc]
  have : ¬ ((t.lowest : Int) < 0) := by omega
  simp only [this, if_false, Int.toNat_ofNat]
  cases t with
  | mk slots stray =>
    simp only [FdTable.mk.injEq, and_true]
    simp only [List.filter_cons]
    simp
    intro a b hab
    intro h
    apply hn
    simp
    exact ⟨b, h ▸ hab⟩


/-! ## The runs of the pre-order walker -/

theorem pre_frame_open {σ : Type} (dirfd : Int) (loop : FdTable × σ → walk_result × (FdTable × σ))
    (s : FdTable × σ) (p : Path) (h : s.1.lookup dirfd = some p) :
    pre_order_walk_frame dirfd loop s = ((loop s).1, ((loop s).2.1.close dirfd, (loop s).2.2)) := by
  simp [pre_order_walk_frame, h]

theorem pre_frame_closed {σ : Type} (loop : FdTable × σ → walk_result × (FdTable × σ))
    (s : FdTable × σ) :
    pre_order_walk_frame (-1) loop s = (SKIP, s) := by
  simp [pre_order_walk_frame, FdTable.lookup_neg, FdTable.close_neg]

theorem PreRun.result {p : Path} {l : Listing} {tr : List Visit} {r : walk_result}
    (h : PreRun p l tr r) : r = CONTINUE ∨ r = ABORT := by
  induction h with
  | done => exact Or.inl rfl
  | skip _ ih => exact ih
  | abort => exact Or.inr rfl
  | pass _ _ ih => exact ih
  | down _ _ _ _ ih => exact ih
  | downAbort _ _ _ => exact Or.inr rfl

theorem pre_loop_run {σ : Type} (fn : Visitor σ) (l : Listing) :
    ∀ (dirfd : Int) (p : Path) (t : FdTable) (s : σ) (log : List Visit),
      t.lookup dirfd = some p →
      ∃ tr, PreRun p l tr (pre_order_loop (logged fn) dirfd l (t, (s, log))).1 ∧
        (pre_order_loop (logged fn) dirfd l (t, (s, log))).2.1 = t ∧
        (pre_order_loop (logged fn) dirfd l (t, (s, log))).2.2.2 = log ++ tr ∧
        (∀ v ∈ tr, ∃ t1 fd1 s1, v.res = (fn t1 fd1 v.ent s1).1) := by
  induction l with
  | done =>
    intro dirfd p t s log _
    exact ⟨[], by simpa [pre_order_loop] using PreRun.done p, by simp [pre_order_loop],
      by simp [pre_order_loop], by simp⟩
  | entry e opens sub rest ihs ihr =>
    intro dirfd p t s log hp
    rcases hfn : fn t dirfd e s with ⟨r, u⟩
    have hlog : logged fn t dirfd e (s, log)
        = (r, (u, log ++ [⟨p ++ [e.d_name], e, r⟩])) := by
      simp [logged, hfn, hp]
    have hres : ∃ t1 fd1 s1, r = (fn t1 fd1 e s1).1 := ⟨t, dirfd, s, by rw [hfn]⟩
    cases r with
    | SKIP =>
      obtain ⟨tr, h1, h2, h3, h4⟩ := ihr dirfd p t u (log ++ [⟨p ++ [e.d_name], e, SKIP⟩]) hp
      refine ⟨⟨p ++ [e.d_name], e, SKIP⟩ :: tr, ?_, ?_, ?_, ?_⟩
      · simp only [pre_order_loop, hlog]; exact PreRun.skip h1
      · simp only [pre_order_loop, hlog]; exact h2
      · simp only [pre_order_loop, hlog]; rw [h3]; simp
      · intro v hv
        rcases List.mem_cons.1 hv with rfl | hv
        · exact hres
        · exact h4 v hv
    | ABORT =>
      refine ⟨[⟨p ++ [e.d_name], e, ABORT⟩], ?_, ?_, ?_, ?_⟩
      · simp only [pre_order_loop, hlog]; exact PreRun.abort
      · simp only [pre_order_loop, hlog]
      · simp only [pre_order_loop, hlog]
      · intro v hv
        rcases List.mem_singleton.1 hv with rfl
        exact hres
    | CONTINUE =>
      by_cases hd : e.d_type = DT_DIR
      · cases opens with
        | false =>
          obtain ⟨tr, h1, h2, h3, h4⟩ :=
            ihr dirfd p t u (log ++ [⟨p ++ [e.d_name], e, CONTINUE⟩]) hp
          have hx : xopenat t dirfd e.d_name false = (-1, t) := by simp [xopenat, hp]
          refine ⟨⟨p ++ [e.d_name], e, CONTINUE⟩ :: tr, ?_, ?_, ?_, ?_⟩
          · simp only [pre_order_loop, hlog, hd, if_true, hx, pre_frame_closed]
            simpa using PreRun.pass (Or.inr rfl) h1
          · simp only [pre_order_loop, hlog, hd, if_true, hx, pre_frame_closed]
            simpa using h2
          · simp only [pre_order_loop, hlog, hd, if_true, hx, pre_frame_closed]
            simp [h3]
          · intro v hv
            rcases List.mem_cons.1 hv with rfl | hv
            · exact hres
            · exact h4 v hv
        | true =>
          have hx : xopenat t dirfd e.d_name true = t.alloc (p ++ [e.d_name]) := by
            simp [xopenat, hp]
          have hl := FdTable.lookup_alloc t (p ++ [e.d_name])
          obtain ⟨tr1, a1, a2, a3, a4⟩ :=
            ihs (t.alloc (p ++ [e.d_name])).1 (p ++ [e.d_name]) (t.alloc (p ++ [e.d_name])).2 u
              (log ++ [⟨p ++ [e.d_name], e, CONTINUE⟩]) hl
          set inner := pre_order_loop (logged fn) (t.alloc (p ++ [e.d_name])).1 sub
              ((t.alloc (p ++ [e.d_name])).2, (u, log ++ [⟨p ++ [e.d_name], e, CONTINUE⟩]))
            with hinner
          have hframe : pre_order_walk_frame (t.alloc (p ++ [e.d_name])).1
              (pre_order_loop (logged fn) (t.alloc (p ++ [e.d_name])).1 sub)
              ((t.alloc (p ++ [e.d_name])).2, (u, log ++ [⟨p ++ [e.d_name], e, CONTINUE⟩]))
              = (inner.1, (t, inner.2.2)) := by
            rw [pre_frame_open _ _ _ _ hl, ← hinner, a2, FdTable.close_alloc]
          by_cases hab : inner.1 = ABORT
          · refine ⟨⟨p ++ [e.d_name], e, CONTINUE⟩ :: tr1, ?_, ?_, ?_, ?_⟩
            · simp only [pre_order_loop, hlog, hd, if_true, hx, hframe, hab]
              exact PreRun.downAbort hd (hab ▸ a1)
            · simp only [pre_order_loop, hlog, hd, if_true, hx, hframe, hab]
            · simp only [pre_order_loop, hlog, hd, if_true, hx, hframe, hab]
              simp [a3]
            · intro v hv
              rcases List.mem_cons.1 hv with rfl | hv
              · exact hres
              · exact a4 v hv
          · have hc : inner.1 = CONTINUE := by
              rcases a1.result with h | h
              · exact h
              · exact absurd h hab
            obtain ⟨tr2, b1, b2, b3, b4⟩ := ihr dirfd p t inner.2.2.1 inner.2.2.2 hp
            refine ⟨⟨p ++ [e.d_name], e, CONTINUE⟩ :: (tr1 ++ tr2), ?_, ?_, ?_, ?_⟩
            · simp only [pre_order_loop, hlog, hd, if_true, hx, hframe, hab, if_false]
              exact PreRun.down hd (hc ▸ a1) b1
            · simp only [pre_order_loop, hlog, hd, if_true, hx, hframe, hab, if_false]
              exact b2
            · simp only [pre_order_loop, hlog, hd, if_true, hx, hframe, hab, if_false]
              rw [b3, a3]; simp
            · intro v hv
              rcases List.mem_cons.1 hv with rfl | hv
              · exact hres
              · rcases List.mem_append.1 hv with hv | hv
                · exact a4 v hv
                · exact b4 v hv
      · obtain ⟨tr, h1, h2, h3, h4⟩ :=
          ihr dirfd p t u (log ++ [⟨p ++ [e.d_name], e, CONTINUE⟩]) hp
        refine ⟨⟨p ++ [e.d_name], e, CONTINUE⟩ :: tr, ?_, ?_, ?_, ?_⟩
        · simp only [pre_order_loop, hlog, hd, if_false]
          exact PreRun.pass (Or.inl hd) h1
        · simp only [pre_order_loop, hlog, hd, if_false]; exact h2
        · simp only [pre_order_loop, hlog, hd, if_false]; simp [h3]
        · intro v hv
          rcases List.mem_cons.1 hv with rfl | hv
          · exact hres
          · exact h4 v hv


/-! ## The entries of a tree -/

theorem Listing.entries_below (l : Listing) :
    ∀ (p x : Path), x ∈ l.entries p → p <+: x ∧ p.length < x.length := by
  induction l with
  | done => intro p x h; simp [Listing.entries] at h
  | entry e o sub rest ihs ihr =>
    intro p x h
    simp only [Listing.entries, List.mem_cons, List.mem_append] at h
    rcases h with rfl | h | h
    · exact ⟨List.prefix_append _ _, by simp⟩
    · by_cases hd : e.d_type = DT_DIR
      · simp only [hd, if_true] at h
        obtain ⟨h1, h2⟩ := ihs _ _ h
        refine ⟨(List.prefix_append _ _).trans h1, ?_⟩
        simp at h2; omega
      · simp [hd] at h
    · exact ihr _ _ h

theorem Listing.entries_head (l : Listing) :
    ∀ (p x : Path), x ∈ l.entries p → ∃ m ∈ l.names, (p ++ [m]) <+: x := by
  induction l with
  | done => intro p x h; simp [Listing.entries] at h
  | entry e o sub rest ihs ihr =>
    intro p x h
    simp only [Listing.entries, List.mem_cons, List.mem_append] at h
    rcases h with rfl | h | h
    · exact ⟨e.d_name, by simp [Listing.names], List.prefix_refl _⟩
    · by_cases hd : e.d_type = DT_DIR
      · simp only [hd, if_true] at h
        exact ⟨e.d_name, by simp [Listing.names], (Listing.entries_below sub _ _ h).1⟩
      · simp [hd] at h
    · obtain ⟨m, hm, hx⟩ := ihr _ _ h
      exact ⟨m, by simp [Listing.names, hm], hx⟩

theorem Listing.names_entries (l : Listing) (p : Path) :
    ∀ m ∈ l.names, p ++ [m] ∈ l.entries p := by
  induction l with
  | done => intro m h; simp [Listing.names] at h
  | entry e o sub rest _ ihr =>
    intro m h
    simp only [Listing.names, List.mem_cons] at h
    simp only [Listing.entries, List.mem_cons, List.mem_append]
    rcases h with rfl | h
    · exact Or.inl rfl
    · exact Or.inr (Or.inr (ihr m h))

/-- Two entries below different names of one directory: neither path extends the other. -/
theorem apart_of_names {p x y : Path} {n m : String} (hnm : n ≠ m)
    (hx : (p ++ [n]) <+: x) (hy : (p ++ [m]) <+: y) : ¬ x <+: y ∧ ¬ y <+: x := by
  have key : ∀ z : Path, (p ++ [n]) <+: z → (p ++ [m]) <+: z → False := by
    intro z h1 h2
    have h3 := List.prefix_of_prefix_length_le h1 h2 (by simp)
    have h4 := h3.eq_of_length (by simp)
    have h5 := List.append_cancel_left h4
    simp at h5
    exact hnm h5
  exact ⟨fun h => key y (hx.trans h) hy, fun h => key x hx (hy.trans h)⟩

theorem Listing.name_fresh {e : dirent} {o : Bool} {sub rest : Listing} {p : Path}
    (h : ((Listing.entry e o sub rest).entries p).Nodup) : e.d_name ∉ rest.names := by
  intro hm
  simp only [Listing.entries, List.nodup_cons, List.mem_append] at h
  exact h.1 (Or.inr (Listing.names_entries rest p _ hm))

/-- Below a directory entry and below its later siblings lie different paths. -/
theorem Listing.apart {e : dirent} {o : Bool} {sub rest : Listing} {p x y : Path}
    (h : ((Listing.entry e o sub rest).entries p).Nodup)
    (hx : (p ++ [e.d_name]) <+: x) (hy : y ∈ rest.entries p) : ¬ x <+: y ∧ ¬ y <+: x := by
  obtain ⟨m, hm, hpy⟩ := Listing.entries_head rest p y hy
  have hne : e.d_name ≠ m := fun hh => Listing.name_fresh h (hh ▸ hm)
  exact apart_of_names hne hx hpy

theorem Listing.nodup_parts {e : dirent} {o : Bool} {sub rest : Listing} {p : Path}
    (h : ((Listing.entry e o sub rest).entries p).Nodup) :
    (e.d_type = DT_DIR → (sub.entries (p ++ [e.d_name])).Nodup) ∧ (rest.entries p).Nodup := by
  simp only [Listing.entries, List.nodup_cons] at h
  have h2 := h.2
  rw [List.nodup_append] at h2
  refine ⟨fun hd => ?_, h2.2.1⟩
  simpa [hd] using h2.1

/-- In the enumeration of the entries, nothing is listed before a directory it lies in. -/
theorem Listing.entries_pairwise (l : Listing) :
    ∀ (p : Path), (l.entries p).Nodup → (l.entries p).Pairwise (fun a b => ¬ inside b a) := by
  induction l with
  | done => intro p _; simp [Listing.entries]
  | entry e o sub rest ihs ihr =>
    intro p h
    obtain ⟨hs, hr⟩ := Listing.nodup_parts h
    simp only [Listing.entries]
    rw [List.pairwise_cons]
    constructor
    · intro b hb hin
      rcases List.mem_append.1 hb with hb | hb
      · by_cases hd : e.d_type = DT_DIR
        · simp only [hd, if_true] at hb
          have := (Listing.entries_below sub _ _ hb).2
          have := hin.1.length_le
          omega
        · simp [hd] at hb
      · exact (Listing.apart h (List.prefix_refl _) hb).2 hin.1
    · rw [List.pairwise_append]
      refine ⟨?_, ihr p hr, ?_⟩
      · by_cases hd : e.d_type = DT_DIR
        · simp only [hd, if_true]; exact ihs _ (hs hd)
        · simp [hd]
      · intro a ha b hb hin
        by_cases hd : e.d_type = DT_DIR
        · simp only [hd, if_true] at ha
          exact (Listing.apart h (Listing.entries_below sub _ _ ha).1 hb).2 hin.1
        · simp [hd] at ha


/-! ## Facts about runs -/

theorem PreRun.paths_sublist {p : Path} {l : Listing} {tr : List Visit} {r : walk_result}
    (h : PreRun p l tr r) : (tr.map Visit.path).Sublist (l.entries p) := by
  induction h with
  | done => simp [Listing.entries]
  | skip _ ih =>
    simp only [List.map_cons, Listing.entries]
    exact List.Sublist.cons₂ _ (ih.trans (List.sublist_append_right _ _))
  | abort =>
    simp only [List.map_cons, List.map_nil, Listing.entries]
    exact List.Sublist.cons₂ _ (List.nil_sublist _)
  | pass _ _ ih =>
    simp only [List.map_cons, Listing.entries]
    exact List.Sublist.cons₂ _ (ih.trans (List.sublist_append_right _ _))
  | down hd _ _ ih1 ih2 =>
    simp only [List.map_cons, List.map_append, Listing.entries, hd, if_true]
    exact List.Sublist.cons₂ _ (List.Sublist.append ih1 ih2)
  | downAbort hd _ ih1 =>
    simp only [List.map_cons, Listing.entries, hd, if_true]
    exact List.Sublist.cons₂ _ (ih1.trans (List.sublist_append_left _ _))

theorem PreRun.mem_entries {p : Path} {l : Listing} {tr : List Visit} {r : walk_result}
    (h : PreRun p l tr r) {v : Visit} (hv : v ∈ tr) : v.path ∈ l.entries p :=
  h.paths_sublist.subset (List.mem_map_of_mem _ hv)

theorem PreRun.all_continue {p : Path} {l : Listing} {tr : List Visit} {r : walk_result}
    (h : PreRun p l tr r) (hc : ∀ v ∈ tr, v.res = CONTINUE) :
    tr.map Visit.path = l.reach p ∧ r = CONTINUE := by
  induction h with
  | done => simp [Listing.reach]
  | skip _ _ => have := hc _ (List.mem_cons_self _ _); simp at this
  | abort => have := hc _ (List.mem_cons_self _ _); simp at this
  | pass hcl _ ih =>
    obtain ⟨h1, h2⟩ := ih (fun v hv => hc v (List.mem_cons_of_mem _ hv))
    refine ⟨?_, h2⟩
    simp only [List.map_cons, Listing.reach, h1]
    rcases hcl with hcl | hcl <;> simp [hcl]
  | down hd _ _ ih1 ih2 =>
    obtain ⟨h1, _⟩ := ih1 (fun v hv =>
      hc v (List.mem_cons_of_mem _ (List.mem_append_left _ hv)))
    obtain ⟨h2, h3⟩ := ih2 (fun v hv =>
      hc v (List.mem_cons_of_mem _ (List.mem_append_right _ hv)))
    refine ⟨?_, h3⟩
    simp [Listing.reach, h1, h2, hd]
  | downAbort _ _ ih1 =>
    have := (ih1 (fun v hv => hc v (List.mem_cons_of_mem _ hv))).2
    simp at this

/-- No visit follows a visit that returned `ABORT`, and the loop returns
`ABORT` exactly when some visit did. -/
theorem PreRun.abort_last {p : Path} {l : Listing} {tr : List Visit} {r : walk_result}
    (h : PreRun p l tr r) :
    tr.Pairwise (fun a _ => a.res ≠ ABORT) ∧ (r = ABORT ↔ ∃ v ∈ tr, v.res = ABORT) := by
  induction h with
  | done => simp
  | skip _ ih =>
    refine ⟨List.pairwise_cons.2 ⟨fun _ _ => by simp, ih.1⟩, ?_⟩
    rw [ih.2]; simp
  | abort => simp
  | pass _ _ ih =>
    refine ⟨List.pairwise_cons.2 ⟨fun _ _ => by simp, ih.1⟩, ?_⟩
    rw [ih.2]; simp
  | @down p e sub rest tr1 tr2 r _ _ _ ih1 ih2 =>
    have hno : ∀ v ∈ tr1, v.res ≠ ABORT := fun v hv hab => by
      have := ih1.2.2 ⟨v, hv, hab⟩
      simp at this
    refine ⟨List.pairwise_cons.2 ⟨fun _ _ => by simp, ?_⟩, ?_⟩
    · rw [List.pairwise_append]
      exact ⟨ih1.1, ih2.1, fun a ha _ _ => hno a ha⟩
    · rw [ih2.2]
      constructor
      · rintro ⟨v, hv, hab⟩
        exact ⟨v, List.mem_cons_of_mem _ (List.mem_append_right _ hv), hab⟩
      · rintro ⟨v, hv, hab⟩
        rcases List.mem_cons.1 hv with rfl | hv
        · simp at hab
        · rcases List.mem_append.1 hv with hv | hv
          · exact absurd hab (hno v hv)
          · exact ⟨v, hv, hab⟩
  | downAbort _ _ ih1 =>
    refine ⟨List.pairwise_cons.2 ⟨fun _ _ => by simp, ih1.1⟩, ?_⟩
    simp only [true_iff]
    obtain ⟨v, hv, hab⟩ := ih1.2.1 rfl
    exact ⟨v, List.mem_cons_of_mem _ hv, hab⟩

/-- Without an `ABORT` every entry directly in the listing is visited. -/
theorem PreRun.names_visited {p : Path} {l : Listing} {tr : List Visit} {r : walk_result}
    (h : PreRun p l tr r) (hc : ∀ v ∈ tr, v.res ≠ ABORT) :
    ∀ m ∈ l.names, p ++ [m] ∈ tr.map Visit.path := by
  induction h with
  | done => intro m hm; simp [Listing.names] at hm
  | skip _ ih =>
    intro m hm
    simp only [Listing.names, List.mem_cons] at hm
    simp only [List.map_cons, List.mem_cons]
    rcases hm with rfl | hm
    · exact Or.inl rfl
    · exact Or.inr (ih (fun v hv => hc v (List.mem_cons_of_mem _ hv)) m hm)
  | abort => have := hc _ (List.mem_cons_self _ _); simp at this
  | pass _ _ ih =>
    intro m hm
    simp only [Listing.names, List.mem_cons] at hm
    simp only [List.map_cons, List.mem_cons]
    rcases hm with rfl | hm
    · exact Or.inl rfl
    · exact Or.inr (ih (fun v hv => hc v (List.mem_cons_of_mem _ hv)) m hm)
  | down _ _ _ _ ih2 =>
    intro m hm
    simp only [Listing.names, List.mem_cons] at hm
    simp only [List.map_cons, List.mem_cons, List.map_append, List.mem_append]
    rcases hm with rfl | hm
    · exact Or.inl rfl
    · exact Or.inr (Or.inr (ih2 (fun v hv =>
        hc v (List.mem_cons_of_mem _ (List.mem_append_right _ hv))) m hm))
  | downAbort _ h1 _ =>
    exfalso
    obtain ⟨v, hv, hab⟩ := h1.abort_last.2.1 rfl
    exact hc v (List.mem_cons_of_mem _ hv) hab


/-- Nothing inside an entry on which the visitor returned `SKIP` is visited. -/
theorem PreRun.skip_closed {p : Path} {l : Listing} {tr : List Visit} {r : walk_result}
    (h : PreRun p l tr r) (hnd : (l.entries p).Nodup) :
    ∀ v ∈ tr, v.res = SKIP → ∀ w ∈ tr, ¬ inside v.path w.path := by
  induction h with
  | done => intro v hv; simp at hv
  | @skip p e o sub rest tr r h1 ih =>
    obtain ⟨_, hr⟩ := Listing.nodup_parts hnd
    intro v hv hs w hw hin
    rcases List.mem_cons.1 hv with rfl | hv <;> rcases List.mem_cons.1 hw with rfl | hw
    · exact hin.2 rfl
    · exact (Listing.apart hnd (List.prefix_refl _) (h1.mem_entries hw)).1 hin.1
    · exact (Listing.apart hnd (List.prefix_refl _) (h1.mem_entries hv)).2 hin.1
    · exact ih hr v hv hs w hw hin
  | abort =>
    intro v hv hs
    rcases List.mem_singleton.1 hv with rfl
    simp at hs
  | @pass p e o sub rest tr r _ h1 ih =>
    obtain ⟨_, hr⟩ := Listing.nodup_parts hnd
    intro v hv hs w hw hin
    rcases List.mem_cons.1 hv with rfl | hv <;> rcases List.mem_cons.1 hw with rfl | hw
    · exact hin.2 rfl
    · simp at hs
    · exact (Listing.apart hnd (List.prefix_refl _) (h1.mem_entries hv)).2 hin.1
    · exact ih hr v hv hs w hw hin
  | @down p e sub rest tr1 tr2 r hd h1 h2 ih1 ih2 =>
    obtain ⟨hsn, hr⟩ := Listing.nodup_parts hnd
    intro v hv hs w hw hin
    rcases List.mem_cons.1 hv with rfl | hv
    · simp at hs
    rcases List.mem_append.1 hv with hv | hv <;> rcases List.mem_cons.1 hw with rfl | hw
    · have := (Listing.entries_below sub _ _ (h1.mem_entries hv)).2
      have := hin.1.length_le
      simp at *; omega
    · rcases List.mem_append.1 hw with hw | hw
      · exact ih1 (hsn hd) v hv hs w hw hin
      · exact (Listing.apart hnd (Listing.entries_below sub _ _ (h1.mem_entries hv)).1
          (h2.mem_entries hw)).1 hin.1
    · exact (Listing.apart hnd (List.prefix_refl _) (h2.mem_entries hv)).2 hin.1
    · rcases List.mem_append.1 hw with hw | hw
      · exact (Listing.apart hnd (Listing.entries_below sub _ _ (h1.mem_entries hw)).1
          (h2.mem_entries hv)).2 hin.1
      · exact ih2 hr v hv hs w hw hin
  | @downAbort p e sub rest tr1 hd h1 ih1 =>
    obtain ⟨hsn, _⟩ := Listing.nodup_parts hnd
    intro v hv hs w hw hin
    rcases List.mem_cons.1 hv with rfl | hv
    · simp at hs
    rcases List.mem_cons.1 hw with rfl | hw
    · have := (Listing.entries_below sub _ _ (h1.mem_entries hv)).2
      have := hin.1.length_le
      simp at *; omega
    · exact ih1 (hsn hd) v hv hs w hw hin

theorem Listing.laterSiblings_mem (l : Listing) :
    ∀ (p : Path) (xy : Path × Path), xy ∈ l.laterSiblings p →
      xy.1 ∈ l.entries p ∧ xy.2 ∈ l.entries p := by
  induction l with
  | done => intro p xy h; simp [Listing.laterSiblings] at h
  | entry e o sub rest ihs ihr =>
    intro p xy h
    simp only [Listing.laterSiblings, List.mem_append, List.mem_map] at h
    simp only [Listing.entries, List.mem_cons, List.mem_append]
    rcases h with ⟨m, hm, rfl⟩ | h | h
    · exact ⟨Or.inl rfl, Or.inr (Or.inr (Listing.names_entries rest p m hm))⟩
    · by_cases hd : e.d_type = DT_DIR
      · simp only [hd, if_true] at h ⊢
        obtain ⟨h1, h2⟩ := ihs _ _ h
        exact ⟨Or.inr (Or.inl h1), Or.inr (Or.inl h2)⟩
      · simp [hd] at h
    · obtain ⟨h1, h2⟩ := ihr _ _ h
      exact ⟨Or.inr (Or.inr h1), Or.inr (Or.inr h2)⟩

/-- Without an `ABORT`, a later sibling of a visited entry is visited after it. -/
theorem PreRun.siblings {p : Path} {l : Listing} {tr : List Visit} {r : walk_result}
    (h : PreRun p l tr r) (hnd : (l.entries p).Nodup) (hc : ∀ v ∈ tr, v.res ≠ ABORT) :
    ∀ xy ∈ l.laterSiblings p, xy.1 ∈ tr.map Visit.path →
      List.Sublist [xy.1, xy.2] (tr.map Visit.path) := by
  have key : ∀ {p : Path} {e : dirent} {o : Bool} {sub rest : Listing}
      {tr1 tr2 : List Visit} {r2 : walk_result},
      ((Listing.entry e o sub rest).entries p).Nodup →
      (∀ x ∈ tr1.map Visit.path, e.d_type = DT_DIR ∧ x ∈ sub.entries (p ++ [e.d_name])) →
      PreRun p rest tr2 r2 → (∀ v ∈ tr2, v.res ≠ ABORT) →
      (∀ xy ∈ sub.laterSiblings (p ++ [e.d_name]), e.d_type = DT_DIR →
        xy.1 ∈ tr1.map Visit.path → List.Sublist [xy.1, xy.2] (tr1.map Visit.path)) →
      (∀ xy ∈ rest.laterSiblings p, xy.1 ∈ tr2.map Visit.path →
        List.Sublist [xy.1, xy.2] (tr2.map Visit.path)) →
      ∀ xy ∈ (Listing.entry e o sub rest).laterSiblings p,
        xy.1 ∈ (p ++ [e.d_name]) :: (tr1.map Visit.path ++ tr2.map Visit.path) →
        List.Sublist [xy.1, xy.2]
          ((p ++ [e.d_name]) :: (tr1.map Visit.path ++ tr2.map Visit.path)) := by
    intro p e o sub rest tr1 tr2 r2 hnd h1 h2 hc2 ihs ihr xy hxy hx
    have hnd2 := hnd
    simp only [Listing.entries, List.nodup_cons, List.mem_append, not_or] at hnd2
    obtain ⟨⟨hx0s, hx0r⟩, hsr⟩ := hnd2
    have hdisj := (List.nodup_append.1 hsr).2.2
    simp only [Listing.laterSiblings, List.mem_append, List.mem_map] at hxy
    rcases hxy with ⟨m, hm, rfl⟩ | hxy | hxy
    · refine List.Sublist.cons₂ _ (List.singleton_sublist.2 ?_)
      exact List.mem_append_right _ (h2.names_visited hc2 m hm)
    · by_cases hd : e.d_type = DT_DIR
      · simp only [hd, if_true] at hxy hx0s hdisj
        have hxs := (Listing.laterSiblings_mem sub _ _ hxy).1
        rcases List.mem_cons.1 hx with hx | hx
        · exact absurd (hx ▸ hxs) hx0s
        · rcases List.mem_append.1 hx with hx | hx
          · exact (List.Sublist.cons _ ((ihs xy hxy hd hx).trans
              (List.sublist_append_left _ _)))
          · exact absurd (h2.paths_sublist.subset hx) (fun hh => hdisj hxs hh)
      · simp [hd] at hxy
    · have hxr := (Listing.laterSiblings_mem rest _ _ hxy).1
      rcases List.mem_cons.1 hx with hx | hx
      · exact absurd (hx ▸ hxr) hx0r
      · rcases List.mem_append.1 hx with hx | hx
        · obtain ⟨hd, hxs⟩ := h1 _ hx
          have : xy.1 ∈ (if e.d_type = DT_DIR then sub.entries (p ++ [e.d_name]) else []) := by
            simpa [hd] using hxs
          exact absurd hxr (fun hh => hdisj this hh)
        · exact (List.Sublist.cons _ ((ihr xy hxy hx).trans
            (List.sublist_append_right _ _)))
  induction h with
  | done => intro xy hxy; simp [Listing.laterSiblings] at hxy
  | @skip p e o sub rest tr r h1 ih =>
    have hr := (Listing.nodup_parts hnd).2
    have hc2 : ∀ v ∈ tr, v.res ≠ ABORT := fun v hv => hc v (List.mem_cons_of_mem _ hv)
    have := @key p e o sub rest [] tr r hnd (by simp) h1 hc2 (by simp) (ih hr hc2)
    simpa using this
  | abort => have := hc _ (List.mem_cons_self _ _); simp at this
  | @pass p e o sub rest tr r _ h1 ih =>
    have hr := (Listing.nodup_parts hnd).2
    have hc2 : ∀ v ∈ tr, v.res ≠ ABORT := fun v hv => hc v (List.mem_cons_of_mem _ hv)
    have := @key p e o sub rest [] tr r hnd (by simp) h1 hc2 (by simp) (ih hr hc2)
    simpa using this
  | @down p e sub rest tr1 tr2 r hd h1 h2 ih1 ih2 =>
    obtain ⟨hsn, hr⟩ := Listing.nodup_parts hnd
    have hc1 : ∀ v ∈ tr1, v.res ≠ ABORT := fun v hv =>
      hc v (List.mem_cons_of_mem _ (List.mem_append_left _ hv))
    have hc2 : ∀ v ∈ tr2, v.res ≠ ABORT := fun v hv =>
      hc v (List.mem_cons_of_mem _ (List.mem_append_right _ hv))
    have := @key p e true sub rest tr1 tr2 r hnd
      (fun x hx => ⟨hd, h1.paths_sublist.subset hx⟩) h2 hc2
      (fun xy hxy _ hx => ih1 (hsn hd) hc1 xy hxy hx) (ih2 hr hc2)
    simpa using this
  | downAbort _ h1 _ =>
    exfalso
    obtain ⟨v, hv, hab⟩ := h1.abort_last.2.1 rfl
    exact hc v (List.mem_cons_of_mem _ hv) hab

/-- In a list without repetition, when `y` is listed after `x` it lies in the
part that follows `x`. -/
theorem mem_after_of_pair_sublist {α : Type} {x y : α} {L pre post : List α}
    (hs : List.Sublist [x, y] L) (hnd : L.Nodup) (hL : L = pre ++ x :: post) : y ∈ post := by
  subst hL
  have hxpre : x ∉ pre := fun hh => by
    have := (List.nodup_append.1 hnd).2.2 hh (List.mem_cons_self _ _)
    exact this
  have hxpost : x ∉ post := by
    have := (List.nodup_append.1 hnd).2.1
    exact (List.nodup_cons.1 this).1
  obtain ⟨l1, l2, h12, hl1, hl2⟩ := List.sublist_append_iff.1 hs
  cases l1 with
  | nil =>
    simp only [List.nil_append] at h12
    subst h12
    cases hl2 with
    | cons _ h => exact absurd (h.subset (List.mem_cons_self _ _)) hxpost
    | cons₂ _ h => exact List.singleton_sublist.1 h
  | cons a l1 =>
    simp only [List.cons_append, List.cons.injEq] at h12
    exact absurd (hl1.subset (h12.1 ▸ List.mem_cons_self _ _)) hxpre


/-! ## Reachable entries and the post-order walker -/

theorem Listing.reach_eq_entries (l : Listing) :
    ∀ (p : Path), l.allOpen = true → l.reach p = l.entries p := by
  induction l with
  | done => intro p _; rfl
  | entry e o sub rest ihs ihr =>
    intro p h
    simp only [Listing.allOpen, Bool.and_eq_true] at h
    simp only [Listing.reach, Listing.entries, ihr p h.2]
    by_cases hd : e.d_type = DT_DIR
    · simp only [hd, if_true, Bool.and_eq_true] at h
      simp [hd, h.1.1, ihs _ h.1.2]
    · simp [hd]

theorem Listing.reach_sublist (l : Listing) :
    ∀ (p : Path), (l.reach p).Sublist (l.entries p) := by
  induction l with
  | done => intro p; simp [Listing.reach, Listing.entries]
  | entry e o sub rest ihs ihr =>
    intro p
    simp only [Listing.reach, Listing.entries]
    refine List.Sublist.cons₂ _ (List.Sublist.append ?_ (ihr p))
    by_cases hd : e.d_type = DT_DIR
    · cases o <;> simp [hd, ihs]
    · simp [hd]

theorem perm_post_pre {α : Type} {A B R S : List α} (x : α) (h1 : A.Perm B) (h2 : R.Perm S) :
    ((A ++ [x]) ++ R).Perm (x :: (B ++ S)) := by
  have h3 : (A ++ [x]).Perm (x :: B) :=
    (List.perm_append_comm).trans (List.Perm.cons x h1)
  exact (List.Perm.append h3 h2)

theorem Listing.reachPost_perm (l : Listing) :
    ∀ (p : Path), (l.reachPost p).Perm (l.reach p) := by
  induction l with
  | done => intro p; simp [Listing.reach, Listing.reachPost]
  | entry e o sub rest ihs ihr =>
    intro p
    simp only [Listing.reach, Listing.reachPost]
    refine perm_post_pre _ ?_ (ihr p)
    by_cases hd : e.d_type = DT_DIR ∧ o = true
    · simp only [hd, and_self, if_true]; exact ihs _
    · simp [hd]

/-- Every entry that does not lie inside a directory that cannot be opened is reached. -/
theorem Listing.mem_reach (l : Listing) :
    ∀ (p x : Path), x ∈ l.entries p → (∀ d ∈ l.closedDirs p, ¬ inside d x) → x ∈ l.reach p := by
  induction l with
  | done => intro p x h; simp [Listing.entries] at h
  | entry e o sub rest ihs ihr =>
    intro p x h hc
    simp only [Listing.entries, List.mem_cons, List.mem_append] at h
    simp only [Listing.reach, List.mem_cons, List.mem_append]
    rcases h with rfl | h | h
    · exact Or.inl rfl
    · by_cases hd : e.d_type = DT_DIR
      · simp only [hd, if_true] at h
        have hb := Listing.entries_below sub _ _ h
        cases o with
        | true =>
          refine Or.inr (Or.inl ?_)
          simp only [hd, and_self, if_true]
          apply ihs _ _ h
          intro d hdm
          apply hc
          simp [Listing.closedDirs, hd, hdm]
        | false =>
          exfalso
          apply hc (p ++ [e.d_name])
          · simp [Listing.closedDirs, hd]
          · exact ⟨hb.1, fun hh => by have := hb.2; rw [← hh] at this; omega⟩
      · simp [hd] at h
    · refine Or.inr (Or.inr (ihr _ _ h ?_))
      intro d hdm
      apply hc
      simp [Listing.closedDirs, hdm]

theorem Listing.closedDirs_entries (l : Listing) :
    ∀ (p d : Path), d ∈ l.closedDirs p → d ∈ l.entries p := by
  induction l with
  | done => intro p d h; simp [Listing.closedDirs] at h
  | entry e o sub rest ihs ihr =>
    intro p d h
    simp only [Listing.closedDirs, List.mem_append] at h
    simp only [Listing.entries, List.mem_cons, List.mem_append]
    rcases h with h | h
    · by_cases hd : e.d_type = DT_DIR
      · simp only [hd, if_true, List.mem_append] at h ⊢
        rcases h with h | h
        · cases o <;> simp at h
          exact Or.inl h
        · exact Or.inr (Or.inl (ihs _ _ h))
      · simp [hd] at h
    · exact Or.inr (Or.inr (ihr _ _ h))

/-- In the post-order enumeration nothing is listed after a directory it lies in. -/
theorem Listing.reachPost_pairwise (l : Listing) :
    ∀ (p : Path), (l.entries p).Nodup →
      (l.reachPost p).Pairwise (fun a b => ¬ inside a b) := by
  induction l with
  | done => intro p _; simp [Listing.reachPost]
  | entry e o sub rest ihs ihr =>
    intro p h
    obtain ⟨hs, hr⟩ := Listing.nodup_parts h
    have memr : ∀ y ∈ rest.reachPost p, y ∈ rest.entries p := fun y hy =>
      (Listing.reach_sublist rest p).subset ((Listing.reachPost_perm rest p).subset hy)
    have mems : ∀ y ∈ sub.reachPost (p ++ [e.d_name]), y ∈ sub.entries (p ++ [e.d_name]) :=
      fun y hy => (Listing.reach_sublist sub _).subset ((Listing.reachPost_perm sub _).subset hy)
    simp only [Listing.reachPost]
    rw [List.pairwise_append]
    refine ⟨?_, ihr p hr, ?_⟩
    · rw [List.pairwise_append]
      refine ⟨?_, by simp, ?_⟩
      · by_cases hd : e.d_type = DT_DIR ∧ o = true
        · simp only [hd, and_self, if_true]; exact ihs _ (hs hd.1)
        · simp [hd]
      · intro a ha b hb hin
        rcases List.mem_singleton.1 hb with rfl
        by_cases hd : e.d_type = DT_DIR ∧ o = true
        · simp only [hd, and_self, if_true] at ha
          have := (Listing.entries_below sub _ _ (mems a ha)).2
          have := hin.1.length_le
          omega
        · simp [hd] at ha
    · intro a ha b hb hin
      rcases List.mem_append.1 ha with ha | ha
      · by_cases hd : e.d_type = DT_DIR ∧ o = true
        · simp only [hd, and_self, if_true] at ha
          exact (Listing.apart h (Listing.entries_below sub _ _ (mems a ha)).1
            (memr b hb)).1 hin.1
        · simp [hd] at ha
      · rcases List.mem_singleton.1 ha with rfl
        exact (Listing.apart h (List.prefix_refl _) (memr b hb)).1 hin.1

theorem post_frame_open {σ : Type} (dirfd : Int) (loop : FdTable × σ → FdTable × σ)
    (s : FdTable × σ) (p : Path) (h : s.1.lookup dirfd = some p) :
    post_order_walk_frame dirfd loop s = ((loop s).1.close dirfd, (loop s).2) := by
  simp [post_order_walk_frame, h]

theorem post_frame_closed {σ : Type} (loop : FdTable × σ → FdTable × σ) (s : FdTable × σ) :
    post_order_walk_frame (-1) loop s = s := by
  simp [post_order_walk_frame, FdTable.lookup_neg]

/-- The loop of `post_order_walk` leaves the descriptor table as it found it
and invokes the visitor on the reachable entries, content before directory. -/
theorem post_loop_run {σ : Type} (fn : PostVisitor σ) (l : Listing) :
    ∀ (dirfd : Int) (p : Path) (t : FdTable) (s : σ) (log : List Path),
      t.lookup dirfd = some p →
      (post_order_loop (loggedPost fn) dirfd l (t, (s, log))).1 = t ∧
      (post_order_loop (loggedPost fn) dirfd l (t, (s, log))).2.2 = log ++ l.reachPost p := by
  induction l with
  | done => intro dirfd p t s log _; simp [post_order_loop, Listing.reachPost]
  | entry e opens sub rest ihs ihr =>
    intro dirfd p t s log hp
    by_cases hd : e.d_type = DT_DIR
    · cases opens with
      | false =>
        have hx : xopenat t dirfd e.d_name false = (-1, t) := by simp [xopenat, hp]
        simp only [post_order_loop, hd, if_true, hx, post_frame_closed]
        obtain ⟨h1, h2⟩ := ihr dirfd p t (fn t dirfd e s) (log ++ [p ++ [e.d_name]]) hp
        simp only [loggedPost, hp, Option.getD_some]
        refine ⟨h1, ?_⟩
        rw [h2]; simp [Listing.reachPost, hd]
      | true =>
        have hx : xopenat t dirfd e.d_name true = t.alloc (p ++ [e.d_name]) := by
          simp [xopenat, hp]
        have hl := FdTable.lookup_alloc t (p ++ [e.d_name])
        obtain ⟨a1, a2⟩ := ihs (t.alloc (p ++ [e.d_name])).1 (p ++ [e.d_name])
          (t.alloc (p ++ [e.d_name])).2 s log hl
        simp only [post_order_loop, hd, if_true, hx]
        rw [post_frame_open _ _ _ _ hl, a1, FdTable.close_alloc]
        simp only [loggedPost, hp, Option.getD_some]
        rw [a2]
        obtain ⟨h1, h2⟩ := ihr dirfd p t
          (fn t dirfd e
            (post_order_loop (loggedPost fn) (t.alloc (p ++ [e.d_name])).1 sub
              ((t.alloc (p ++ [e.d_name])).2, s, log)).2.1)
          (log ++ sub.reachPost (p ++ [e.d_name]) ++ [p ++ [e.d_name]]) hp
        refine ⟨h1, ?_⟩
        rw [h2]; simp [Listing.reachPost, hd]
    · simp only [post_order_loop, hd, if_false]
      obtain ⟨h1, h2⟩ := ihr dirfd p t (fn t dirfd e s) (log ++ [p ++ [e.d_name]]) hp
      simp only [loggedPost, hp, Option.getD_some]
      refine ⟨h1, ?_⟩
      rw [h2]; simp [Listing.reachPost, hd]


/-! ## The walkers on an open directory -/

/-- Recording the invocations does not change what the walker does. -/
theorem pre_loop_logged {σ : Type} (fn : Visitor σ) (l : Listing) :
    ∀ (dirfd : Int) (t : FdTable) (s : σ) (log : List Visit),
      (pre_order_loop (logged fn) dirfd l (t, (s, log))).1 = (pre_order_loop fn dirfd l (t, s)).1 ∧
      (pre_order_loop (logged fn) dirfd l (t, (s, log))).2.1
        = (pre_order_loop fn dirfd l (t, s)).2.1 ∧
      (pre_order_loop (logged fn) dirfd l (t, (s, log))).2.2.1
        = (pre_order_loop fn dirfd l (t, s)).2.2 := by
  induction l with
  | done => intro dirfd t s log; simp [pre_order_loop]
  | entry e opens sub rest ihs ihr =>
    intro dirfd t s log
    rcases hfn : fn t dirfd e s with ⟨r, u⟩
    have hlog : logged fn t dirfd e (s, log)
        = (r, (u, log ++ [⟨(t.lookup dirfd).getD [] ++ [e.d_name], e, r⟩])) := by
      simp [logged, hfn]
    cases r with
    | SKIP => simp only [pre_order_loop, hlog, hfn]; exact ihr _ _ _ _
    | ABORT => simp only [pre_order_loop, hlog, hfn, and_self]
    | CONTINUE =>
      by_cases hd : e.d_type = DT_DIR
      · simp only [pre_order_loop, hlog, hfn, hd, if_true]
        generalize xopenat t dirfd e.d_name opens = o
        generalize log ++ [⟨(t.lookup dirfd).getD [] ++ [e.d_name], e, CONTINUE⟩] = log1
        obtain ⟨a1, a2, a3⟩ := ihs o.1 o.2 u log1
        cases hlk : o.2.lookup o.1 with
        | none =>
          simp only [pre_order_walk_frame, hlk]
          simp only [reduceCtorEq, if_false]
          exact ihr _ _ _ _
        | some q =>
          simp only [pre_order_walk_frame, hlk]
          rw [a1, a2]
          by_cases hab : (pre_order_loop fn o.1 sub (o.2, u)).1 = ABORT
          · simp only [hab, if_true]
            exact ⟨trivial, trivial, a3⟩
          · simp only [hab, if_false]
            rw [← a3]
            exact ihr dirfd ((pre_order_loop fn o.1 sub (o.2, u)).2.1.close o.1)
              (pre_order_loop (logged fn) o.1 sub (o.2, u, log1)).2.2.1
              (pre_order_loop (logged fn) o.1 sub (o.2, u, log1)).2.2.2
      · simp only [pre_order_loop, hlog, hfn, hd, if_false]; exact ihr _ _ _ _

theorem pre_walk_logged {σ : Type} (fn : Visitor σ) (l : Listing) (dirfd : Int) (t : FdTable)
    (s : σ) (log : List Visit) :
    (pre_order_walk (logged fn) dirfd l (t, (s, log))).1 = (pre_order_walk fn dirfd l (t, s)).1 ∧
    (pre_order_walk (logged fn) dirfd l (t, (s, log))).2.1
      = (pre_order_walk fn dirfd l (t, s)).2.1 ∧
    (pre_order_walk (logged fn) dirfd l (t, (s, log))).2.2.1
      = (pre_order_walk fn dirfd l (t, s)).2.2 := by
  obtain ⟨a1, a2, a3⟩ := pre_loop_logged fn l dirfd t s log
  cases hlk : t.lookup dirfd with
  | none => simp [pre_order_walk, pre_order_walk_frame, hlk]
  | some q => simp [pre_order_walk, pre_order_walk_frame, hlk, a1, a2, a3]

/-- What `pre_order_walk` does on an open directory descriptor. -/
theorem pre_walk_run {σ : Type} (fn : Visitor σ) (l : Listing) (dirfd : Int) (p : Path)
    (t : FdTable) (s : σ) (hp : t.lookup dirfd = some p) :
    PreRun p l (preVisits fn dirfd l t s) (pre_order_walk fn dirfd l (t, s)).1 ∧
    (pre_order_walk fn dirfd l (t, s)).2.1 = t.close dirfd ∧
    (∀ v ∈ preVisits fn dirfd l t s, ∃ t1 fd1 s1, v.res = (fn t1 fd1 v.ent s1).1) := by
  obtain ⟨tr, h1, h2, h3, h4⟩ := pre_loop_run fn l dirfd p t s [] hp
  obtain ⟨e1, e2, _⟩ := pre_walk_logged fn l dirfd t s []
  have hv : preVisits fn dirfd l t s = tr := by
    simp [preVisits, pre_order_walk, pre_order_walk_frame, hp, h3]
  rw [hv, ← e1, ← e2]
  simp only [pre_order_walk, pre_order_walk_frame, hp]
  exact ⟨h1, by rw [h2], h4⟩


theorem post_loop_logged {σ : Type} (fn : PostVisitor σ) (l : Listing) :
    ∀ (dirfd : Int) (t : FdTable) (s : σ) (log : List Path),
      (post_order_loop (loggedPost fn) dirfd l (t, (s, log))).1
        = (post_order_loop fn dirfd l (t, s)).1 ∧
      (post_order_loop (loggedPost fn) dirfd l (t, (s, log))).2.1
        = (post_order_loop fn dirfd l (t, s)).2 := by
  induction l with
  | done => intro dirfd t s log; simp [post_order_loop]
  | entry e opens sub rest ihs ihr =>
    intro dirfd t s log
    by_cases hd : e.d_type = DT_DIR
    · simp only [post_order_loop, hd, if_true]
      generalize xopenat t dirfd e.d_name opens = o
      obtain ⟨a1, a2⟩ := ihs o.1 o.2 s log
      cases hlk : o.2.lookup o.1 with
      | none =>
        simp only [post_order_walk_frame, hlk, loggedPost]
        exact ihr _ _ _ _
      | some q =>
        simp only [post_order_walk_frame, hlk, loggedPost]
        rw [a1, a2]
        exact ihr _ _ _ _
    · simp only [post_order_loop, hd, if_false, loggedPost]
      exact ihr _ _ _ _

/-- What `post_order_walk` does on an open directory descriptor. -/
theorem post_walk_run {σ : Type} (fn : PostVisitor σ) (l : Listing) (dirfd : Int) (p : Path)
    (t : FdTable) (s : σ) (hp : t.lookup dirfd = some p) :
    postVisits fn dirfd l t s = l.reachPost p ∧
    (post_order_walk fn dirfd l (t, s)).1 = t.close dirfd := by
  obtain ⟨h1, h2⟩ := post_loop_run fn l dirfd p t s [] hp
  obtain ⟨e1, _⟩ := post_loop_logged fn l dirfd t s []
  constructor
  · simp [postVisits, post_order_walk, post_order_walk_frame, hp, h2]
  · simp only [post_order_walk, post_order_walk_frame, hp]
    rw [← e1, h1]


/-! ## Descriptors in the tree operations -/

theorem FdTable.lookup_alloc_other (t : FdTable) (q p : Path) (fd : Int)
    (h : t.lookup fd = some p) : (t.alloc q).2.lookup fd = some p := by
  have hn := t.lowest_not_mem
  unfold FdTable.lookup at h ⊢
  by_cases hneg : fd < 0
  · simp [hneg] at h
  · simp only [hneg, if_false] at h ⊢
    simp only [FdTable.alloc, List.find?_cons]
    have hne : ¬ (t.lowest = fd.toNat) := by
      intro heq
      apply hn
      cases hf : t.slots.find? (fun s => decide (s.1 = fd.toNat)) with
      | none => simp [hf] at h
      | some s =>
        have h1 := List.find?_some hf
        have h2 := List.mem_of_find?_eq_some hf
        simp at h1
        rw [heq, ← h1]
        exact List.mem_map_of_mem _ h2
    simp [hne, h]

/-- The outcome of the walkers opening an entry on the descriptor table. -/
theorem xopenat_table (t : FdTable) (dirfd : Int) (name : String) (opens : Bool) :
    (xopenat t dirfd name opens = (-1, t)) ∨
      ∃ q, xopenat t dirfd name opens = t.alloc q := by
  unfold xopenat
  cases t.lookup dirfd with
  | none => exact Or.inl rfl
  | some p =>
    cases opens with
    | false => exact Or.inl rfl
    | true => exact Or.inr ⟨_, rfl⟩

/-- The outcome of `openat` on the descriptor table. -/
theorem Sys.openat_table (k : Sys) (t : FdTable) (base : Option Path) (path : String)
    (flags mode : Nat) :
    ((k.openat t base path flags mode).1 = -1 ∧ (k.openat t base path flags mode).2.1 = t) ∨
      ∃ q, (k.openat t base path flags mode).1 = (t.alloc q).1 ∧
        (k.openat t base path flags mode).2.1 = (t.alloc q).2 := by
  unfold Sys.openat
  split
  · split
    · exact Or.inl ⟨rfl, rfl⟩
    · split
      · exact Or.inl ⟨rfl, rfl⟩
      · exact Or.inr ⟨_, rfl, rfl⟩
  · split
    · split
      · split
        · exact Or.inl ⟨rfl, rfl⟩
        · exact Or.inr ⟨_, rfl, rfl⟩
      · exact Or.inl ⟨rfl, rfl⟩
    · exact Or.inl ⟨rfl, rfl⟩

/-- A descriptor that an `open` may have delivered, closed again. -/
theorem close_opened {t t1 : FdTable} {fd : Int}
    (h : (fd = -1 ∧ t1 = t) ∨ ∃ q, fd = (t.alloc q).1 ∧ t1 = (t.alloc q).2) :
    t1.close fd = t := by
  rcases h with ⟨rfl, rfl⟩ | ⟨q, rfl, rfl⟩
  · exact FdTable.close_neg _
  · exact FdTable.close_alloc _ _

/-- A descriptor stays open across an `open`. -/
theorem lookup_opened {t t1 : FdTable} {fd : Int} {d : Int} {p : Path}
    (h : (fd = -1 ∧ t1 = t) ∨ ∃ q, fd = (t.alloc q).1 ∧ t1 = (t.alloc q).2)
    (hd : t.lookup d = some p) : t1.lookup d = some p := by
  rcases h with ⟨_, rfl⟩ | ⟨q, _, rfl⟩
  · exact hd
  · exact FdTable.lookup_alloc_other _ _ _ _ hd

theorem dir_frame_table {src dest : Int} {loop : FdTable × Sys → Option (FdTable × Sys)}
    {s r : FdTable × Sys} (hl : ∀ r, loop s = some r → r.1 = s.1)
    (h : dir_frame src dest loop s = some r) : r.1 = (s.1.close dest).close src := by
  unfold dir_frame at h
  split at h
  · simp at h
  · split at h
    · simp at h
    · next r1 hr1 =>
      simp only [Option.some.injEq] at h
      rw [← h, hl r1 hr1]


/-- One descent of `mv_dir`, `clone_dir` or `link_dir` into a subdirectory:
the source entry is opened from the listing, the destination on the
filesystem, the frame runs the loop of the subdirectory. When the call returns
the descriptor table is as before; and it returns when the entry opens. -/
theorem descend_table {t : FdTable} {src dest : Int} {p : Path} {name : String} {opens : Bool}
    {k : Sys} {flags mode : Nat}
    {loop : Int → Int → FdTable × Sys → Option (FdTable × Sys)} {A : Prop}
    (hsrc : t.lookup src = some p)
    (ih : ∀ (s d : Int) (q : Path) (t1 : FdTable) (k1 : Sys), t1.lookup s = some q →
      (∀ r, loop s d (t1, k1) = some r → r.1 = t1) ∧ (A → (loop s d (t1, k1)).isSome)) :
    (∀ r, dir_frame (xopenat t src name opens).1
        (k.xopenat (xopenat t src name opens).2 dest name flags mode).1
        (loop (xopenat t src name opens).1
          (k.xopenat (xopenat t src name opens).2 dest name flags mode).1)
        ((k.xopenat (xopenat t src name opens).2 dest name flags mode).2.1,
          (k.xopenat (xopenat t src name opens).2 dest name flags mode).2.2) = some r →
        r.1 = t) ∧
    (opens = true → A →
      (dir_frame (xopenat t src name opens).1
        (k.xopenat (xopenat t src name opens).2 dest name flags mode).1
        (loop (xopenat t src name opens).1
          (k.xopenat (xopenat t src name opens).2 dest name flags mode).1)
        ((k.xopenat (xopenat t src name opens).2 dest name flags mode).2.1,
          (k.xopenat (xopenat t src name opens).2 dest name flags mode).2.2)).isSome) := by
  cases opens with
  | false =>
    have hx : xopenat t src name false = (-1, t) := by simp [xopenat, hsrc]
    rw [hx]
    have h2 := Sys.openat_table k t (t.lookup dest) name flags mode
    have hl : (k.xopenat t dest name flags mode).2.1.lookup (-1) = none :=
      FdTable.lookup_neg _
    constructor
    · intro r hr
      simp [dir_frame, hl] at hr
    · intro h; cases h
  | true =>
    have hx : xopenat t src name true = t.alloc (p ++ [name]) := by simp [xopenat, hsrc]
    rw [hx]
    have h2 := Sys.openat_table k (t.alloc (p ++ [name])).2
      ((t.alloc (p ++ [name])).2.lookup dest) name flags mode
    have hl1 := FdTable.lookup_alloc t (p ++ [name])
    have hl2 : (k.xopenat (t.alloc (p ++ [name])).2 dest name flags mode).2.1.lookup
        (t.alloc (p ++ [name])).1 = some (p ++ [name]) := by
      apply lookup_opened (t := (t.alloc (p ++ [name])).2) _ hl1
      · exact (k.xopenat (t.alloc (p ++ [name])).2 dest name flags mode).1
      · rcases h2 with ⟨a, b⟩ | ⟨q, a, b⟩
        · exact Or.inl ⟨a, b⟩
        · exact Or.inr ⟨q, a, b⟩
    obtain ⟨i1, i2⟩ := ih (t.alloc (p ++ [name])).1
      (k.xopenat (t.alloc (p ++ [name])).2 dest name flags mode).1 (p ++ [name])
      (k.xopenat (t.alloc (p ++ [name])).2 dest name flags mode).2.1
      (k.xopenat (t.alloc (p ++ [name])).2 dest name flags mode).2.2 hl2
    constructor
    · intro r hr
      have := dir_frame_table (fun r hr => i1 r hr) hr
      rw [this]
      have hc : (k.xopenat (t.alloc (p ++ [name])).2 dest name flags mode).2.1.close
          (k.xopenat (t.alloc (p ++ [name])).2 dest name flags mode).1
          = (t.alloc (p ++ [name])).2 := by
        apply close_opened
        rcases h2 with ⟨a, b⟩ | ⟨q, a, b⟩
        · exact Or.inl ⟨a, b⟩
        · exact Or.inr ⟨q, a, b⟩
      rw [hc, FdTable.close_alloc]
    · intro _ hA
      have := i2 hA
      simp only [dir_frame, hl2]
      cases hh : loop (t.alloc (p ++ [name])).1
        (k.xopenat (t.alloc (p ++ [name])).2 dest name flags mode).1
        ((k.xopenat (t.alloc (p ++ [name])).2 dest name flags mode).2.1,
          (k.xopenat (t.alloc (p ++ [name])).2 dest name flags mode).2.2) with
      | none => rw [hh] at this; simp at this
      | some r => simp

theorem clone_loop_table (a0 : file_attr) (l : Listing) :
    ∀ (src dest : Int) (p : Path) (t : FdTable) (k : Sys), t.lookup src = some p →
      (∀ r, clone_dir_loop a0 src dest l (t, k) = some r → r.1 = t) ∧
      (l.allOpen = true → (clone_dir_loop a0 src dest l (t, k)).isSome) := by
  induction l with
  | done => intro src dest p t k _; simp [clone_dir_loop]
  | entry e opens sub rest ihs ihr =>
    intro src dest p t k hsrc
    simp only [clone_dir_loop, Listing.allOpen]
    by_cases hd : e.d_type = DT_DIR
    · simp only [hd, if_true, Bool.and_eq_true]
      generalize (setattrat (k.mkdirat (t.lookup dest) e.d_name 0).2 t dest e.d_name
        (getattrat k t src e.d_name a0).2).2 = k2
      obtain ⟨d1, d2⟩ := @descend_table t src dest p e.d_name opens k2
        (O_RDONLY ||| O_CLOEXEC) 0 (fun s d => clone_dir_loop a0 s d sub)
        (sub.allOpen = true) hsrc (fun s d q t1 k1 h => ihs s d q t1 k1 h)
      cases hf : dir_frame (xopenat t src e.d_name opens).1
          (k2.xopenat (xopenat t src e.d_name opens).2 dest e.d_name
            (O_RDONLY ||| O_CLOEXEC) 0).1
          (clone_dir_loop a0 (xopenat t src e.d_name opens).1
            (k2.xopenat (xopenat t src e.d_name opens).2 dest e.d_name
              (O_RDONLY ||| O_CLOEXEC) 0).1 sub)
          ((k2.xopenat (xopenat t src e.d_name opens).2 dest e.d_name
              (O_RDONLY ||| O_CLOEXEC) 0).2.1,
            (k2.xopenat (xopenat t src e.d_name opens).2 dest e.d_name
              (O_RDONLY ||| O_CLOEXEC) 0).2.2) with
      | none =>
        constructor
        · intro r hr; simp at hr
        · rintro ⟨⟨ho, hs⟩, _⟩
          have := d2 ho hs
          rw [hf] at this; simp at this
      | some r1 =>
        have ht : r1.1 = t := d1 r1 hf
        obtain ⟨i1, i2⟩ := ihr src dest p t r1.2 hsrc
        have hr1 : r1 = (t, r1.2) := by rw [← ht]
        simp only
        rw [hr1]
        exact ⟨i1, fun h => i2 h.2⟩
    · simp only [hd, if_false, true_and]
      by_cases hr : e.d_type = DT_REG
      · simp only [hr, if_true]
        have h1 := Sys.openat_table k t (t.lookup src) e.d_name (O_RDONLY ||| O_CLOEXEC) 0
        have h2 := Sys.openat_table (k.xopenat t src e.d_name (O_RDONLY ||| O_CLOEXEC) 0).2.2
          (k.xopenat t src e.d_name (O_RDONLY ||| O_CLOEXEC) 0).2.1
          ((k.xopenat t src e.d_name (O_RDONLY ||| O_CLOEXEC) 0).2.1.lookup dest) e.d_name
          (O_WRONLY ||| O_CREAT ||| O_TRUNC ||| O_CLOEXEC) 0
        have hc2 := close_opened h2
        have hc1 := close_opened h1
        simp only [Sys.xopenat] at hc1 hc2 ⊢
        rw [hc2, hc1]
        exact ihr src dest p t _ hsrc
      · simp only [hr, if_false]
        by_cases hl : e.d_type = DT_LNK
        · simp only [hl, if_true]
          exact ihr src dest p t _ hsrc
        · simp only [hl, if_false]
          exact ihr src dest p t _ hsrc
theorem link_loop_table (a0 : file_attr) (l : Listing) :
    ∀ (src dest : Int) (p : Path) (t : FdTable) (k : Sys), t.lookup src = some p →
      (∀ r, link_dir_loop a0 src dest l (t, k) = some r → r.1 = t) ∧
      (l.allOpen = true → (link_dir_loop a0 src dest l (t, k)).isSome) := by
  induction l with
  | done => intro src dest p t k _; simp [link_dir_loop]
  | entry e opens sub rest ihs ihr =>
    intro src dest p t k hsrc
    simp only [link_dir_loop, Listing.allOpen]
    by_cases hd : e.d_type = DT_DIR
    · simp only [hd, if_true, Bool.and_eq_true]
      generalize (setattrat (k.mkdirat (t.lookup dest) e.d_name 0).2 t dest e.d_name
        (getattrat k t src e.d_name a0).2).2 = k2
      obtain ⟨d1, d2⟩ := @descend_table t src dest p e.d_name opens k2
        (O_RDONLY ||| O_CLOEXEC) 0 (fun s d => link_dir_loop a0 s d sub)
        (sub.allOpen = true) hsrc (fun s d q t1 k1 h => ihs s d q t1 k1 h)
      cases hf : dir_frame (xopenat t src e.d_name opens).1
          (k2.xopenat (xopenat t src e.d_name opens).2 dest e.d_name
            (O_RDONLY ||| O_CLOEXEC) 0).1
          (link_dir_loop a0 (xopenat t src e.d_name opens).1
            (k2.xopenat (xopenat t src e.d_name opens).2 dest e.d_name
              (O_RDONLY ||| O_CLOEXEC) 0).1 sub)
          ((k2.xopenat (xopenat t src e.d_name opens).2 dest e.d_name
              (O_RDONLY ||| O_CLOEXEC) 0).2.1,
            (k2.xopenat (xopenat t src e.d_name opens).2 dest e.d_name
              (O_RDONLY ||| O_CLOEXEC) 0).2.2) with
      | none =>
        constructor
        · intro r hr; simp at hr
        · rintro ⟨⟨ho, hs⟩, _⟩
          have := d2 ho hs
          rw [hf] at this; simp at this
      | some r1 =>
        have ht : r1.1 = t := d1 r1 hf
        obtain ⟨i1, i2⟩ := ihr src dest p t r1.2 hsrc
        have hr1 : r1 = (t, r1.2) := by rw [← ht]
        simp only
        rw [hr1]
        exact ⟨i1, fun h => i2 h.2⟩
    · simp only [hd, if_false, true_and]
      exact ihr src dest p t _ hsrc

theorem mv_loop_table (l : Listing) :
    ∀ (src dest : Int) (p : Path) (t : FdTable) (k : Sys), t.lookup src = some p →
      (∀ r, mv_dir_loop src dest l (t, k) = some r → r.1 = t) ∧
      (l.allOpen = true → (mv_dir_loop src dest l (t, k)).isSome) := by
  induction l with
  | done => intro src dest p t k _; simp [mv_dir_loop]
  | entry e opens sub rest ihs ihr =>
    intro src dest p t k hsrc
    simp only [mv_dir_loop, Listing.allOpen]
    by_cases hd : e.d_type = DT_DIR
    · simp only [hd, true_and, if_true, true_or, Bool.and_eq_true]
      by_cases hacc : k.faccessat (t.lookup dest) e.d_name = 0
      · simp only [hacc, if_true]
        obtain ⟨d1, d2⟩ := @descend_table t src dest p e.d_name opens k
          (O_RDONLY ||| O_CLOEXEC) 0 (fun s d => mv_dir_loop s d sub)
          (sub.allOpen = true) hsrc (fun s d q t1 k1 h => ihs s d q t1 k1 h)
        cases hf : dir_frame (xopenat t src e.d_name opens).1
            (k.xopenat (xopenat t src e.d_name opens).2 dest e.d_name
              (O_RDONLY ||| O_CLOEXEC) 0).1
            (mv_dir_loop (xopenat t src e.d_name opens).1
              (k.xopenat (xopenat t src e.d_name opens).2 dest e.d_name
                (O_RDONLY ||| O_CLOEXEC) 0).1 sub)
            ((k.xopenat (xopenat t src e.d_name opens).2 dest e.d_name
                (O_RDONLY ||| O_CLOEXEC) 0).2.1,
              (k.xopenat (xopenat t src e.d_name opens).2 dest e.d_name
                (O_RDONLY ||| O_CLOEXEC) 0).2.2) with
        | none =>
          constructor
          · intro r hr; simp at hr
          · rintro ⟨⟨ho, hs⟩, _⟩
            have := d2 ho hs
            rw [hf] at this; simp at this
        | some r1 =>
          have ht : r1.1 = t := d1 r1 hf
          simp only
          rw [ht]
          obtain ⟨i1, i2⟩ := ihr src dest p t
            (r1.2.unlinkat (t.lookup src) e.d_name AT_REMOVEDIR).2 hsrc
          exact ⟨i1, fun h => i2 h.2⟩
      · simp only [hacc, if_false]
        obtain ⟨i1, i2⟩ := ihr src dest p t
          (k.renameat (t.lookup src) e.d_name (t.lookup dest) e.d_name).2 hsrc
        exact ⟨i1, fun h => i2 h.2⟩
    · simp only [hd, false_and, if_false, false_or, true_and]
      by_cases h2 : e.d_type = DT_LNK ∨ e.d_type = DT_REG
      · simp only [h2, if_true]
        exact ihr src dest p t _ hsrc
      · simp only [h2, if_false]
        exact ihr src dest p t _ hsrc

theorem FdTable.close_open (t : FdTable) (fd : Int) (p : Path) (h : t.lookup fd = some p) :
    t.close fd = { t with slots := t.slots.filter (fun s => decide ((s.1 : Int) ≠ fd)) } := by
  have hneg : ¬ fd < 0 := by
    intro hh; simp [FdTable.lookup, hh] at h
  simp only [FdTable.close, hneg, if_false, h]
  congr 1
  apply List.filter_congr
  intro s _
  have : (s.1 = fd.toNat) ↔ ((s.1 : Int) = fd) := by omega
  simp [this]

theorem FdTable.lookup_filter (t : FdTable) (f : Nat × Path → Bool) (fd : Int) :
    (FdTable.mk (t.slots.filter f) t.stray).lookup fd =
      if fd < 0 then none
      else (t.slots.find? (fun s => f s && decide (s.1 = fd.toNat))).map Prod.snd := by
  simp only [FdTable.lookup]
  split
  · rfl
  · rw [List.find?_filter]
    congr 2
    funext a
    simp

theorem released_one (t : FdTable) (fd : Int) (p : Path) (h : t.lookup fd = some p) :
    Released [fd] t (t.close fd) := by
  rw [FdTable.close_open t fd p h]
  refine ⟨?_, rfl, ?_⟩
  · intro d hd
    rcases List.mem_singleton.1 hd with rfl
    rw [FdTable.lookup_filter]
    split
    · rfl
    · next hneg =>
      have : t.slots.find? (fun s => decide ((s.1 : Int) ≠ d) && decide (s.1 = d.toNat)) = none := by
        rw [List.find?_eq_none]
        intro s _
        simp
        omega
      rw [this]; rfl
  · simp

theorem released_two (t : FdTable) (src dest : Int) (p q : Path)
    (hs : t.lookup src = some p) (hd : t.lookup dest = some q) (hne : src ≠ dest) :
    Released [src, dest] t ((t.close dest).close src) := by
  have hsneg : ¬ src < 0 := by
    intro hh; simp [FdTable.lookup, hh] at hs
  have hdneg : ¬ dest < 0 := by
    intro hh; simp [FdTable.lookup, hh] at hd
  rw [FdTable.close_open t dest q hd]
  have hs2 : (FdTable.mk (t.slots.filter (fun s => decide ((s.1 : Int) ≠ dest))) t.stray).lookup src
      = some p := by
    rw [FdTable.lookup_filter]
    simp only [hsneg, if_false]
    simp only [FdTable.lookup, hsneg, if_false] at hs
    have : (fun (s : Nat × Path) => decide ((s.1 : Int) ≠ dest) && decide (s.1 = src.toNat))
        = (fun (s : Nat × Path) => decide (s.1 = src.toNat)) := by
      funext s
      by_cases h1 : s.1 = src.toNat
      · have h2 : decide ((s.1 : Int) ≠ dest) = true := by
          have : (s.1 : Int) ≠ dest := by omega
          simpa using this
        rw [h2, Bool.true_and]
      · have h3 : decide (s.1 = src.toNat) = false := by simpa using h1
        rw [h3, Bool.and_false]
    rw [this]; exact hs
  rw [FdTable.close_open _ src p hs2]
  refine ⟨?_, rfl, ?_⟩
  · intro d hdm
    simp only [List.filter_filter]
    rw [FdTable.lookup_filter ⟨t.slots, t.stray⟩]
    split
    · rfl
    · have : t.slots.find? (fun s => (decide ((s.1 : Int) ≠ src) && decide ((s.1 : Int) ≠ dest))
          && decide (s.1 = d.toNat)) = none := by
        rw [List.find?_eq_none]
        intro s _
        simp only [List.mem_cons, List.mem_singleton, List.not_mem_nil, or_false] at hdm
        simp
        rcases hdm with rfl | rfl <;> omega
      rw [this]; rfl
  · simp only [List.filter_filter]
    apply List.filter_congr
    intro s _
    simp


/-! ## The traversal contracts -/

/-- An order stated on positions, from the same order stated pairwise. -/
theorem lt_of_pairwise_not {α : Type} {R : α → α → Prop} {L : List α}
    (h : L.Pairwise (fun a b => ¬ R b a)) (hirr : ∀ a, ¬ R a a)
    (i j : Nat) (hi : i < L.length) (hj : j < L.length) (hr : R L[i] L[j]) : i < j := by
  rw [List.pairwise_iff_getElem] at h
  rcases Nat.lt_trichotomy i j with hlt | heq | hgt
  · exact hlt
  · subst heq; exact absurd hr (hirr _)
  · exact absurd hr (h j i hj hi hgt)

theorem inside_irrefl (a : Path) : ¬ inside a a := fun h => h.2 rfl

/-- C1: on a tree in which every directory can be opened, `pre_order_walk`
with a visitor that always returns `CONTINUE` invokes the visitor exactly once
on every entry of the tree, at every depth, and on nothing else; and it invokes
the visitor on a directory entry before it invokes it on any entry inside that
directory. -/
theorem pre_order_walk_visits_every_entry {σ : Type} (fn : Visitor σ)
    (hfn : ∀ t fd e s, (fn t fd e s).1 = CONTINUE)
    (l : Listing) (hopen : l.allOpen = true)
    (t : FdTable) (dirfd : Int) (p : Path) (hfd : t.lookup dirfd = some p)
    (hnd : (l.entries p).Nodup) (s : σ) :
    (∀ x ∈ l.entries p,
      ((preVisits fn dirfd l t s).map Visit.path).countP (fun y => decide (y = x)) = 1) ∧
    (∀ v ∈ preVisits fn dirfd l t s, v.path ∈ l.entries p) ∧
    (∀ (i j : Nat) (hi : i < (preVisits fn dirfd l t s).length)
      (hj : j < (preVisits fn dirfd l t s).length),
      inside ((preVisits fn dirfd l t s)[i]).path ((preVisits fn dirfd l t s)[j]).path →
        i < j) := by
  obtain ⟨hrun, _, hres⟩ := pre_walk_run fn l dirfd p t s hfd
  have hall : ∀ v ∈ preVisits fn dirfd l t s, v.res = CONTINUE := by
    intro v hv
    obtain ⟨t1, fd1, s1, h⟩ := hres v hv
    rw [h]; exact hfn _ _ _ _
  have hpaths : (preVisits fn dirfd l t s).map Visit.path = l.entries p := by
    rw [(hrun.all_continue hall).1, Listing.reach_eq_entries l p hopen]
  refine ⟨?_, fun v hv => hrun.mem_entries hv, ?_⟩
  · intro x hx
    rw [hpaths]
    exact @List.count_eq_one_of_mem Path instDecidableEqList x (l.entries p) hnd hx
  · intro i j hi hj hin
    have hpw := Listing.entries_pairwise l p hnd
    rw [← hpaths] at hpw
    have hi2 : i < ((preVisits fn dirfd l t s).map Visit.path).length := by simpa using hi
    have hj2 : j < ((preVisits fn dirfd l t s).map Visit.path).length := by simpa using hj
    apply lt_of_pairwise_not hpw inside_irrefl i j hi2 hj2
    simpa using hin


/-- C2: for a visitor that never returns `ABORT`, nothing inside an entry on
which the visitor returned `SKIP` is ever visited, at any depth, while every
later sibling of a visited entry (so of a skipped one) is visited after it. -/
theorem pre_order_walk_skip_prunes {σ : Type} (fn : Visitor σ)
    (hfn : ∀ t fd e s, (fn t fd e s).1 ≠ ABORT)
    (l : Listing) (t : FdTable) (dirfd : Int) (p : Path) (hfd : t.lookup dirfd = some p)
    (hnd : (l.entries p).Nodup) (s : σ) :
    (∀ v ∈ preVisits fn dirfd l t s, v.res = SKIP →
      ∀ w ∈ preVisits fn dirfd l t s, ¬ inside v.path w.path) ∧
    (∀ xy ∈ l.laterSiblings p, ∀ (pre post : List Visit) (v : Visit),
      preVisits fn dirfd l t s = pre ++ v :: post → v.path = xy.1 →
      ∃ w ∈ post, w.path = xy.2) := by
  obtain ⟨hrun, _, hres⟩ := pre_walk_run fn l dirfd p t s hfd
  have hall : ∀ v ∈ preVisits fn dirfd l t s, v.res ≠ ABORT := by
    intro v hv
    obtain ⟨t1, fd1, s1, h⟩ := hres v hv
    rw [h]; exact hfn _ _ _ _
  refine ⟨hrun.skip_closed hnd, ?_⟩
  intro xy hxy pre post v hsplit hv
  have hmem : xy.1 ∈ (preVisits fn dirfd l t s).map Visit.path := by
    rw [hsplit, ← hv]; simp
  have hsub := hrun.siblings hnd hall xy hxy hmem
  have hnd2 : ((preVisits fn dirfd l t s).map Visit.path).Nodup :=
    hrun.paths_sublist.nodup hnd
  have hL : (preVisits fn dirfd l t s).map Visit.path
      = pre.map Visit.path ++ xy.1 :: post.map Visit.path := by
    rw [hsplit, ← hv]; simp
  have := mem_after_of_pair_sublist hsub hnd2 hL
  obtain ⟨w, hw, hwp⟩ := List.mem_map.1 this
  exact ⟨w, hw, hwp⟩

/-- C3: after an invocation that returned `ABORT` the visitor is not invoked
again, `pre_order_walk` returns `ABORT` exactly when some invocation returned
`ABORT`, and so it does not return `ABORT` for a visitor that never does. -/
theorem pre_order_walk_abort_stops {σ : Type} (fn : Visitor σ) (l : Listing) (t : FdTable)
    (dirfd : Int) (s : σ) :
    (∀ (pre post : List Visit) (v : Visit),
      preVisits fn dirfd l t s = pre ++ v :: post → v.res = ABORT → post = []) ∧
    ((pre_order_walk fn dirfd l (t, s)).1 = ABORT ↔
      ∃ v ∈ preVisits fn dirfd l t s, v.res = ABORT) ∧
    ((∀ t1 fd1 e1 s1, (fn t1 fd1 e1 s1).1 ≠ ABORT) →
      (pre_order_walk fn dirfd l (t, s)).1 ≠ ABORT) := by
  cases hlk : t.lookup dirfd with
  | none =>
    have hv : preVisits fn dirfd l t s = [] := by
      simp [preVisits, pre_order_walk, pre_order_walk_frame, hlk]
    have hr : (pre_order_walk fn dirfd l (t, s)).1 = SKIP := by
      simp [pre_order_walk, pre_order_walk_frame, hlk]
    rw [hv, hr]
    simp
  | some p =>
    obtain ⟨hrun, _, hres⟩ := pre_walk_run fn l dirfd p t s hlk
    obtain ⟨hpw, hiff⟩ := hrun.abort_last
    refine ⟨?_, hiff, ?_⟩
    · intro pre post v hsplit hab
      rw [hsplit, List.pairwise_append] at hpw
      have := (List.pairwise_cons.1 hpw.2.1).1
      cases post with
      | nil => rfl
      | cons b post => exact absurd hab (this b (List.mem_cons_self _ _))
    · intro hfn hab
      obtain ⟨v, hv, hvab⟩ := hiff.1 hab
      obtain ⟨t1, fd1, s1, h⟩ := hres v hv
      exact hfn t1 fd1 v.ent s1 (h ▸ hvab)

/-- C4: on a tree in which every directory can be opened, `post_order_walk`
invokes the visitor exactly once on every entry of the tree and on nothing
else, and invokes it on a directory entry only after it has invoked it on
every entry inside that directory. -/
theorem post_order_walk_visits_every_entry {σ : Type} (fn : PostVisitor σ)
    (l : Listing) (hopen : l.allOpen = true)
    (t : FdTable) (dirfd : Int) (p : Path) (hfd : t.lookup dirfd = some p)
    (hnd : (l.entries p).Nodup) (s : σ) :
    (∀ x ∈ l.entries p, (postVisits fn dirfd l t s).countP (fun y => decide (y = x)) = 1) ∧
    (∀ x ∈ postVisits fn dirfd l t s, x ∈ l.entries p) ∧
    (∀ (i j : Nat) (hi : i < (postVisits fn dirfd l t s).length)
      (hj : j < (postVisits fn dirfd l t s).length),
      inside (postVisits fn dirfd l t s)[i] (postVisits fn dirfd l t s)[j] → j < i) := by
  obtain ⟨hv, _⟩ := post_walk_run fn l dirfd p t s hfd
  have hperm : (postVisits fn dirfd l t s).Perm (l.entries p) := by
    rw [hv, ← Listing.reach_eq_entries l p hopen]
    exact Listing.reachPost_perm l p
  refine ⟨?_, fun x hx => hperm.subset hx, ?_⟩
  · intro x hx
    rw [hperm.countP_eq]
    exact @List.count_eq_one_of_mem Path instDecidableEqList x (l.entries p) hnd hx
  · intro i j hi hj hin
    have hpw := Listing.reachPost_pairwise l p hnd
    rw [← hv] at hpw
    exact @lt_of_pairwise_not Path (fun a b => inside b a) _ hpw inside_irrefl j i hj hi hin

/-- C6: a directory that cannot be opened is passed over like a `SKIP`: for an
always-`CONTINUE` visitor `pre_order_walk`, and `post_order_walk`, invoke the
visitor on every entry that does not lie inside a directory that cannot be
opened, among them the directories that cannot be opened themselves, and
`pre_order_walk` does not return `ABORT`. -/
theorem walkers_pass_unopenable {σ τ : Type} (fn : Visitor σ)
    (hfn : ∀ t fd e s, (fn t fd e s).1 = CONTINUE) (gn : PostVisitor τ)
    (l : Listing) (t : FdTable) (dirfd : Int) (p : Path) (hfd : t.lookup dirfd = some p)
    (s : σ) (u : τ) :
    (∀ x ∈ l.entries p, (∀ d ∈ l.closedDirs p, ¬ inside d x) →
      x ∈ (preVisits fn dirfd l t s).map Visit.path ∧ x ∈ postVisits gn dirfd l t u) ∧
    (∀ d ∈ l.closedDirs p, (∀ c ∈ l.closedDirs p, ¬ inside c d) →
      d ∈ (preVisits fn dirfd l t s).map Visit.path ∧ d ∈ postVisits gn dirfd l t u) ∧
    (pre_order_walk fn dirfd l (t, s)).1 ≠ ABORT := by
  obtain ⟨hrun, _, hres⟩ := pre_walk_run fn l dirfd p t s hfd
  have hall : ∀ v ∈ preVisits fn dirfd l t s, v.res = CONTINUE := by
    intro v hv
    obtain ⟨t1, fd1, s1, h⟩ := hres v hv
    rw [h]; exact hfn _ _ _ _
  obtain ⟨hpaths, hr⟩ := hrun.all_continue hall
  obtain ⟨hv, _⟩ := post_walk_run gn l dirfd p t u hfd
  have main : ∀ x ∈ l.entries p, (∀ d ∈ l.closedDirs p, ¬ inside d x) →
      x ∈ (preVisits fn dirfd l t s).map Visit.path ∧ x ∈ postVisits gn dirfd l t u := by
    intro x hx hc
    have := Listing.mem_reach l p x hx hc
    rw [hpaths, hv]
    exact ⟨this, (Listing.reachPost_perm l p).symm.subset this⟩
  refine ⟨main, fun d hd hc => main d (Listing.closedDirs_entries l p d hd) hc, ?_⟩
  rw [hr]; simp

/-- Descriptors of the tree operations where they return: a directory
descriptor handed to `pre_order_walk`, `frm_rf`, `clone_dir`, `link_dir` or
`mv_dir` is closed exactly once by the time the call returns (for
`pre_order_walk` whatever the visitor returns, `ABORT` included), and so is
every descriptor the call opened itself: afterwards the table is the table
before without the descriptors handed in, and no `close` hit a descriptor that
was not open. The walkers always return; the other three return when every
directory of the source opens, and not otherwise. -/
theorem tree_operations_close_descriptors (t : FdTable) (src dest : Int) (p q : Path)
    (hsrc : t.lookup src = some p) (hdest : t.lookup dest = some q) (hne : src ≠ dest) :
    (∀ (σ : Type) (fn : Visitor σ) (l : Listing) (s : σ),
      Released [src] t (pre_order_walk fn src l (t, s)).2.1) ∧
    (∀ (l : Listing) (k : Sys), Released [src] t (frm_rf src l (t, k)).1) ∧
    (∀ (a0 : file_attr) (l : Listing) (k : Sys),
      (∀ r, clone_dir a0 src dest l (t, k) = some r → Released [src, dest] t r.1) ∧
      (l.allOpen = true → (clone_dir a0 src dest l (t, k)).isSome)) ∧
    (∀ (a0 : file_attr) (l : Listing) (k : Sys),
      (∀ r, link_dir a0 src dest l (t, k) = some r → Released [src, dest] t r.1) ∧
      (l.allOpen = true → (link_dir a0 src dest l (t, k)).isSome)) ∧
    (∀ (l : Listing) (k : Sys),
      (∀ r, mv_dir src dest l (t, k) = some r → Released [src, dest] t r.1) ∧
      (l.allOpen = true → (mv_dir src dest l (t, k)).isSome)) := by
  have frame : ∀ (loop : FdTable × Sys → Option (FdTable × Sys)) (k : Sys) (A : Prop),
      ((∀ r, loop (t, k) = some r → r.1 = t) ∧ (A → (loop (t, k)).isSome)) →
      (∀ r, dir_frame src dest loop (t, k) = some r → Released [src, dest] t r.1) ∧
      (A → (dir_frame src dest loop (t, k)).isSome) := by
    intro loop k A h
    constructor
    · intro r hr
      rw [dir_frame_table (fun r hr => h.1 r hr) hr]
      exact released_two t src dest p q hsrc hdest hne
    · intro hA
      have := h.2 hA
      simp only [dir_frame, hsrc]
      cases hh : loop (t, k) with
      | none => rw [hh] at this; simp at this
      | some r => simp
  refine ⟨?_, ?_, ?_, ?_, ?_⟩
  · intro σ fn l s
    rw [(pre_walk_run fn l src p t s hsrc).2.1]
    exact released_one t src p hsrc
  · intro l k
    have := (post_walk_run remove_at l src p t k hsrc).2
    simp only [frm_rf]
    rw [this]
    exact released_one t src p hsrc
  · intro a0 l k
    exact frame _ k _ (clone_loop_table a0 l src dest p t k hsrc)
  · intro a0 l k
    exact frame _ k _ (link_loop_table a0 l src dest p t k hsrc)
  · intro l k
    exact frame _ k _ (mv_loop_table l src dest p t k hsrc)


/-! ## The traversal contracts on example trees -/


theorem pre_order_walk_visits_every_entry_witness :
    demo_tree.allOpen = true ∧ demo_table.lookup 3 = some ["a"] ∧
    (demo_tree.entries ["a"]).Nodup ∧
    (∀ x ∈ demo_tree.entries ["a"],
      ((preVisits always_continue 3 demo_tree demo_table ()).map Visit.path).countP
        (fun y => decide (y = x)) = 1) ∧
    (∀ v ∈ preVisits always_continue 3 demo_tree demo_table (),
      v.path ∈ demo_tree.entries ["a"]) ∧
    (∀ (i j : Nat) (hi : i < (preVisits always_continue 3 demo_tree demo_table ()).length)
      (hj : j < (preVisits always_continue 3 demo_tree demo_table ()).length),
      inside ((preVisits always_continue 3 demo_tree demo_table ())[i]).path
        ((preVisits always_continue 3 demo_tree demo_table ())[j]).path → i < j) :=
  ⟨by decide, by decide, by decide,
    pre_order_walk_visits_every_entry always_continue (fun _ _ _ _ => rfl) demo_tree
      (by decide) demo_table 3 ["a"] (by decide) (by decide) ()⟩

theorem pre_order_walk_skip_prunes_witness :
    demo_table.lookup 3 = some ["a"] ∧ (demo_tree.entries ["a"]).Nodup ∧
    (∀ v ∈ preVisits skip_sub 3 demo_tree demo_table (), v.res = SKIP →
      ∀ w ∈ preVisits skip_sub 3 demo_tree demo_table (), ¬ inside v.path w.path) ∧
    (∀ xy ∈ demo_tree.laterSiblings ["a"], ∀ (pre post : List Visit) (v : Visit),
      preVisits skip_sub 3 demo_tree demo_table () = pre ++ v :: post → v.path = xy.1 →
      ∃ w ∈ post, w.path = xy.2) :=
  ⟨by decide, by decide,
    pre_order_walk_skip_prunes skip_sub
      (by intro t fd e s; simp only [skip_sub]; split <;> simp) demo_tree demo_table 3 ["a"]
      (by decide) (by decide) ()⟩

theorem pre_order_walk_abort_stops_witness :
    (preVisits abort_on_g 3 demo_tree demo_table ()).map Visit.path
      = [["a", "sub"], ["a", "sub", "g"]] ∧
    (pre_order_walk abort_on_g 3 demo_tree (demo_table, ())).1 = ABORT ∧
    (∀ (pre post : List Visit) (v : Visit),
      preVisits abort_on_g 3 demo_tree demo_table () = pre ++ v :: post →
      v.res = ABORT → post = []) :=
  ⟨by decide, by decide,
    (pre_order_walk_abort_stops abort_on_g demo_tree demo_table 3 ()).1⟩

theorem post_order_walk_visits_every_entry_witness :
    demo_tree.allOpen = true ∧ demo_table.lookup 3 = some ["a"] ∧
    (demo_tree.entries ["a"]).Nodup ∧
    (∀ x ∈ demo_tree.entries ["a"],
      (postVisits post_nothing 3 demo_tree demo_table ()).countP
        (fun y => decide (y = x)) = 1) ∧
    (∀ x ∈ postVisits post_nothing 3 demo_tree demo_table (), x ∈ demo_tree.entries ["a"]) ∧
    (∀ (i j : Nat) (hi : i < (postVisits post_nothing 3 demo_tree demo_table ()).length)
      (hj : j < (postVisits post_nothing 3 demo_tree demo_table ()).length),
      inside (postVisits post_nothing 3 demo_tree demo_table ())[i]
        (postVisits post_nothing 3 demo_tree demo_table ())[j] → j < i) :=
  ⟨by decide, by decide, by decide,
    post_order_walk_visits_every_entry post_nothing demo_tree (by decide) demo_table 3 ["a"]
      (by decide) (by decide) ()⟩

theorem walkers_pass_unopenable_witness :
    demo_table.lookup 3 = some ["a"] ∧ sealed_tree.closedDirs ["a"] = [["a", "priv"]] ∧
    (∀ x ∈ sealed_tree.entries ["a"], (∀ d ∈ sealed_tree.closedDirs ["a"], ¬ inside d x) →
      x ∈ (preVisits always_continue 3 sealed_tree demo_table ()).map Visit.path ∧
        x ∈ postVisits post_nothing 3 sealed_tree demo_table ()) ∧
    (∀ d ∈ sealed_tree.closedDirs ["a"], (∀ c ∈ sealed_tree.closedDirs ["a"], ¬ inside c d) →
      d ∈ (preVisits always_continue 3 sealed_tree demo_table ()).map Visit.path ∧
        d ∈ postVisits post_nothing 3 sealed_tree demo_table ()) ∧
    (pre_order_walk always_continue 3 sealed_tree (demo_table, ())).1 ≠ ABORT :=
  ⟨by decide, by decide,
    walkers_pass_unopenable always_continue (fun _ _ _ _ => rfl) post_nothing sealed_tree
      demo_table 3 ["a"] (by decide) () ()⟩

theorem tree_operations_close_descriptors_witness :
    two_dirs.lookup 3 = some ["tmp", "a"] ∧ two_dirs.lookup 4 = some ["tmp", "b"] ∧
    (3 : Int) ≠ 4 ∧
    Released [3] two_dirs (pre_order_walk abort_on_g 3 demo_tree (two_dirs, ())).2.1 ∧
    Released [3] two_dirs (frm_rf 3 (s1_sys.fdListing two_dirs 3) (two_dirs, s1_sys)).1 ∧
    (clone_dir zero_attr 3 4 (s1_sys.fdListing two_dirs 3) (two_dirs, s1_sys)).isSome ∧
    (∀ r, link_dir zero_attr 3 4 (s1_sys.fdListing two_dirs 3) (two_dirs, s1_sys) = some r →
      Released [3, 4] two_dirs r.1) ∧
    (∀ r, mv_dir 3 4 (s1_sys.fdListing two_dirs 3) (two_dirs, s1_sys) = some r →
      Released [3, 4] two_dirs r.1) :=
  have h := tree_operations_close_descriptors two_dirs 3 4 ["tmp", "a"] ["tmp", "b"]
    (by decide) (by decide) (by decide)
  ⟨by decide, by decide, by decide, h.1 Unit abort_on_g demo_tree (),
    h.2.1 _ s1_sys, (h.2.2.1 zero_attr _ s1_sys).2 (by decide),
    (h.2.2.2.1 zero_attr _ s1_sys).1, (h.2.2.2.2 _ s1_sys).1⟩


/-! ## Backup, restore and clone on concrete trees -/

set_option maxRecDepth 100000 in
/-- C7: on the tree of scenario S1, `/tmp/a/{f (0644, "hi"), link -> f,
sub/g (0600, empty)}`, the record `backup_folder` makes for `link` carries the
path `f` and the attributes of the regular file the link points to, with the
link target as content; after `restore_folder("/tmp/b", L)` there is no
`/tmp/b/link`, and `/tmp/b/f` holds the bytes `f` instead of `hi`. -/
theorem backup_restore_loses_symlink :
    (s1_fs.get ["tmp", "a", "link"]).map (fun r => (S_ISLNK r.1.mode, r.1.data))
      = some (true, "f") ∧
    (backup_folder s1_sys std_table "/tmp/a" [] []).2.map
        (fun r => (r.path, S_ISREG r.attr.st.st_mode, S_ISLNK r.attr.st.st_mode, r.content))
      = [("f", true, false, "hi"), ("f", true, false, "f"), ("sub", false, false, ""),
         ("sub/g", true, false, "")] ∧
    (restore_folder "/tmp/b" (backup_folder s1_sys std_table "/tmp/a" [] []).2
        (std_table, s1_sys)).2.fs.get ["tmp", "b", "link"] = none ∧
    ((restore_folder "/tmp/b" (backup_folder s1_sys std_table "/tmp/a" [] []).2
        (std_table, s1_sys)).2.fs.get ["tmp", "b", "f"]).map (fun r => r.1.data)
      = some "f" := by
  decide

set_option maxRecDepth 100000 in
/-- C8: on the tree `/tmp/a/{link -> sub/g, sub/{g}}` the list `backup_folder`
produces names `sub/g` before `sub`: the record made for `link` carries the
path of the file the link points to. `restore_folder` meets that record while
`/tmp/b/sub` does not exist yet, cannot open `/tmp/b/sub/g`, and leaves the
filesystem as it was. -/
theorem backup_lists_entry_before_its_directory :
    (backup_folder s8_sys std_table "/tmp/a" [] []).2.map raw_file.path
      = ["sub/g", "sub", "sub/g"] ∧
    (s8_sys.xopen std_table "/tmp/b/sub/g"
      (O_WRONLY ||| O_CREAT ||| O_TRUNC ||| O_CLOEXEC) 0o666).1 = -1 ∧
    (restore_folder "/tmp/b" ((backup_folder s8_sys std_table "/tmp/a" [] []).2.take 1)
      (std_table, s8_sys)).2 = s8_sys := by
  decide

set_option maxRecDepth 100000 in
/-- C9: with the backup root `/` the entry `/a` is recorded under the empty
path, and below the root `/a` the symbolic link `/a/link -> /bb/c` is recorded
under the path `/c`, which begins with `/` and is not the path of the entry
relative to the root. -/
theorem backup_path_empty_or_absolute :
    (backup_folder s9_sys std_table "/" [] []).2.map raw_file.path = ["", "b/c", "b", "b/c"] ∧
    (backup_folder s9_sys std_table "/a" [] []).2.map raw_file.path = ["/c"] := by
  decide

set_option maxRecDepth 100000 in
/-- C10: cloning `/tmp/a/{f (0644), link -> f, sub/g}` into the empty `/tmp/b`
returns, and leaves `/tmp/b/f` with mode 0777 where `/tmp/a/f` has 0644:
`setattrat` on the new link `/tmp/b/link` goes through `chmod`, which follows
the link to `/tmp/b/f`. -/
theorem clone_dir_changes_mode_through_symlink :
    (s1_fs.get ["tmp", "a", "f"]).map (fun r => r.1.mode &&& 0o777) = some 0o644 ∧
    (clone_dir zero_attr 3 4 (s1_sys.fdListing two_dirs 3) (two_dirs, s1_sys)).map
      (fun r => (r.2.fs.get ["tmp", "b", "f"]).map (fun x => x.1.mode &&& 0o777))
      = some (some 0o777) ∧
    (clone_dir zero_attr 3 4 (s1_sys.fdListing two_dirs 3) (two_dirs, s1_sys)).map
      (fun r => (r.2.fs.get ["tmp", "b", "link"]).map (fun x => (S_ISLNK x.1.mode, x.1.data)))
      = some (some (true, "f")) := by
  decide


/-! ## Byte buffers: `patch`, `contains` and `mmap_data` -/

theorem memcmp_eq_iff (m : Nat → Nat) (s : List Nat) (p : Nat) :
    memcmp_eq m p s = true ↔ ∀ j, j < s.length → m (p + j) = s.getD j 0 := by
  induction s generalizing p with
  | nil => simp [memcmp_eq]
  | cons b bs ih =>
    simp only [memcmp_eq, Bool.and_eq_true, beq_iff_eq, ih, List.length_cons]
    constructor
    · rintro ⟨h0, h1⟩ j hj
      cases j with
      | zero => simpa using h0
      | succ j =>
        have := h1 j (by omega)
        simpa [Nat.add_assoc, Nat.add_comm 1 j] using this
    · intro h
      refine ⟨by simpa using h 0 (by omega), fun j hj => ?_⟩
      have := h (j + 1) (by omega)
      simpa [Nat.add_assoc, Nat.add_comm 1 j] using this

theorem memcmp_occurs (m : Nat → Nat) (pattern : List Nat) (p : Nat) :
    memcmp_eq m p (pattern ++ [0]) = true ↔ occurs m pattern p := by
  rw [memcmp_eq_iff]
  unfold occurs
  constructor
  · intro h
    refine ⟨fun j hj => ?_, ?_⟩
    · have := h j (by simp; omega)
      rwa [List.getD_append _ _ _ _ hj] at this
    · have := h pattern.length (by simp)
      rw [List.getD_append_right _ _ _ _ (le_refl _)] at this
      simpa using this
  · rintro ⟨h1, h2⟩ j hj
    simp only [List.length_append, List.length_singleton] at hj
    by_cases hlt : j < pattern.length
    · rw [List.getD_append _ _ _ _ hlt]; exact h1 j hlt
    · have : j = pattern.length := by omega
      subst this
      rw [List.getD_append_right _ _ _ _ (le_refl _)]; simpa using h2

theorem contains_loop_iff (sz : Nat) (pattern : List Nat) (m : Nat → Nat) (fuel p : Nat) :
    contains_loop sz pattern m fuel p = true ↔
      ∃ i, p ≤ i ∧ i < sz ∧ i < p + fuel ∧ occurs m pattern i := by
  induction fuel generalizing p with
  | zero => simp [contains_loop]; intro i h1 _ h3; omega
  | succ fuel ih =>
    simp only [contains_loop]
    by_cases hp : p < sz
    · rw [if_pos hp]
      by_cases hm : memcmp_eq m p (pattern ++ [0]) = true
      · rw [if_pos hm]
        simp only [true_iff]
        exact ⟨p, le_refl _, hp, by omega, (memcmp_occurs m pattern p).1 hm⟩
      · rw [if_neg hm, ih]
        constructor
        · rintro ⟨i, h1, h2, h3, h4⟩
          exact ⟨i, by omega, h2, by omega, h4⟩
        · rintro ⟨i, h1, h2, h3, h4⟩
          have : i ≠ p := fun e => hm ((memcmp_occurs m pattern p).2 (e ▸ h4))
          exact ⟨i, by omega, h2, by omega, h4⟩
    · rw [if_neg hp]
      simp only [Bool.false_eq_true, false_iff, not_exists, not_and]
      intro i h1 h2; omega

/-- What `contains` computes: some offset below `sz` where the pattern stands
in memory with a `NUL` after it. -/
theorem contains_iff (d : byte_data) (pattern : List Nat) :
    d.contains pattern = true ↔
      ∃ m, d.buf = some m ∧ ∃ i, i < d.sz ∧ occurs m pattern i := by
  unfold byte_data.contains
  cases hb : d.buf with
  | none => simp
  | some m =>
    simp only [contains_loop_iff, Option.some.injEq, exists_eq_left']
    constructor
    · rintro ⟨i, _, h2, _, h4⟩; exact ⟨i, h2, h4⟩
    · rintro ⟨i, h2, h4⟩; exact ⟨i, Nat.zero_le _, h2, by omega, h4⟩

theorem patch_pairs_mono (list : List (List Nat × List Nat)) (m : Nat → Nat) (p c : Nat) :
    p ≤ (patch_pairs list (m, p, c)).2.1 ∧ c ≤ (patch_pairs list (m, p, c)).2.2 ∧
      ∀ i, i < p → (patch_pairs list (m, p, c)).1 i = m i := by
  induction list generalizing m p c with
  | nil => simp [patch_pairs]
  | cons ft rest ih =>
    obtain ⟨f, t⟩ := ft
    simp only [patch_pairs]
    split
    · obtain ⟨h1, h2, h3⟩ := ih (memcpy (memset m p 0 f.length) p t) (p + f.length) (c + 1)
      refine ⟨by omega, by omega, fun i hi => ?_⟩
      rw [h3 i (by omega)]
      simp only [memcpy, memset]
      rw [if_neg (by omega), if_neg (by omega)]
    · exact ih m p c

theorem patch_loop_mono (sz : Nat) (list : List (List Nat × List Nat)) (fuel : Nat)
    (m : Nat → Nat) (p c : Nat) :
    c ≤ (patch_loop sz list fuel m p c).2 ∧
      ∀ i, i < p → (patch_loop sz list fuel m p c).1 i = m i := by
  induction fuel generalizing m p c with
  | zero => simp [patch_loop]
  | succ fuel ih =>
    obtain ⟨h1, h2, h3⟩ := patch_pairs_mono list m p c
    rcases hpp : patch_pairs list (m, p, c) with ⟨m1, p1, c1⟩
    rw [hpp] at h1 h2 h3
    simp only [patch_loop, hpp]
    split
    · obtain ⟨k1, k2⟩ := ih m1 (p1 + 1) c1
      dsimp only at h1 h2 h3
      refine ⟨by omega, fun i hi => ?_⟩
      rw [k2 i (by omega), h3 i hi]
    · simp

/-- The rounds of `patch` never run short: with `sz - p` rounds or more the
loop ends because `p` reached the end of the buffer. -/
theorem patch_loop_fuel (sz : Nat) (list : List (List Nat × List Nat)) (f1 f2 : Nat)
    (m : Nat → Nat) (p c : Nat) (h1 : sz - p ≤ f1) (h2 : sz - p ≤ f2) :
    patch_loop sz list f1 m p c = patch_loop sz list f2 m p c := by
  induction f1 generalizing f2 m p c with
  | zero =>
    cases f2 with
    | zero => rfl
    | succ f2 => simp only [patch_loop]; rw [if_neg (by omega)]
  | succ f1 ih =>
    cases f2 with
    | zero => simp only [patch_loop]; rw [if_neg (by omega)]
    | succ f2 =>
      have hm := (patch_pairs_mono list m p c).1
      rcases hpp : patch_pairs list (m, p, c) with ⟨m1, p1, c1⟩
      rw [hpp] at hm
      dsimp only at hm
      simp only [patch_loop, hpp]
      split
      · exact ih f2 _ _ _ (by omega) (by omega)
      · rfl

theorem patch_pairs_single (f t : List Nat) (m : Nat → Nat) (p c : Nat) :
    patch_pairs [(f, t)] (m, p, c) =
      if occurs m f p then (memcpy (memset m p 0 f.length) p t, p + f.length, c + 1)
      else (m, p, c) := by
  simp only [patch_pairs]
  by_cases h : occurs m f p
  · rw [if_pos h, if_pos ((memcmp_occurs m f p).2 h)]
  · rw [if_neg h, if_neg (fun e => h ((memcmp_occurs m f p).1 e))]

theorem patch_loop_skip (sz : Nat) (f t : List Nat) (fuel : Nat) (m : Nat → Nat) (p c : Nat)
    (h : ∀ j, p ≤ j → j < sz → ¬ occurs m f j) :
    patch_loop sz [(f, t)] fuel m p c = (m, c) := by
  induction fuel generalizing p with
  | zero => rfl
  | succ fuel ih =>
    simp only [patch_loop]
    split
    · rename_i hp
      rw [patch_pairs_single, if_neg (h p (le_refl _) hp)]
      dsimp only
      exact ih (p + 1) (fun j hj => h j (by omega))
    · rfl

theorem patch_loop_first (sz : Nat) (f t : List Nat) (fuel : Nat) (m : Nat → Nat) (p c i : Nat)
    (hpi : p ≤ i) (hi : i < sz) (hocc : occurs m f i)
    (hfirst : ∀ j, p ≤ j → j < i → ¬ occurs m f j) (hfuel : sz - p ≤ fuel) :
    patch_loop sz [(f, t)] fuel m p c =
      patch_loop sz [(f, t)] (sz - (i + f.length + 1)) (memcpy (memset m i 0 f.length) i t)
        (i + f.length + 1) (c + 1) := by
  induction fuel generalizing p with
  | zero => omega
  | succ fuel ih =>
    simp only [patch_loop]
    rw [if_pos (by omega), patch_pairs_single]
    by_cases hp : p = i
    · subst hp
      rw [if_pos hocc]
      dsimp only
      exact patch_loop_fuel sz _ _ _ _ _ _ (by omega) (le_refl _)
    · rw [if_neg (hfirst p (le_refl _) (by omega))]
      dsimp only
      exact ih (p + 1) (by omega) (fun j hj => hfirst j (by omega)) (by omega)

theorem replaced_outside (m : Nat → Nat) (i : Nat) (f t : List Nat) (h : t.length ≤ f.length)
    (x : Nat) (hx : x < i ∨ i + f.length ≤ x) :
    memcpy (memset m i 0 f.length) i t x = m x := by
  simp only [memcpy, memset]
  rw [if_neg (by omega), if_neg (by omega)]

theorem replaced_copy (m : Nat → Nat) (i : Nat) (f t : List Nat) (k : Nat) (hk : k < t.length) :
    memcpy (memset m i 0 f.length) i t (i + k) = t.getD k 0 := by
  simp only [memcpy]
  rw [if_pos (by omega)]
  congr 1; omega

theorem replaced_zero (m : Nat → Nat) (i : Nat) (f t : List Nat) (k : Nat)
    (h1 : t.length ≤ k) (h2 : k < f.length) :
    memcpy (memset m i 0 f.length) i t (i + k) = 0 := by
  simp only [memcpy, memset]
  rw [if_neg (by omega), if_pos (by omega)]

theorem occurs_congr (m m1 : Nat → Nat) (f : List Nat) (j : Nat)
    (h : ∀ x, j ≤ x → x ≤ j + f.length → m1 x = m x) :
    occurs m1 f j ↔ occurs m f j := by
  unfold occurs
  constructor
  · rintro ⟨a, b⟩
    exact ⟨fun k hk => by rw [← h _ (by omega) (by omega)]; exact a k hk,
      by rw [← h _ (by omega) (by omega)]; exact b⟩
  · rintro ⟨a, b⟩
    exact ⟨fun k hk => by rw [h _ (by omega) (by omega)]; exact a k hk,
      by rw [h _ (by omega) (by omega)]; exact b⟩

theorem getD_ne_zero (f : List Nat) (h : 0 ∉ f) (k : Nat) (hk : k < f.length) :
    f.getD k 0 ≠ 0 := by
  rw [List.getD_eq_getElem _ _ hk]
  intro e
  exact h (e ▸ List.getElem_mem hk)

/-- A replacement leaves no occurrence of the pattern that was not there
before and clear of the replaced bytes, when the replacement is not an end of
the pattern. -/
theorem occurs_replaced (m : Nat → Nat) (i : Nat) (f t : List Nat) (hocc : occurs m f i)
    (hlen : t.length ≤ f.length) (hf : 0 ∉ f) (ht : 0 ∉ t) (hsuf : ¬ t <:+ f) (j : Nat)
    (h1 : occurs (memcpy (memset m i 0 f.length) i t) f j) :
    occurs m f j ∧ (j + f.length < i ∨ i + f.length < j) := by
  have hL : 0 < f.length := by
    rcases Nat.eq_zero_or_pos f.length with h0 | h0
    · exfalso
      have e1 : f = [] := List.length_eq_zero.1 h0
      have e2 : t = [] := List.length_eq_zero.1 (by omega)
      exact hsuf (by rw [e1, e2])
    · exact h0
  have hend : memcpy (memset m i 0 f.length) i t (i + f.length) = 0 := by
    rw [replaced_outside m i f t hlen _ (Or.inr (le_refl _))]; exact hocc.2
  by_cases c1 : j + f.length < i
  · exact ⟨(occurs_congr m _ f j (fun x _ hx =>
      replaced_outside m i f t hlen x (Or.inl (by omega)))).1 h1, Or.inl c1⟩
  by_cases c2 : i + f.length < j
  · exact ⟨(occurs_congr m _ f j (fun x hx _ =>
      replaced_outside m i f t hlen x (Or.inr (by omega)))).1 h1, Or.inr c2⟩
  exfalso
  by_cases c3 : i < j
  · -- the NUL that ended the old match lies inside the new one
    by_cases c4 : j = i + f.length
    · have := h1.1 0 hL
      rw [Nat.add_zero, c4, hend] at this
      exact getD_ne_zero f hf 0 hL this.symm
    · have := h1.1 (i + f.length - j) (by omega)
      rw [show j + (i + f.length - j) = i + f.length by omega, hend] at this
      exact getD_ne_zero f hf _ (by omega) this.symm
  · -- the new match starts at or before the replaced bytes and ends in them
    have hd : i - j ≤ f.length := by omega
    have hle : f.length - (i - j) ≤ t.length := by
      by_contra hc
      have hk : t.length < f.length - (i - j) := by omega
      have a := h1.1 (i - j + t.length) (by omega)
      rw [show j + (i - j + t.length) = i + t.length by omega,
        replaced_zero m i f t t.length (le_refl _) (by omega)] at a
      exact getD_ne_zero f hf _ (by omega) a.symm
    have hge : t.length ≤ f.length - (i - j) := by
      by_contra hc
      have hk : f.length - (i - j) < t.length := by omega
      have a := h1.2
      rw [show j + f.length = i + (f.length - (i - j)) by omega,
        replaced_copy m i f t _ hk] at a
      exact getD_ne_zero t ht _ hk a
    apply hsuf
    have : t = f.drop (f.length - t.length) := by
      apply List.ext_getElem
      · simp; omega
      · intro k hk1 hk2
        have a := h1.1 (f.length - t.length + k) (by omega)
        rw [show j + (f.length - t.length + k) = i + k by omega,
          replaced_copy m i f t k hk1, List.getD_eq_getElem _ _ hk1,
          List.getD_eq_getElem _ _ (by omega)] at a
        rw [a, List.getElem_drop]
    rw [this]
    exact List.drop_suffix _ _

theorem patch_loop_clears (sz : Nat) (f t : List Nat) (hlen : t.length ≤ f.length)
    (hf : 0 ∉ f) (ht : 0 ∉ t) (hsuf : ¬ t <:+ f) (fuel : Nat) (m : Nat → Nat) (p c : Nat)
    (hfuel : sz - p ≤ fuel) (h : ∀ j, j < p → j < sz → ¬ occurs m f j) (j : Nat) (hj : j < sz) :
    ¬ occurs (patch_loop sz [(f, t)] fuel m p c).1 f j := by
  induction fuel generalizing m p c with
  | zero => simp only [patch_loop]; exact h j (by omega) hj
  | succ fuel ih =>
    simp only [patch_loop]
    split
    · rw [patch_pairs_single]
      by_cases ho : occurs m f p
      · rw [if_pos ho]
        dsimp only
        refine ih _ _ _ (by omega) (fun x hx hxs hox => ?_)
        obtain ⟨a, b⟩ := occurs_replaced m p f t ho hlen hf ht hsuf x hox
        rcases b with b | b
        · exact h x (by omega) hxs a
        · omega
      · rw [if_neg ho]
        dsimp only
        refine ih _ _ _ (by omega) (fun x hx hxs => ?_)
        by_cases e : x = p
        · subst e; exact ho
        · exact h x (by omega) hxs
    · exact h j (by omega) hj

/-- C14, as amended: when the pattern stands in the buffer with a `NUL` after
it, first at offset `i`, and the replacement is no longer than the pattern,
`patch` returns the number of replacements it made, which is at least 1 and is
exactly 1 when the pattern stands nowhere else; `sz` is unchanged; and the
bytes of the first match are now those of the replacement followed by zero
bytes up to the length of the pattern. -/
theorem patch_replaces_first_match (m : Nat → Nat) (sz : Nat) (pattern shorter : List Nat)
    (i : Nat) (hi : i < sz) (hocc : occurs m pattern i)
    (hfirst : ∀ j, j < i → ¬ occurs m pattern j)
    (hlen : shorter.length ≤ pattern.length) :
    1 ≤ ((byte_data.mk (some m) sz).patch [(pattern, shorter)]).1 ∧
    ((∀ j, j < sz → occurs m pattern j → j = i) →
      ((byte_data.mk (some m) sz).patch [(pattern, shorter)]).1 = 1) ∧
    ((byte_data.mk (some m) sz).patch [(pattern, shorter)]).2.sz = sz ∧
    ∃ m1, ((byte_data.mk (some m) sz).patch [(pattern, shorter)]).2.buf = some m1 ∧
      (∀ k, k < shorter.length → m1 (i + k) = shorter.getD k 0) ∧
      (∀ k, shorter.length ≤ k → k < pattern.length → m1 (i + k) = 0) := by
  have hstep := patch_loop_first sz pattern shorter sz m 0 0 i (Nat.zero_le _) hi hocc
    (fun j _ hj => hfirst j hj) (by omega)
  obtain ⟨hc, hm⟩ := patch_loop_mono sz [(pattern, shorter)] (sz - (i + pattern.length + 1))
    (memcpy (memset m i 0 pattern.length) i shorter) (i + pattern.length + 1) (0 + 1)
  rw [← hstep] at hc hm
  simp only [byte_data.patch]
  refine ⟨by omega, fun huniq => ?_, trivial, _, rfl, fun k hk => ?_, fun k hk1 hk2 => ?_⟩
  · rw [hstep, patch_loop_skip]
    intro j hj1 hj2 ho
    have := (occurs_congr m _ pattern j (fun x hx _ =>
      replaced_outside m i pattern shorter hlen x (Or.inr (by omega)))).1 ho
    have := huniq j hj2 this
    omega
  · rw [hm _ (by omega)]; exact replaced_copy m i pattern shorter k hk
  · rw [hm _ (by omega)]; exact replaced_zero m i pattern shorter k hk1 hk2

/-- Witness for `patch_replaces_first_match`: the buffer `"xab\0"` with the
pattern `"ab"` and the replacement `"c"`. -/
theorem patch_replaces_first_match_witness :
    1 < 4 ∧ occurs (bytes_at [120, 97, 98, 0]) [97, 98] 1 ∧
    1 ≤ ((byte_data.mk (some (bytes_at [120, 97, 98, 0])) 4).patch [([97, 98], [99])]).1 :=
  ⟨by decide, by decide,
    (patch_replaces_first_match (bytes_at [120, 97, 98, 0]) 4 [97, 98] [99] 1 (by decide)
      (by decide) (by decide) (by decide)).1⟩

/-- C14, the claim as stated fails: the buffer `"ab\0ab\0"` contains the
pattern `"ab"` followed by a `NUL`, the replacement `"x"` is shorter, and
`patch` returns 2. -/
theorem patch_counts_every_match :
    occurs (bytes_at [97, 98, 0, 97, 98, 0]) [97, 98] 0 ∧ [120].length ≤ [97, 98].length ∧
    ((byte_data.mk (some (bytes_at [97, 98, 0, 97, 98, 0])) 6).patch [([97, 98], [120])]).1 = 2 :=
  ⟨by decide, by decide, by decide⟩

/-- C15, as amended: when the pattern stands in the buffer with a `NUL` after
it, the replacement is no longer than the pattern, neither holds a `NUL` byte
and the replacement is not an end of the pattern (so it is neither the pattern
nor empty), `contains(pattern)` is true before `patch` and false after it. -/
theorem patch_removes_pattern (m : Nat → Nat) (sz : Nat) (pattern shorter : List Nat)
    (i : Nat) (hi : i < sz) (hocc : occurs m pattern i)
    (hlen : shorter.length ≤ pattern.length) (hp : 0 ∉ pattern) (hs : 0 ∉ shorter)
    (hsuf : ¬ shorter <:+ pattern) :
    (byte_data.mk (some m) sz).contains pattern = true ∧
    ((byte_data.mk (some m) sz).patch [(pattern, shorter)]).2.contains pattern = false := by
  constructor
  · exact (contains_iff _ _).2 ⟨m, rfl, i, hi, hocc⟩
  · rw [Bool.eq_false_iff]
    intro h
    obtain ⟨m1, hb, j, hj, ho⟩ := (contains_iff _ _).1 h
    simp only [byte_data.patch, Option.some.injEq] at hb hj
    subst hb
    exact patch_loop_clears sz pattern shorter hlen hp hs hsuf sz m 0 0 (by omega)
      (fun x hx => by omega) j hj ho

/-- Witness for `patch_removes_pattern`: the buffer `"xab\0"` with the pattern
`"ab"` and the replacement `"c"`. -/
theorem patch_removes_pattern_witness :
    occurs (bytes_at [120, 97, 98, 0]) [97, 98] 1 ∧ ¬ [99] <:+ [97, 98] ∧
    (byte_data.mk (some (bytes_at [120, 97, 98, 0])) 4).contains [97, 98] = true ∧
    ((byte_data.mk (some (bytes_at [120, 97, 98, 0])) 4).patch [([97, 98], [99])]).2.contains
      [97, 98] = false :=
  ⟨by decide, by decide,
    patch_removes_pattern (bytes_at [120, 97, 98, 0]) 4 [97, 98] [99] 1 (by decide) (by decide)
      (by decide) (by decide) (by decide) (by decide)⟩

/-- C15, the claim as stated fails: in the buffer `"aab\0"` the pattern `"ab"`
is replaced by `"b"`, which leaves `"ab\0\0"`, and `contains("ab")` is true
before the patch and still true after it. -/
theorem patch_can_complete_a_match :
    occurs (bytes_at [97, 97, 98, 0]) [97, 98] 1 ∧ [98].length ≤ [97, 98].length ∧
    [98] ≠ [97, 98] ∧
    (byte_data.mk (some (bytes_at [97, 97, 98, 0])) 4).contains [97, 98] = true ∧
    ((byte_data.mk (some (bytes_at [97, 97, 98, 0])) 4).patch [([97, 98], [98])]).2.contains
      [97, 98] = true :=
  ⟨by decide, by decide, by decide, by decide, by decide⟩

/-- C16: `contains` compares `length() + 1` bytes at every offset below `sz`
without looking where the buffer ends. For the three bytes `"abc"` followed in
memory by a zero byte, `contains("abc")` is true although no offset has the
pattern and its `NUL` inside the buffer. -/
theorem contains_matches_past_buffer_end :
    (byte_data.mk (some (bytes_at [97, 98, 99])) 3).contains [97, 98, 99] = true ∧
    ¬ ∃ i, i + [97, 98, 99].length + 1 ≤ 3 ∧ occurs (bytes_at [97, 98, 99]) [97, 98, 99] i := by
  refine ⟨by decide, ?_⟩
  rintro ⟨i, h, _⟩
  simp at h

/-- C20: on Linux, with the descriptor open and `fstat` successful, the length
`sz` of an `mmap_data` is the size `N` stored by the `BLKGETSIZE64` request for
a block device whatever `st_size` is, `st_size` when that request fails,
and `st_size` for a file that is not a block device; and when `sz` is 0 the
constructor does not call `mmap` and leaves `buf` null. -/
theorem mmap_data_length (w : Nat) (r : Probe) (rw : Bool) (st : stat)
    (hfd : 0 ≤ r.fd) (hst : r.st = some st) (hsize : st.st_size < 2 ^ w) :
    (S_ISBLK st.st_mode = true → ∀ N, r.blk = some N → N < 2 ^ 64 → N < 2 ^ w →
      (mmap_data Platform.linux w r rw).1.sz = N) ∧
    (S_ISBLK st.st_mode = true → r.blk = none →
      (mmap_data Platform.linux w r rw).1.sz = st.st_size) ∧
    (S_ISBLK st.st_mode = false → (mmap_data Platform.linux w r rw).1.sz = st.st_size) ∧
    ((mmap_data Platform.linux w r rw).1.sz = 0 →
      (mmap_data Platform.linux w r rw).1.buf.isNone = true ∧
      ∀ len b, Call.mmap len b ∉ (mmap_data Platform.linux w r rw).2) := by
  have hfd2 : ¬ r.fd < 0 := by omega
  have hsz : (mmap_data Platform.linux w r rw).1.sz = (probe_size Platform.linux w r st).1 := by
    simp only [mmap_data, if_neg hfd2, hst]
    rcases probe_size Platform.linux w r st with ⟨sz, calls⟩
    dsimp only
    split <;> rfl
  refine ⟨fun hb N hN h64 hw => ?_, fun hb hN => ?_, fun hb => ?_, ?_⟩
  · rw [hsz]
    simp only [probe_size, hb, if_true, hN, Nat.mod_eq_of_lt h64, Nat.mod_eq_of_lt hw]
  · rw [hsz]
    simp only [probe_size, hb, if_true, hN, Nat.mod_eq_of_lt hsize]
  · rw [hsz]
    simp [probe_size, hb, Nat.mod_eq_of_lt hsize]
  · simp only [mmap_data, if_neg hfd2, hst]
    have hcalls : ∀ len b, Call.mmap len b ∉ (probe_size Platform.linux w r st).2 := by
      intro len b
      simp only [probe_size]
      split
      · split <;> simp
      · simp
    generalize probe_size Platform.linux w r st = ps at hcalls
    rcases ps with ⟨sz, calls⟩
    dsimp only at hcalls ⊢
    split
    · intro h; dsimp only at h; omega
    · intro _
      refine ⟨rfl, fun len b hmem => ?_⟩
      simp [hcalls len b] at hmem

/-- Witness for `mmap_data_length`: a block device of 8192 bytes whose
`st_size` is 0. -/
theorem mmap_data_length_witness :
    S_ISBLK (S_IFBLK ||| 0o600) = true ∧ (mmap_data Platform.linux 64 blk_probe false).1.sz = 8192 :=
  ⟨by decide, (mmap_data_length 64 blk_probe false ⟨5, S_IFBLK ||| 0o600, 0, 0, 0⟩ (by decide) rfl
    (by decide)).1 (by decide) 8192 rfl (by decide) (by decide)⟩

/-! ## Line readers -/

theorem getline_none (fp : List Char) : getline fp = none ↔ fp = [] := by
  cases fp with
  | nil => simp [getline]
  | cons c cs =>
    simp only [getline]
    split
    · simp
    · split <;> simp

theorem getline_some (fp ln rest : List Char) (h : getline fp = some (ln, rest)) :
    fp = ln ++ rest ∧ 0 < ln.length := by
  induction fp generalizing ln rest with
  | nil => simp [getline] at h
  | cons c cs ih =>
    simp only [getline] at h
    split at h
    · cases h; simp
    · split at h
      · rename_i h0
        cases h
        have := (getline_none cs).1 h0
        simp [this]
      · rename_i l r hr
        cases h
        obtain ⟨a, _⟩ := ih l rest hr
        exact ⟨by simp [a], by simp⟩

theorem poke_zero (b s : List Char) : poke b 0 s = s ++ b.drop s.length := by
  simp [poke]

theorem trim_end_take (ln g : List Char) (n : Nat) (hn : n ≤ ln.length) :
    trim_end (ln ++ g) n ≤ n ∧
      ln.take (trim_end (ln ++ g) n) = (ln.take n).rdropWhile blank := by
  induction n with
  | zero => simp [trim_end]
  | succ n ih =>
    obtain ⟨i1, i2⟩ := ih (by omega)
    have hlt : n < ln.length := by omega
    have hget : (ln ++ g).getD n NUL = ln[n] := by
      rw [List.getD_append _ _ _ _ hlt, List.getD_eq_getElem _ _ hlt]
    have htake : ln.take (n + 1) = ln.take n ++ [ln[n]] := by
      rw [List.take_succ, List.getElem?_eq_getElem hlt]; rfl
    simp only [trim_end, hget]
    rw [htake, List.rdropWhile_concat]
    by_cases hb : blank ln[n] = true
    · have hmem : ln[n] ∈ ['\n', '\r', ' '] := by
        simp only [blank, Bool.or_eq_true, decide_eq_true_eq] at hb
        simp only [List.mem_cons, List.mem_singleton, List.not_mem_nil, or_false]
        tauto
      rw [if_pos hmem, if_pos hb]
      exact ⟨by omega, i2⟩
    · have hmem : ¬ ln[n] ∈ ['\n', '\r', ' '] := by
        simp only [blank, Bool.or_eq_true, decide_eq_true_eq] at hb
        simp only [List.mem_cons, List.mem_singleton, List.not_mem_nil, or_false]
        tauto
      rw [if_neg hmem, if_neg hb]
      exact ⟨le_refl _, htake⟩

theorem skip_spaces_terminated (t g : List Char) :
    skip_spaces (t ++ NUL :: g) = t.dropWhile (fun c => c = ' ') ++ NUL :: g := by
  induction t with
  | nil =>
    simp only [List.nil_append, List.dropWhile_nil, skip_spaces]
    rw [if_neg (by decide)]
  | cons c t ih =>
    simp only [List.cons_append, skip_spaces, List.dropWhile_cons]
    by_cases hc : c = ' '
    · simp [hc, ih]
    · simp [hc]

/-- What the visitor is handed under `trim = true` for a ln without `NUL`:
the trimmed ln, its terminator, and the rest of the ln buffer. -/
theorem trim_step (buf ln : List Char) :
    ∃ g, poke (poke buf 0 (ln ++ [NUL])) (trim_end (poke buf 0 (ln ++ [NUL])) ln.length)
        [NUL] = ln.rdropWhile blank ++ NUL :: g := by
  rw [poke_zero, List.append_assoc]
  obtain ⟨h1, h2⟩ := trim_end_take ln ([NUL] ++ List.drop (ln ++ [NUL]).length buf)
    ln.length (le_refl _)
  rw [List.take_length] at h2
  generalize trim_end (ln ++ ([NUL] ++ List.drop (ln ++ [NUL]).length buf)) ln.length = r
    at h1 h2
  refine ⟨List.drop (r + 1) (ln ++ ([NUL] ++ List.drop (ln ++ [NUL]).length buf)), ?_⟩
  simp only [poke, List.length_singleton, List.append_assoc, List.singleton_append]
  rw [List.take_append_of_le_length h1, h2]

theorem cstr_terminated (l g : List Char) (h : NUL ∉ l) :
    cstr (l ++ NUL :: g) = String.mk l := by
  unfold cstr
  congr 1
  rw [List.takeWhile_append_of_pos (fun c hc => by
    simp only [ne_eq, decide_not, Bool.not_eq_true', decide_eq_false_iff_not]
    intro e; exact h (e ▸ hc))]
  simp

theorem rdropWhile_sublist (p : Char → Bool) (l : List Char) : (l.rdropWhile p).Sublist l := by
  unfold List.rdropWhile
  have := (List.dropWhile_sublist p (l := l.reverse)).reverse
  simpa using this

theorem spec_trimmed_nul (l : List Char) (h : NUL ∉ l) : NUL ∉ (spec_trimmed l).data := by
  intro hm
  exact h ((rdropWhile_sublist blank l).subset ((List.dropWhile_sublist _).subset hm))

theorem lines_loop_fuel (f1 f2 : Nat) (fp : List Char) (h1 : fp.length ≤ f1)
    (h2 : fp.length ≤ f2) : lines_loop f1 fp = lines_loop f2 fp := by
  induction f1 generalizing f2 fp with
  | zero =>
    have : fp = [] := List.length_eq_zero.1 (by omega)
    subst this
    cases f2 <;> simp [lines_loop, getline]
  | succ f1 ih =>
    cases f2 with
    | zero =>
      have : fp = [] := List.length_eq_zero.1 (by omega)
      subst this
      simp [lines_loop, getline]
    | succ f2 =>
      simp only [lines_loop]
      cases hg : getline fp with
      | none => rfl
      | some lr =>
        obtain ⟨ln, rest⟩ := lr
        obtain ⟨e1, e2⟩ := getline_some fp ln rest hg
        rw [e1, List.length_append] at h1 h2
        dsimp only
        rw [ih f2 rest (by omega) (by omega)]

/-- The run of `file_readline` under `trim = true` on a stream without `NUL`,
for a visitor that reads the C string it is handed: the visitor is called on
the trimmed lines in order, until it returns false. -/
theorem file_readline_loop_feed {σ : Type} (fn : σ → List Char → Bool × σ)
    (hfn : ∀ s l g g1, NUL ∉ l → fn s (l ++ NUL :: g) = fn s (l ++ NUL :: g1))
    (fuel : Nat) (buf fp : List Char) (s : σ) (hfuel : fp.length ≤ fuel) (h : NUL ∉ fp) :
    file_readline_loop true fn fuel buf fp s =
      feed (fun s (l : String) => fn s (l.data ++ [NUL]))
        ((lines_loop fp.length fp).map spec_trimmed) s := by
  induction fuel generalizing buf fp s with
  | zero =>
    have : fp = [] := List.length_eq_zero.1 (by omega)
    subst this
    rfl
  | succ fuel ih =>
    cases hg : getline fp with
    | none =>
      have := (getline_none fp).1 hg
      subst this
      simp [file_readline_loop, getline, lines_loop, feed]
    | some lr =>
      obtain ⟨ln, rest⟩ := lr
      obtain ⟨e1, e2⟩ := getline_some fp ln rest hg
      have hl : NUL ∉ ln := fun hm => h (by rw [e1]; exact List.mem_append_left _ hm)
      have hr : NUL ∉ rest := fun hm => h (by rw [e1]; exact List.mem_append_right _ hm)
      have hlen : fp.length = rest.length + (ln.length - 1) + 1 := by
        rw [e1, List.length_append]; omega
      obtain ⟨g, hg2⟩ := trim_step buf ln
      have hstart : fn s (skip_spaces (ln.rdropWhile blank ++ NUL :: g)) =
          fn s ((spec_trimmed ln).data ++ [NUL]) := by
        rw [skip_spaces_terminated]
        exact hfn s _ g [] (spec_trimmed_nul ln hl)
      have hrest : lines_loop (rest.length + (ln.length - 1)) rest =
          lines_loop rest.length rest :=
        lines_loop_fuel _ _ rest (by omega) (le_refl _)
      rw [hlen]
      simp only [file_readline_loop, hg, if_true, hg2, lines_loop, hrest, List.map_cons, feed,
        hstart]
      rcases fn s ((spec_trimmed ln).data ++ [NUL]) with ⟨b, s1⟩
      cases b
      · rfl
      · exact ih _ rest s1 (by rw [e1, List.length_append] at hfuel; omega) hr

theorem strchr_spec (p : List Char) (c : Char) :
    match strchr p c with
    | none => c ∉ p.takeWhile (fun x => x ≠ NUL)
    | some e => ∃ a rest, p = a ++ c :: rest ∧ a.length = e ∧ c ∉ a ∧ NUL ∉ a := by
  induction p with
  | nil => simp [strchr]
  | cons x xs ih =>
    simp only [strchr]
    by_cases hx : x = c
    · rw [if_pos hx]
      exact ⟨[], xs, by simp [hx], rfl, by simp, by simp⟩
    · rw [if_neg hx]
      by_cases h0 : x = NUL
      · rw [if_pos h0]
        simp [h0]
      · rw [if_neg h0]
        cases hs : strchr xs c with
        | none =>
          rw [hs] at ih
          simp only [Option.map_none']
          rw [List.takeWhile_cons_of_pos (by simpa using h0)]
          simp only [List.mem_cons, not_or]
          exact ⟨fun e => hx e.symm, ih⟩
        | some e =>
          rw [hs] at ih
          obtain ⟨a, rest, e1, e2, e3, e4⟩ := ih
          simp only [Option.map_some']
          refine ⟨x :: a, rest, by simp [e1], by simp [e2], ?_, ?_⟩
          · simp only [List.mem_cons, not_or]; exact ⟨fun e => hx e.symm, e3⟩
          · simp only [List.mem_cons, not_or]; exact ⟨fun e => h0 e.symm, e4⟩

theorem getD_zero_hash (p : List Char) :
    p.getD 0 NUL = '#' ↔ (p.takeWhile (fun x => x ≠ NUL)).head? = some '#' := by
  cases p with
  | nil => simp; decide
  | cons x xs =>
    simp only [List.getD_cons_zero]
    by_cases h0 : x = NUL
    · subst h0
      simp
      decide
    · rw [List.takeWhile_cons_of_pos (by simpa using h0)]
      simp

/-- The visitor of `parse_prop_file` on a line: it reads the C string it is
handed as the specification describes. -/
theorem parse_prop_line_spec {σ : Type} (fn : σ → String → String → Bool × σ) (s : σ)
    (p : List Char) :
    parse_prop_line fn s p =
      match spec_prop (cstr p) with
      | none => (true, s)
      | some kv => fn s kv.1 kv.2 := by
  have hsp := strchr_spec p '='
  have hh := getD_zero_hash p
  unfold parse_prop_line spec_prop
  simp only [cstr]
  by_cases h1 : p.getD 0 NUL = '#'
  · rw [if_pos h1, if_neg (fun h => h.1 (hh.1 h1))]
  · rw [if_neg h1]
    have h1b : (p.takeWhile (fun x => x ≠ NUL)).head? ≠ some '#' := fun e => h1 (hh.2 e)
    cases hs : strchr p '=' with
    | none =>
      rw [hs] at hsp
      dsimp only at hsp ⊢
      rw [if_neg (by simp only [not_and]; intro _ h; exact absurd h hsp)]
    | some e =>
      rw [hs] at hsp
      obtain ⟨a, rest, e1, e2, e3, e4⟩ := hsp
      have hl : p.takeWhile (fun x => x ≠ NUL) = a ++ '=' :: rest.takeWhile (fun x => x ≠ NUL) := by
        rw [e1, List.takeWhile_append_of_pos (fun c hc => by
          simp only [ne_eq, decide_not, Bool.not_eq_true', decide_eq_false_iff_not]
          intro e; exact e4 (e ▸ hc))]
        rw [List.takeWhile_cons_of_pos (by decide)]
      dsimp only
      by_cases h0 : e = 0
      · rw [if_pos h0]
        have : a = [] := List.length_eq_zero.1 (by omega)
        subst this
        rw [if_neg (by rw [hl]; simp)]
      · rw [if_neg h0]
        have hane : a ≠ [] := fun ha => h0 (by rw [← e2, ha]; rfl)
        have hhead : (a ++ '=' :: rest.takeWhile (fun x => x ≠ NUL)).head? ≠ some '=' := by
          cases a with
          | nil => exact absurd rfl hane
          | cons x xs =>
            simp only [List.cons_append, List.head?_cons, ne_eq, Option.some.injEq]
            intro hx; exact e3 (by simp [hx])
        rw [if_pos (by rw [hl] at h1b ⊢; exact ⟨h1b, by simp, hhead⟩)]
        have hpoke : poke p e [NUL] = a ++ NUL :: rest := by
          rw [e1, ← e2]
          simp [poke]
        have hkey : cstr (poke p e [NUL]) = String.mk a := by
          rw [hpoke]; exact cstr_terminated a rest e4
        have hval : (poke p e [NUL]).drop (e + 1) = rest := by
          rw [hpoke, ← e2]; simp
        have hk2 : (a ++ '=' :: rest.takeWhile (fun x => x ≠ NUL)).takeWhile (fun c => c ≠ '=')
            = a := by
          rw [List.takeWhile_append_of_pos (fun c hc => by
            simp only [ne_eq, decide_not, Bool.not_eq_true', decide_eq_false_iff_not]
            intro e; exact e3 (e ▸ hc))]
          simp
        have hv2 : ((a ++ '=' :: rest.takeWhile (fun x => x ≠ NUL)).dropWhile
            (fun c => c ≠ '=')).drop 1 = rest.takeWhile (fun x => x ≠ NUL) := by
          rw [List.dropWhile_append_of_pos (fun c hc => by
            simp only [ne_eq, decide_not, Bool.not_eq_true', decide_eq_false_iff_not]
            intro e; exact e3 (e ▸ hc))]
          simp
        have hkey1 : List.takeWhile (fun c => decide (c ≠ NUL)) (poke p e [NUL]) = a := by
          have := hkey
          unfold cstr at this
          exact congrArg String.data this
        rw [hkey1, hval, hl, hk2, hv2]

theorem feed_filterMap {σ α β : Type} (f : α → Option β) (fn : σ → β → Bool × σ)
    (l : List α) (s : σ) :
    feed (fun s x => match f x with
      | none => (true, s)
      | some y => fn s y) l s = feed fn (l.filterMap f) s := by
  induction l generalizing s with
  | nil => rfl
  | cons x xs ih =>
    simp only [feed, List.filterMap_cons]
    cases hf : f x with
    | none => exact ih s
    | some y =>
      dsimp only
      simp only [feed]
      rcases fn s y with ⟨b, s1⟩
      cases b
      · rfl
      · exact ih s1

theorem feed_congr {σ α : Type} (f g : σ → α → Bool × σ) (l : List α) (s : σ)
    (h : ∀ x, x ∈ l → ∀ s, f s x = g s x) : feed f l s = feed g l s := by
  induction l generalizing s with
  | nil => rfl
  | cons x xs ih =>
    simp only [feed]
    rw [h x (List.mem_cons_self _ _) s]
    rcases g s x with ⟨b, s1⟩
    cases b
    · rfl
    · exact ih s1 (fun y hy => h y (List.mem_cons_of_mem _ hy))

theorem lines_loop_mem (fuel : Nat) (fp ln : List Char) (h : ln ∈ lines_loop fuel fp) :
    ∀ c, c ∈ ln → c ∈ fp := by
  induction fuel generalizing fp with
  | zero => simp [lines_loop] at h
  | succ fuel ih =>
    simp only [lines_loop] at h
    cases hg : getline fp with
    | none => rw [hg] at h; simp at h
    | some lr =>
      obtain ⟨l1, rest⟩ := lr
      rw [hg] at h
      obtain ⟨e1, _⟩ := getline_some fp l1 rest hg
      simp only [List.mem_cons] at h
      intro c hc
      rw [e1]
      rcases h with h | h
      · subst h; exact List.mem_append_left _ hc
      · exact List.mem_append_right _ (ih rest h c hc)

theorem cstr_data_terminated (l : String) (h : NUL ∉ l.data) : cstr (l.data ++ [NUL]) = l :=
  cstr_terminated l.data [] h

theorem trimmed_lines_nul (fp : List Char) (h : NUL ∉ fp) (x : String)
    (hx : x ∈ (lines_of fp).map spec_trimmed) : NUL ∉ x.data := by
  obtain ⟨ln, h1, h2⟩ := List.mem_map.1 hx
  subst h2
  exact spec_trimmed_nul ln (fun hm => h (lines_loop_mem _ fp ln h1 _ hm))

/-- C18: on a stream without `NUL` bytes, `file_readline` with `trim = true`
calls the visitor on the lines of the stream in order, until the visitor
returns false, and what the visitor sees of each line is the line with every
trailing newline, carriage return and space and every leading space removed;
the line `"   key = value \r\n"` arrives as `"key = value"`, and a line of
blanks as the empty string. -/
theorem file_readline_trims {σ : Type} (g : σ → String → Bool × σ) (buf fp : List Char) (s : σ)
    (h : NUL ∉ fp) :
    file_readline true (fun s p => g s (cstr p)) buf fp s =
      feed g ((lines_of fp).map spec_trimmed) s ∧
    file_readline true (fun s p => recording (fun _ => true) s (cstr p)) []
      "   key = value \r\n".data [] = ["key = value"] ∧
    file_readline true (fun s p => recording (fun _ => true) s (cstr p)) []
      "  \r\n \n".data [] = ["", ""] ∧
    file_readline true (fun s p => recording (fun x => x ≠ "b") s (cstr p)) []
      "a\nb\nc\n".data [] = ["a", "b"] := by
  refine ⟨?_, by decide, by decide, by decide⟩
  unfold file_readline lines_of
  rw [file_readline_loop_feed _ (fun s l g0 g1 hl => by
    rw [cstr_terminated l g0 hl, cstr_terminated l g1 hl]) _ buf fp s (le_refl _) h]
  exact feed_congr _ _ _ s (fun x hx s1 => by
    rw [cstr_data_terminated x (trimmed_lines_nul fp h x hx)])

/-- Witness for `file_readline_trims`: a stream of two lines. -/
theorem file_readline_trims_witness :
    NUL ∉ " a \n b".data ∧
    file_readline true (fun s p => recording (fun _ => true) s (cstr p)) [] " a \n b".data [] =
      feed (recording (fun _ => true)) ((lines_of " a \n b".data).map spec_trimmed) [] :=
  ⟨by decide, (file_readline_trims (recording (fun _ => true)) [] " a \n b".data [] (by decide)).1⟩

/-- C19: `parse_prop_file` calls the visitor for a line exactly when the
trimmed line does not begin with `#`, holds a `=` and does not begin with `=`;
the visitor then receives the text before the first `=` and all the text after
it, untrimmed, so that `"a=b=c"` gives `("a", "b=c")`; the lines are taken in
order until the visitor returns false. -/
theorem parse_prop_file_splits {σ : Type} (fn : σ → String → String → Bool × σ)
    (buf fp : List Char) (s : σ) (h : NUL ∉ fp) :
    (∀ s p, parse_prop_line fn s p =
      match spec_prop (cstr p) with
      | none => (true, s)
      | some kv => fn s kv.1 kv.2) ∧
    parse_prop_file fn buf fp s =
      feed (fun s kv => fn s kv.1 kv.2)
        (((lines_of fp).map spec_trimmed).filterMap spec_prop) s ∧
    spec_prop "a=b=c" = some ("a", "b=c") ∧
    spec_prop "a = b " = some ("a ", " b ") ∧
    spec_prop "#a=b" = none ∧ spec_prop "=b" = none ∧ spec_prop "ab" = none := by
  refine ⟨parse_prop_line_spec fn, ?_, by decide, by decide, by decide, by decide, by decide⟩
  unfold parse_prop_file file_readline lines_of
  rw [file_readline_loop_feed _ (fun s l g0 g1 hl => by
    rw [parse_prop_line_spec, parse_prop_line_spec, cstr_terminated l g0 hl,
      cstr_terminated l g1 hl]) _ buf fp s (le_refl _) h]
  rw [← feed_filterMap]
  exact feed_congr _ _ _ s (fun x hx s1 => by
    rw [parse_prop_line_spec, cstr_data_terminated x (trimmed_lines_nul fp h x hx)]
    cases spec_prop x <;> rfl)

/-- Witness for `parse_prop_file_splits`: a property file of three lines. -/
theorem parse_prop_file_splits_witness :
    NUL ∉ "# c\n a=b=c \n=x\n".data ∧
    parse_prop_file (fun log k v => (true, log ++ [(k, v)])) [] "# c\n a=b=c \n=x\n".data [] =
      [("a", "b=c")] :=
  ⟨by decide, by
    rw [(parse_prop_file_splits (fun log k v => (true, log ++ [(k, v)])) []
      "# c\n a=b=c \n=x\n".data [] (by decide)).2.1]
    decide⟩

/-! ## Facts about the model filesystem -/

theorem S_IFMT_low (m : Nat) : (m &&& S_IFMT) % 4096 = 0 := by
  have h : (m &&& S_IFMT) &&& (2 ^ 12 - 1) = 0 := by
    rw [Nat.and_assoc]
    have : S_IFMT &&& (2 ^ 12 - 1) = 0 := by decide
    rw [this, Nat.and_zero]
  rw [Nat.and_pow_two_sub_one_eq_mod] at h
  simpa using h

theorem IFTODT_dir (m : Nat) : IFTODT m = DT_DIR ↔ S_ISDIR m = true := by
  have h := S_IFMT_low m
  simp only [IFTODT, DT_DIR, S_ISDIR, S_IFDIR, beq_iff_eq, Nat.shiftRight_eq_div_pow]
  norm_num
  omega

theorem dir_not_lnk (m : Nat) (h : S_ISDIR m = true) : S_ISLNK m = false := by
  simp only [S_ISDIR, S_ISLNK, beq_iff_eq, beq_eq_false_iff_ne] at h ⊢
  rw [h]; decide

theorem root_is_dir : S_ISDIR root_inode.mode = true := by decide

theorem Fs.get_nil (fs : Fs) : fs.get [] = some (root_inode, fs) := by
  cases fs <;> rfl

theorem Fs.get_cons (fs : Fs) (n : String) (p : Path) :
    fs.get (n :: p) =
      match fs.find n with
      | none => none
      | some (i, sub) =>
        if p.isEmpty then some (i, sub) else if S_ISDIR i.mode then sub.get p else none := by
  cases fs <;> rfl

theorem Fs.get_single (fs : Fs) (n : String) : fs.get [n] = fs.find n := by
  rw [Fs.get_cons]
  cases fs.find n with
  | none => rfl
  | some x => rfl

/-- The file at a path that continues an other one. -/
theorem Fs.get_append (fs : Fs) (q r : Path) :
    fs.get (q ++ r) =
      match fs.get q with
      | none => none
      | some (d, c) =>
        if r.isEmpty then some (d, c) else if S_ISDIR d.mode then c.get r else none := by
  induction q generalizing fs with
  | nil =>
    rw [Fs.get_nil, List.nil_append]
    dsimp only
    rw [root_is_dir]
    cases r with
    | nil => simp [Fs.get_nil]
    | cons x xs => simp
  | cons m p ih =>
    rw [List.cons_append, Fs.get_cons, Fs.get_cons]
    cases hf : fs.find m with
    | none => rfl
    | some x =>
      obtain ⟨i, sub⟩ := x
      dsimp only
      cases p with
      | nil =>
        cases r with
        | nil => simp
        | cons x xs => simp
      | cons y ys =>
        simp only [List.cons_append, List.isEmpty_cons, Bool.false_eq_true, if_false]
        by_cases hd : S_ISDIR i.mode = true
        · rw [if_pos hd, if_pos hd]
          have := ih sub
          rw [List.cons_append] at this
          rw [this]
        · rw [if_neg hd, if_neg hd]

theorem Fs.get_snoc (fs : Fs) (q : Path) (n : String) :
    fs.get (q ++ [n]) =
      match fs.get q with
      | none => none
      | some (d, c) => if S_ISDIR d.mode then c.find n else none := by
  rw [Fs.get_append]
  cases fs.get q with
  | none => rfl
  | some x =>
    obtain ⟨d, c⟩ := x
    simp [Fs.get_single]

theorem Fs.get_cons_eq (n : String) (i : Inode) (sub rest : Fs) (p : Path) :
    (Fs.cons n i sub rest).get (n :: p) =
      if p.isEmpty then some (i, sub) else if S_ISDIR i.mode then sub.get p else none := by
  simp [Fs.get_cons, Fs.find]

theorem Fs.get_cons_ne (n m : String) (i : Inode) (sub rest : Fs) (p : Path) (h : n ≠ m) :
    (Fs.cons n i sub rest).get (m :: p) = rest.get (m :: p) := by
  simp [Fs.get_cons, Fs.find, h]

theorem Fs.modifyDir_nil (f : Fs → Fs) (fs : Fs) : Fs.modifyDir f fs [] = f fs := by
  cases fs <;> rfl

theorem Fs.modifyDir_comp (f g : Fs → Fs) (fs : Fs) (q : Path) :
    Fs.modifyDir g (Fs.modifyDir f fs q) q = Fs.modifyDir (fun c => g (f c)) fs q := by
  induction fs generalizing q with
  | nil =>
    cases q with
    | nil => simp [Fs.modifyDir_nil]
    | cons m p => rfl
  | cons n i sub rest ih1 ih2 =>
    cases q with
    | nil => simp [Fs.modifyDir_nil]
    | cons m p =>
      simp only [Fs.modifyDir]
      by_cases hn : n = m
      · simp only [hn, if_true]
        by_cases hd : S_ISDIR i.mode = true
        · simp only [hd, if_true, Fs.modifyDir, ih1]
        · simp only [hd, if_false, Fs.modifyDir, if_true, Bool.false_eq_true]
      · simp only [hn, if_false, Fs.modifyDir, ih2]

theorem Fs.modifyDir_append (f : Fs → Fs) (fs : Fs) (q r : Path) :
    Fs.modifyDir f fs (q ++ r) = Fs.modifyDir (fun c => Fs.modifyDir f c r) fs q := by
  induction fs generalizing q with
  | nil =>
    cases q with
    | nil => simp [Fs.modifyDir_nil]
    | cons m p => rfl
  | cons n i sub rest ih1 ih2 =>
    cases q with
    | nil => simp [Fs.modifyDir_nil]
    | cons m p =>
      simp only [List.cons_append, Fs.modifyDir, List.append_eq]
      by_cases hn : n = m
      · simp only [hn, if_true]
        by_cases hd : S_ISDIR i.mode = true
        · simp only [hd, if_true, ih1]
        · simp only [hd, if_false, Bool.false_eq_true]
      · simp only [hn, if_false]
        have := ih2 (m :: p)
        rw [List.cons_append] at this
        rw [this]

theorem Fs.modifyDir_congr (f g : Fs → Fs) (fs : Fs) (q : Path) (d : Inode) (c : Fs)
    (hq : fs.get q = some (d, c)) (h : f c = g c) :
    Fs.modifyDir f fs q = Fs.modifyDir g fs q := by
  induction fs generalizing q with
  | nil =>
    cases q with
    | nil =>
      rw [Fs.get_nil] at hq
      cases hq
      simpa [Fs.modifyDir_nil] using h
    | cons m p => rfl
  | cons n i sub rest ih1 ih2 =>
    cases q with
    | nil =>
      rw [Fs.get_nil] at hq
      cases hq
      simpa [Fs.modifyDir_nil] using h
    | cons m p =>
      simp only [Fs.modifyDir]
      by_cases hn : n = m
      · subst hn
        rw [Fs.get_cons_eq] at hq
        simp only [if_true]
        by_cases hd : S_ISDIR i.mode = true
        · simp only [hd, if_true]
          cases p with
          | nil =>
            simp only [List.isEmpty_nil, if_true, Option.some.injEq, Prod.mk.injEq] at hq
            obtain ⟨_, h2⟩ := hq
            subst h2
            simp [Fs.modifyDir_nil, h]
          | cons y ys =>
            simp only [List.isEmpty_cons, Bool.false_eq_true, if_false, hd, if_true] at hq
            rw [ih1 _ hq]
        · simp only [hd, if_false, Bool.false_eq_true]
      · rw [Fs.get_cons_ne _ _ _ _ _ _ hn] at hq
        simp only [hn, if_false]
        rw [ih2 _ hq]

theorem Fs.get_modifyDir_same (f : Fs → Fs) (fs : Fs) (q : Path) (d : Inode) (c : Fs)
    (hq : fs.get q = some (d, c)) (hd : S_ISDIR d.mode = true) :
    (Fs.modifyDir f fs q).get q = some (d, f c) := by
  induction fs generalizing q with
  | nil =>
    cases q with
    | nil =>
      rw [Fs.get_nil] at hq
      cases hq
      simp [Fs.modifyDir_nil, Fs.get_nil]
    | cons m p => simp [Fs.get_cons, Fs.find] at hq
  | cons n i sub rest ih1 ih2 =>
    cases q with
    | nil =>
      rw [Fs.get_nil] at hq
      cases hq
      simp [Fs.modifyDir_nil, Fs.get_nil]
    | cons m p =>
      simp only [Fs.modifyDir]
      by_cases hn : n = m
      · subst hn
        rw [Fs.get_cons_eq] at hq
        simp only [if_true]
        cases p with
        | nil =>
          simp only [List.isEmpty_nil, if_true, Option.some.injEq, Prod.mk.injEq] at hq
          obtain ⟨h1, h2⟩ := hq
          subst h1 h2
          simp [hd, Fs.get_cons_eq, Fs.modifyDir_nil]
        | cons y ys =>
          simp only [List.isEmpty_cons, Bool.false_eq_true, if_false] at hq
          by_cases hi : S_ISDIR i.mode = true
          · simp only [hi, if_true] at hq ⊢
            rw [Fs.get_cons_eq]
            simp only [List.isEmpty_cons, Bool.false_eq_true, if_false, hi, if_true]
            exact ih1 _ hq
          · simp [hi] at hq
      · rw [Fs.get_cons_ne _ _ _ _ _ _ hn] at hq
        simp only [hn, if_false]
        rw [Fs.get_cons_ne _ _ _ _ _ _ hn]
        exact ih2 _ hq

theorem apart_cons_ne (m n : String) (p q : Path) (h : m ≠ n) : apart (m :: p) (n :: q) := by
  simp [apart, List.cons_prefix_cons, h, Ne.symm h]

theorem goodName_iff (n : String) :
    goodName n = true ↔ n ≠ "" ∧ n ≠ "." ∧ n ≠ ".." ∧ '/' ∉ n.data := by
  simp [goodName, and_assoc]

theorem pieces_no_slash (cs : List Char) (h : '/' ∉ cs) : pieces cs = [String.mk cs] := by
  induction cs with
  | nil => rfl
  | cons c cs ih =>
    simp only [List.mem_cons, not_or] at h
    simp only [pieces, ih h.2]
    rw [if_neg (fun e => h.1 e.symm)]

theorem good_pieces (n : String) (h : goodName n = true) : pieces n.data = [n] := by
  obtain ⟨_, _, _, h4⟩ := (goodName_iff n).1 h
  exact pieces_no_slash n.data h4

theorem good_realPieces (n : String) (h : goodName n = true) : realPieces n = [n] := by
  obtain ⟨h1, h2, _, _⟩ := (goodName_iff n).1 h
  simp [realPieces, good_pieces n h, h1, h2]

theorem good_not_abs (n : String) (h : goodName n = true) : isAbs n = false := by
  obtain ⟨_, _, _, h4⟩ := (goodName_iff n).1 h
  simp only [isAbs, decide_eq_false_iff_not]
  intro e
  cases hd : n.data with
  | nil => rw [hd] at e; simp at e
  | cons c cs =>
    rw [hd] at e h4
    simp only [List.head?_cons, Option.some.injEq] at e
    exact h4 (by simp [e])

theorem walk_stop (fs : Fs) (fuel : Nat) (cur : Path) (comps : List String) (follow : Bool)
    (r : Option Path) (h : fs.walkTo follow cur comps = Reached.stop r) :
    fs.walk fuel cur comps follow = r := by
  cases fuel <;> simp [Fs.walk, h]

theorem walkTo_nil (fs : Fs) (follow : Bool) (cur : Path) :
    fs.walkTo follow cur [] = Reached.stop (if (fs.get cur).isSome then some cur else none) := by
  rfl

theorem Sys.resolveParent_entry (k : Sys) (q : Path) (n : String) (d : Inode) (c : Fs)
    (hn : goodName n = true) (hq : k.fs.get q = some (d, c)) (hd : S_ISDIR d.mode = true) :
    k.resolveParent (some q) n = some (q, n) := by
  obtain ⟨h1, h2, h3, _⟩ := (goodName_iff n).1 hn
  unfold Sys.resolveParent
  simp only [good_realPieces n hn, List.getLast?_singleton, h3, if_false, good_not_abs n hn,
    Bool.false_eq_true, List.dropLast_single]
  rw [walk_stop _ _ _ _ _ _ (walkTo_nil _ _ _)]
  simp [hq, hd]

theorem Sys.unlinkat_entry (k : Sys) (q : Path) (n : String) (flags : Nat) (d i : Inode)
    (c sub : Fs) (hn : goodName n = true) (hq : k.fs.get q = some (d, c))
    (hd : S_ISDIR d.mode = true) (hf : c.find n = some (i, sub))
    (hfl : (S_ISDIR i.mode = true ∧ sub = Fs.nil ∧ flags = AT_REMOVEDIR) ∨
      (S_ISDIR i.mode = false ∧ flags = 0)) :
    k.unlinkat (some q) n flags = (0, { k with fs := Fs.modifyDir (Fs.erase n) k.fs q }) := by
  have hg : k.fs.get (q ++ [n]) = some (i, sub) := by
    rw [Fs.get_snoc, hq]; simp [hd, hf]
  unfold Sys.unlinkat
  rw [Sys.resolveParent_entry k q n d c hn hq hd]
  simp only [hg]
  rcases hfl with ⟨a, b, e⟩ | ⟨a, e⟩
  · subst e
    rw [if_pos (by decide), if_pos ⟨a, b⟩]
  · subst e
    rw [if_neg (by decide), if_neg (by simp [a])]

theorem Fs.ok_cons {n : String} {i : Inode} {sub rest : Fs}
    (h : (Fs.cons n i sub rest).ok = true) :
    goodName n = true ∧ n ∉ rest.names ∧ sub.ok = true ∧ rest.ok = true := by
  simp only [Fs.ok, Bool.and_eq_true, Bool.not_eq_true', List.contains_eq_any_beq,
    List.any_eq_false, beq_iff_eq] at h
  obtain ⟨⟨⟨h1, h2⟩, h3⟩, h4⟩ := h
  refine ⟨h1, fun hm => ?_, h3, h4⟩
  exact h2 n hm rfl

theorem Fs.modifyDir_head (f : Fs → Fs) (n : String) (i : Inode) (sub rest : Fs)
    (hd : S_ISDIR i.mode = true) :
    Fs.modifyDir f (Fs.cons n i sub rest) [n] = Fs.cons n i (f sub) rest := by
  simp [Fs.modifyDir, hd, Fs.modifyDir_nil]

/-- The loop of `frm_rf` on a directory: every entry is removed, a directory
after its content, and the descriptor table is the one before. -/
theorem frm_loop (c : Fs) :
    c.ok = true → ∀ (fd : Int) (q : Path) (t : FdTable) (k : Sys) (d : Inode),
      t.lookup fd = some q → k.fs.get q = some (d, c) → S_ISDIR d.mode = true →
      post_order_loop remove_at fd c.listing (t, k) =
        (t, { k with fs := Fs.modifyDir (fun _ => Fs.nil) k.fs q }) := by
  induction c with
  | nil =>
    intro _ fd q t k d _ hq _
    simp only [Fs.listing, post_order_loop]
    have : Fs.modifyDir (fun _ => Fs.nil) k.fs q = Fs.modifyDir (fun c => c) k.fs q :=
      Fs.modifyDir_congr _ _ _ _ _ _ hq rfl
    rw [this]
    have hid : ∀ (fs : Fs) (q : Path), Fs.modifyDir (fun c => c) fs q = fs := by
      intro fs
      induction fs with
      | nil => intro q; cases q <;> rfl
      | cons n i sub rest ih1 ih2 =>
        intro q
        cases q with
        | nil => rfl
        | cons m p =>
          simp only [Fs.modifyDir, ih1, ih2]
          split <;> [split <;> rfl; rfl]
    rw [hid]
  | cons n i sub rest ih1 ih2 =>
    intro hok fd q t k d ht hq hd
    obtain ⟨hn, _, hsub, hrest⟩ := Fs.ok_cons hok
    have hfind : (Fs.cons n i sub rest).find n = some (i, sub) := by simp [Fs.find]
    simp only [Fs.listing, post_order_loop]
    by_cases hi : S_ISDIR i.mode = true
    · -- a directory: its content first
      have hty : IFTODT i.mode = DT_DIR := (IFTODT_dir _).2 hi
      simp only [hty, if_true]
      have ho : xopenat t fd n true = t.alloc (q ++ [n]) := by simp [xopenat, ht]
      rw [ho]
      have hg : k.fs.get (q ++ [n]) = some (i, sub) := by
        rw [Fs.get_snoc, hq]; simp [hd, hfind]
      rw [post_frame_open _ _ _ (q ++ [n]) (FdTable.lookup_alloc t (q ++ [n]))]
      rw [ih1 hsub _ (q ++ [n]) _ k i (FdTable.lookup_alloc t (q ++ [n])) hg hi]
      dsimp only
      rw [FdTable.close_alloc]
      have hk1 : (Fs.modifyDir (fun _ => Fs.nil) k.fs (q ++ [n])).get q =
          some (d, Fs.cons n i Fs.nil rest) := by
        rw [Fs.modifyDir_append, Fs.get_modifyDir_same _ _ _ _ _ hq hd, Fs.modifyDir_head _ _ _ _ _ hi]
      have hrm : remove_at t fd ⟨n, DT_DIR⟩
          { k with fs := Fs.modifyDir (fun _ => Fs.nil) k.fs (q ++ [n]) } =
          { k with fs := Fs.modifyDir (fun _ => rest) k.fs q } := by
        simp only [remove_at, ht, if_true]
        rw [Sys.unlinkat_entry _ q n AT_REMOVEDIR d i _ Fs.nil hn hk1 hd (by simp [Fs.find])
          (Or.inl ⟨hi, rfl, rfl⟩)]
        dsimp only
        rw [Fs.modifyDir_append, Fs.modifyDir_comp]
        congr 1
        exact Fs.modifyDir_congr _ _ _ _ _ _ hq (by simp [Fs.modifyDir_head _ _ _ _ _ hi, Fs.erase])
      rw [hrm]
      rw [ih2 hrest fd q t _ d ht (Fs.get_modifyDir_same _ _ _ _ _ hq hd) hd]
      dsimp only
      rw [Fs.modifyDir_comp]
    · -- any other file
      have hty : ¬ IFTODT i.mode = DT_DIR := fun e => hi ((IFTODT_dir _).1 e)
      simp only [hty, if_false]
      have hrm : remove_at t fd ⟨n, IFTODT i.mode⟩ k =
          { k with fs := Fs.modifyDir (fun _ => rest) k.fs q } := by
        simp only [remove_at, ht, hty, if_false]
        rw [Sys.unlinkat_entry _ q n 0 d i _ sub hn hq hd hfind
          (Or.inr ⟨by simpa using hi, rfl⟩)]
        dsimp only
        congr 1
        exact Fs.modifyDir_congr _ _ _ _ _ _ hq (by simp [Fs.erase])
      rw [hrm]
      rw [ih2 hrest fd q t _ d ht (Fs.get_modifyDir_same _ _ _ _ _ hq hd) hd]
      dsimp only
      rw [Fs.modifyDir_comp]

theorem pieces_ne_nil (cs : List Char) : pieces cs ≠ [] := by
  cases cs with
  | nil => simp [pieces]
  | cons c cs =>
    simp only [pieces]
    split
    · simp
    · split <;> simp

theorem pieces_append_slash (a b : List Char) :
    pieces (a ++ '/' :: b) = pieces a ++ pieces b := by
  induction a with
  | nil =>
    simp only [List.nil_append, pieces]
    cases hb : pieces b with
    | nil => exact absurd hb (pieces_ne_nil b)
    | cons w ws => simp
  | cons c a ih =>
    have e : ∀ l : List Char, pieces (c :: l) =
        match pieces l with
        | [] => [""]
        | w :: ws => if c = '/' then "" :: w :: ws else String.mk (c :: w.data) :: ws :=
      fun _ => rfl
    rw [List.cons_append, e, e, ih]
    cases ha : pieces a with
    | nil => exact absurd ha (pieces_ne_nil a)
    | cons w ws =>
      simp only [List.cons_append]
      split <;> simp

theorem pieces_foldl (p : Path) (init : String) (h : ∀ c, c ∈ p → '/' ∉ c.data) :
    pieces (p.foldl (fun acc x => acc ++ "/" ++ x) init).data = pieces init.data ++ p := by
  induction p generalizing init with
  | nil => simp
  | cons x p ih =>
    rw [List.foldl_cons, ih _ (fun c hc => h c (List.mem_cons_of_mem _ hc))]
    have : (init ++ "/" ++ x).data = init.data ++ '/' :: x.data := by
      simp [String.data_append]
    rw [this, pieces_append_slash, pieces_no_slash _ (h x (List.mem_cons_self _ _))]
    simp

/-- The pieces of the absolute path string of a path are its components. -/
theorem pieces_pathStr (q : Path) (hq : q ≠ []) (h : ∀ c, c ∈ q → '/' ∉ c.data) :
    pieces (pathStr q).data = "" :: q := by
  cases q with
  | nil => exact absurd rfl hq
  | cons c p =>
    simp only [pathStr]
    rw [pieces_foldl _ _ (fun x hx => h x (List.mem_cons_of_mem _ hx))]
    have : ("/" ++ c).data = [] ++ '/' :: c.data := by simp [String.data_append]
    rw [this, pieces_append_slash, pieces_no_slash _ (h c (List.mem_cons_self _ _))]
    simp [pieces]

theorem pathStr_abs (q : Path) : isAbs (pathStr q) = true ∧ pathStr q ≠ "" := by
  have key : ∀ (p : Path) (init : String), init.data.head? = some '/' →
      (p.foldl (fun acc x => acc ++ "/" ++ x) init).data.head? = some '/' := by
    intro p
    induction p with
    | nil => intro init h; simpa using h
    | cons x p ih =>
      intro init h
      rw [List.foldl_cons]
      apply ih
      cases hd : init.data with
      | nil => rw [hd] at h; simp at h
      | cons y ys =>
        rw [hd] at h
        simp only [String.data_append, hd, List.cons_append, List.head?_cons] at h ⊢
        exact h
  have hh : (pathStr q).data.head? = some '/' := by
    cases q with
    | nil => rfl
    | cons c p =>
      simp only [pathStr]
      apply key
      simp [String.data_append]
  refine ⟨by simp [isAbs, hh], fun e => ?_⟩
  rw [e] at hh
  simp at hh

/-- Resolution along the components of an existing directory. -/
theorem walkTo_dir (fs : Fs) (follow : Bool) (rest : Path) :
    ∀ (cur : Path) (comps : List String) (d : Inode) (c : Fs),
      (∀ x, x ∈ rest → goodName x = true) → fs.get (cur ++ rest) = some (d, c) →
      S_ISDIR d.mode = true →
      fs.walkTo follow cur (rest ++ comps) = fs.walkTo follow (cur ++ rest) comps := by
  induction rest with
  | nil => intro cur comps d c _ _ _; simp
  | cons x r ih =>
    intro cur comps d c hgood hget hd
    obtain ⟨h1, h2, h3, _⟩ := (goodName_iff x).1 (hgood x (List.mem_cons_self _ _))
    have hget2 : fs.get ((cur ++ [x]) ++ r) = some (d, c) := by
      rw [List.append_assoc]; exact hget
    rw [Fs.get_append] at hget2
    cases hx : fs.get (cur ++ [x]) with
    | none => rw [hx] at hget2; simp at hget2
    | some ix =>
      obtain ⟨i, sub⟩ := ix
      rw [hx] at hget2
      have hidir : S_ISDIR i.mode = true := by
        dsimp only at hget2
        cases r with
        | nil =>
          simp only [List.isEmpty_nil, if_true, Option.some.injEq, Prod.mk.injEq] at hget2
          rw [hget2.1]; exact hd
        | cons y ys =>
          simp only [List.isEmpty_cons, Bool.false_eq_true, if_false] at hget2
          by_contra hc
          rw [if_neg hc] at hget2
          simp at hget2
      have hcur : ∃ d0 c0, fs.get cur = some (d0, c0) ∧ S_ISDIR d0.mode = true := by
        rw [Fs.get_snoc] at hx
        cases hc : fs.get cur with
        | none => rw [hc] at hx; simp at hx
        | some dc =>
          obtain ⟨d0, c0⟩ := dc
          rw [hc] at hx
          dsimp only at hx
          by_cases hd0 : S_ISDIR d0.mode = true
          · exact ⟨d0, c0, rfl, hd0⟩
          · rw [if_neg hd0] at hx; simp at hx
      obtain ⟨d0, c0, hc0, hd0⟩ := hcur
      simp only [List.cons_append, Fs.walkTo, h1, h2, h3, or_self, if_false, hc0, hx, hd0,
        not_true_eq_false, dir_not_lnk _ hidir, Bool.false_eq_true, false_and, List.append_eq]
      rw [ih (cur ++ [x]) comps d c (fun y hy => hgood y (List.mem_cons_of_mem _ hy))
        (by rw [List.append_assoc]; exact hget) hd]
      simp

theorem walkTo_last (fs : Fs) (follow : Bool) (q : Path) (n : String) (d : Inode) (c : Fs)
    (hn : goodName n = true) (hq : fs.get q = some (d, c)) (hd : S_ISDIR d.mode = true) :
    fs.walkTo follow q [n] =
      match c.find n with
      | none => Reached.stop none
      | some (i, _) =>
        if S_ISLNK i.mode = true ∧ follow = true then
          Reached.jump (if i.data.data.head? = some '/' then [] else q) (pieces i.data.data ++ [])
        else Reached.stop (some (q ++ [n])) := by
  obtain ⟨h1, h2, h3, _⟩ := (goodName_iff n).1 hn
  have hg : fs.get (q ++ [n]) = c.find n := by
    rw [Fs.get_snoc, hq]; simp [hd]
  simp only [Fs.walkTo, h1, h2, h3, or_self, if_false, hq, hg]
  cases hf : c.find n with
  | none => rfl
  | some x =>
    obtain ⟨i, sub⟩ := x
    simp only [hd, not_true_eq_false, if_false, List.any_nil, Bool.or_false, Bool.false_eq_true,
      or_false, Option.isSome_some, if_true]

/-- The absolute path string of an entry of a directory resolves to the
directory and the name. -/
theorem Sys.resolveParent_pathStr (k : Sys) (par : Path) (n : String) (d : Inode) (c : Fs)
    (hpar : ∀ x, x ∈ par → goodName x = true) (hn : goodName n = true)
    (hq : k.fs.get par = some (d, c)) (hd : S_ISDIR d.mode = true) :
    k.resolveParent (some []) (pathStr (par ++ [n])) = some (par, n) := by
  have hgood : ∀ x, x ∈ par ++ [n] → goodName x = true := by
    intro x hx
    rcases List.mem_append.1 hx with h | h
    · exact hpar x h
    · simp only [List.mem_singleton] at h; rw [h]; exact hn
  have hreal : realPieces (pathStr (par ++ [n])) = par ++ [n] := by
    unfold realPieces
    rw [pieces_pathStr _ (by simp) (fun x hx => ((goodName_iff x).1 (hgood x hx)).2.2.2)]
    rw [List.filter_cons_of_neg (by simp)]
    exact List.filter_eq_self.2 (fun x hx => by
      obtain ⟨a, b, _, _⟩ := (goodName_iff x).1 (hgood x hx)
      simp [a, b])
  unfold Sys.resolveParent
  have hlast : (par ++ [n]).getLast? = some n := by simp
  simp only [hreal, hlast, ((goodName_iff n).1 hn).2.2.1, if_false, (pathStr_abs _).1, if_true,
    List.dropLast_concat]
  have hw : k.fs.walkTo true [] par = Reached.stop (some par) := by
    have := walkTo_dir k.fs true par [] [] d c hpar (by simpa using hq) hd
    simp only [List.append_nil, List.nil_append] at this
    rw [this, walkTo_nil, hq]
    rfl
  rw [walk_stop _ _ _ _ _ _ hw]
  simp [hq, hd]

/-- The absolute path string of an entry resolves to the entry, unless the
entry is a symbolic link that is to be followed; the path string of a name
that is not there does not resolve. -/
theorem Sys.resolve_pathStr (k : Sys) (par : Path) (n : String) (follow : Bool) (d : Inode)
    (c : Fs) (hpar : ∀ x, x ∈ par → goodName x = true) (hn : goodName n = true)
    (hq : k.fs.get par = some (d, c)) (hd : S_ISDIR d.mode = true) :
    k.resolve (some []) (pathStr (par ++ [n])) follow =
      match c.find n with
      | none => none
      | some (i, _) =>
        if S_ISLNK i.mode = true ∧ follow = true then
          k.resolve (some []) (pathStr (par ++ [n])) follow
        else some (par ++ [n]) := by
  have hgood : ∀ x, x ∈ par ++ [n] → goodName x = true := by
    intro x hx
    rcases List.mem_append.1 hx with h | h
    · exact hpar x h
    · simp only [List.mem_singleton] at h; rw [h]; exact hn
  cases hf : c.find n with
  | none =>
    dsimp only
    unfold Sys.resolve
    rw [if_neg (pathStr_abs _).2, if_pos (pathStr_abs _).1,
      pieces_pathStr _ (by simp) (fun x hx => ((goodName_iff x).1 (hgood x hx)).2.2.2)]
    apply walk_stop
    simp only [Fs.walkTo, true_or, if_true]
    rw [walkTo_dir k.fs follow par [] [n] d c hpar (by simpa using hq) hd]
    simp only [List.nil_append]
    rw [walkTo_last k.fs follow par n d c hn hq hd, hf]
  | some x =>
    obtain ⟨i, sub⟩ := x
    dsimp only
    by_cases hl : S_ISLNK i.mode = true ∧ follow = true
    · rw [if_pos hl]
    · rw [if_neg hl]
      unfold Sys.resolve
      rw [if_neg (pathStr_abs _).2, if_pos (pathStr_abs _).1,
        pieces_pathStr _ (by simp) (fun x hx => ((goodName_iff x).1 (hgood x hx)).2.2.2)]
      apply walk_stop
      simp only [Fs.walkTo, true_or, if_true]
      rw [walkTo_dir k.fs follow par [] [n] d c hpar (by simpa using hq) hd]
      simp only [List.nil_append]
      rw [walkTo_last k.fs follow par n d c hn hq hd, hf]
      dsimp only
      rw [if_neg hl]

theorem Fs.find_none (c : Fs) (n : String) (h : n ∉ c.names) : c.find n = none := by
  induction c with
  | nil => rfl
  | cons m j s rest _ ih =>
    simp only [Fs.names, List.mem_cons, not_or] at h
    simp only [Fs.find]
    rw [if_neg (fun e => h.1 e.symm)]
    exact ih h.2

theorem Fs.ok_find (c : Fs) (n : String) (i : Inode) (sub : Fs) (hok : c.ok = true)
    (h : c.find n = some (i, sub)) : goodName n = true ∧ sub.ok = true := by
  induction c with
  | nil => simp [Fs.find] at h
  | cons m j s rest _ ih =>
    obtain ⟨h1, _, h3, h4⟩ := Fs.ok_cons hok
    simp only [Fs.find] at h
    by_cases e : m = n
    · rw [if_pos e] at h
      cases h
      exact ⟨e ▸ h1, h3⟩
    · rw [if_neg e] at h
      exact ih h4 h

theorem Fs.ok_erase_find (c : Fs) (n : String) (hok : c.ok = true) :
    (c.erase n).find n = none := by
  induction c with
  | nil => rfl
  | cons m j s rest _ ih =>
    obtain ⟨_, h2, _, h4⟩ := Fs.ok_cons hok
    simp only [Fs.erase]
    by_cases e : m = n
    · rw [if_pos e]
      exact Fs.find_none rest n (e ▸ h2)
    · rw [if_neg e]
      simp only [Fs.find, if_neg e]
      exact ih h4

theorem Fs.ok_get (fs : Fs) (q : Path) (d : Inode) (c : Fs) (hok : fs.ok = true)
    (h : fs.get q = some (d, c)) : c.ok = true ∧ ∀ x, x ∈ q → goodName x = true := by
  induction q generalizing fs with
  | nil =>
    rw [Fs.get_nil] at h
    cases h
    exact ⟨hok, fun x hx => by simp at hx⟩
  | cons m p ih =>
    rw [Fs.get_cons] at h
    cases hf : fs.find m with
    | none => rw [hf] at h; simp at h
    | some x =>
      obtain ⟨i, sub⟩ := x
      rw [hf] at h
      obtain ⟨g1, g2⟩ := Fs.ok_find fs m i sub hok hf
      dsimp only at h
      cases p with
      | nil =>
        simp only [List.isEmpty_nil, if_true, Option.some.injEq, Prod.mk.injEq] at h
        obtain ⟨_, h2⟩ := h
        subst h2
        exact ⟨g2, fun x hx => by simp only [List.mem_singleton] at hx; rw [hx]; exact g1⟩
      | cons y ys =>
        simp only [List.isEmpty_cons, Bool.false_eq_true, if_false] at h
        by_cases hd : S_ISDIR i.mode = true
        · rw [if_pos hd] at h
          obtain ⟨a, b⟩ := ih sub g2 h
          refine ⟨a, fun x hx => ?_⟩
          rcases List.mem_cons.1 hx with e | e
          · rw [e]; exact g1
          · exact b x e
        · rw [if_neg hd] at h; simp at h

theorem Fs.erase_modifyDir_head (f : Fs → Fs) (c : Fs) (n : String) :
    (Fs.modifyDir f c [n]).erase n = c.erase n := by
  induction c with
  | nil => rfl
  | cons m j s rest _ ih =>
    simp only [Fs.modifyDir]
    by_cases e : m = n
    · simp only [e, if_true]
      split <;> simp [Fs.erase]
    · simp only [e, if_false, Fs.erase, ih]

theorem Fs.get_parent (fs : Fs) (par : Path) (n : String) (i : Inode) (sub : Fs)
    (h : fs.get (par ++ [n]) = some (i, sub)) :
    ∃ d c, fs.get par = some (d, c) ∧ S_ISDIR d.mode = true ∧ c.find n = some (i, sub) := by
  rw [Fs.get_snoc] at h
  cases hc : fs.get par with
  | none => rw [hc] at h; simp at h
  | some dc =>
    obtain ⟨d, c⟩ := dc
    rw [hc] at h
    dsimp only at h
    by_cases hd : S_ISDIR d.mode = true
    · rw [if_pos hd] at h
      exact ⟨d, c, rfl, hd, h⟩
    · rw [if_neg hd] at h; simp at h

theorem Sys.unlinkat_at (k : Sys) (base : Option Path) (path : String) (q : Path) (n : String)
    (flags : Nat) (i : Inode) (sub : Fs) (hrp : k.resolveParent base path = some (q, n))
    (hg : k.fs.get (q ++ [n]) = some (i, sub))
    (hfl : (S_ISDIR i.mode = true ∧ sub = Fs.nil ∧ flags = AT_REMOVEDIR) ∨
      (S_ISDIR i.mode = false ∧ flags = 0)) :
    k.unlinkat base path flags = (0, { k with fs := Fs.modifyDir (Fs.erase n) k.fs q }) := by
  unfold Sys.unlinkat
  rw [hrp]
  simp only [hg]
  rcases hfl with ⟨a, b, e⟩ | ⟨a, e⟩
  · subst e
    rw [if_pos (by decide), if_pos ⟨a, b⟩]
  · subst e
    rw [if_neg (by decide), if_neg (by simp [a])]

/-- C13: in a well-formed filesystem, whose directories all open, `rm_rf` on
the path of an entry (a directory with the tree below it, a regular file, a
symbolic link or any other file) leaves the filesystem without that entry and
otherwise as it was, so that the path no longer exists; the descriptor table
is the one before. The entry can only go when every `unlinkat` of the walk
succeeded, and `unlinkat` removes a directory only when it is empty. -/
theorem rm_rf_removes (t : FdTable) (k : Sys) (par : Path) (name : String) (i : Inode)
    (sub : Fs) (hok : k.fs.ok = true) (hent : k.fs.get (par ++ [name]) = some (i, sub)) :
    rm_rf (pathStr (par ++ [name])) (t, k) =
      (t, { k with fs := Fs.modifyDir (Fs.erase name) k.fs par }) ∧
    (rm_rf (pathStr (par ++ [name])) (t, k)).2.lstat (pathStr (par ++ [name])) = none ∧
    (rm_rf (pathStr (par ++ [name])) (t, k)).2.fs.get (par ++ [name]) = none := by
  obtain ⟨d, c, hq, hd, hf⟩ := Fs.get_parent _ _ _ _ _ hent
  obtain ⟨hcok, hpar⟩ := Fs.ok_get _ _ _ _ hok hq
  obtain ⟨hn, hsub⟩ := Fs.ok_find _ _ _ _ hcok hf
  have hlstat : k.lstat (pathStr (par ++ [name])) = some i := by
    unfold Sys.lstat
    rw [Sys.resolve_pathStr k par name false d c hpar hn hq hd, hf]
    simp [hent]
  have key : rm_rf (pathStr (par ++ [name])) (t, k) =
      (t, { k with fs := Fs.modifyDir (Fs.erase name) k.fs par }) := by
    unfold rm_rf
    simp only [hlstat]
    by_cases hi : S_ISDIR i.mode = true
    · simp only [hi, if_true]
      have hres : k.resolve (some []) (pathStr (par ++ [name])) true = some (par ++ [name]) := by
        rw [Sys.resolve_pathStr k par name true d c hpar hn hq hd, hf]
        simp [dir_not_lnk _ hi]
      have hopen : k.xopen t (pathStr (par ++ [name])) (O_RDONLY ||| O_CLOEXEC) 0 =
          ((t.alloc (par ++ [name])).1, (t.alloc (par ++ [name])).2, k) := by
        unfold Sys.xopen Sys.openat
        rw [hres]
        simp only [hent]
        rw [if_neg (by
          rintro ⟨_, h | h⟩
          · exact h (by decide)
          · exact h (by decide))]
        rw [if_neg (by
          rintro ⟨h, _⟩
          exact h (by decide))]
      rw [hopen]
      dsimp only
      have hl : k.fdListing (t.alloc (par ++ [name])).2 (t.alloc (par ++ [name])).1 =
          sub.listing := by
        simp [Sys.fdListing, FdTable.lookup_alloc, hent]
      rw [hl]
      unfold frm_rf post_order_walk
      rw [post_frame_open _ _ _ (par ++ [name]) (FdTable.lookup_alloc t (par ++ [name]))]
      rw [frm_loop sub hsub _ (par ++ [name]) _ k i (FdTable.lookup_alloc t (par ++ [name]))
        hent hi]
      dsimp only
      rw [FdTable.close_alloc]
      have hq1 : (Fs.modifyDir (fun _ => Fs.nil) k.fs (par ++ [name])).get par =
          some (d, Fs.modifyDir (fun _ => Fs.nil) c [name]) := by
        rw [Fs.modifyDir_append, Fs.get_modifyDir_same _ _ _ _ _ hq hd]
      have hent1 : (Fs.modifyDir (fun _ => Fs.nil) k.fs (par ++ [name])).get (par ++ [name]) =
          some (i, Fs.nil) := Fs.get_modifyDir_same _ _ _ _ _ hent hi
      have hrp := Sys.resolveParent_pathStr
        { k with fs := Fs.modifyDir (fun _ => Fs.nil) k.fs (par ++ [name]) } par name d _ hpar hn
        hq1 hd
      have hfail : ({ k with fs := Fs.modifyDir (fun _ => Fs.nil) k.fs (par ++ [name]) } :
          Sys).unlinkat (some []) (pathStr (par ++ [name])) 0 =
          (-1, { k with fs := Fs.modifyDir (fun _ => Fs.nil) k.fs (par ++ [name]) }) := by
        unfold Sys.unlinkat
        rw [hrp]
        simp only [hent1]
        rw [if_neg (by decide), if_pos hi]
      unfold Sys.remove
      rw [hfail]
      rw [if_neg (by simp)]
      rw [Sys.unlinkat_at _ _ _ par name AT_REMOVEDIR i Fs.nil hrp hent1 (Or.inl ⟨hi, rfl, rfl⟩)]
      dsimp only
      rw [Fs.modifyDir_append, Fs.modifyDir_comp]
      congr 2
      exact Fs.modifyDir_congr _ _ _ _ _ _ hq (Fs.erase_modifyDir_head _ c name)
    · simp only [hi, if_false, Bool.false_eq_true]
      have hrp := Sys.resolveParent_pathStr k par name d c hpar hn hq hd
      have hrm := Sys.unlinkat_at k _ _ par name 0 i sub hrp hent
        (Or.inr ⟨by simpa using hi, rfl⟩)
      unfold Sys.remove
      rw [hrm]
      simp
  have hq2 : (Fs.modifyDir (Fs.erase name) k.fs par).get par = some (d, c.erase name) :=
    Fs.get_modifyDir_same _ _ _ _ _ hq hd
  refine ⟨key, ?_, ?_⟩
  · rw [key]
    unfold Sys.lstat
    rw [Sys.resolve_pathStr _ par name false d (c.erase name) hpar hn hq2 hd,
      Fs.ok_erase_find c name hcok]
    rfl
  · rw [key]
    dsimp only
    rw [Fs.get_snoc, hq2]
    simp [hd, Fs.ok_erase_find c name hcok]

/-- Witness for `rm_rf_removes`: `rm_rf("/d")` on the tree `/d/{f, sub/{g}}`. -/
theorem rm_rf_removes_witness :
    rm_sys.fs.ok = true ∧
    (rm_rf (pathStr ([] ++ ["d"])) (std_table, rm_sys)).2.fs =
      Fs.cons "e" (mkReg 7 0o600 "") Fs.nil Fs.nil :=
  ⟨by decide, by
    rw [(rm_rf_removes std_table rm_sys [] "d" (mkDir 3 0o755)
      (Fs.cons "f" (mkReg 4 0o644 "x") Fs.nil
        (Fs.cons "sub" (mkDir 5 0o700) (Fs.cons "g" (mkLnk 6 "../f") Fs.nil Fs.nil) Fs.nil))
      (by decide) (by decide)).1]
    decide⟩

/-! ## The move of a tree -/

theorem Fs.find_append (c : Fs) (n m : String) (i : Inode) (sub : Fs) :
    (Fs.append n i sub c).find m =
      match c.find m with
      | some x => some x
      | none => if n = m then some (i, sub) else none := by
  induction c with
  | nil => simp [Fs.append, Fs.find]
  | cons a j s rest _ ih =>
    simp only [Fs.append, Fs.find]
    by_cases e : a = m
    · simp [e]
    · simp [e, ih]

theorem Fs.find_modifyDir_ne (f : Fs → Fs) (c : Fs) (n m : String) (h : n ≠ m) :
    (Fs.modifyDir f c [n]).find m = c.find m := by
  induction c with
  | nil => rfl
  | cons a j s rest _ ih =>
    simp only [Fs.modifyDir]
    by_cases e : a = n
    · simp only [e, if_true]
      split <;> simp [Fs.find, h]
    · simp only [e, if_false, Fs.find, ih]

theorem Fs.find_modifyDir_eq (f : Fs → Fs) (c : Fs) (n : String) :
    (Fs.modifyDir f c [n]).find n =
      match c.find n with
      | some (j, s) => some (j, if S_ISDIR j.mode then f s else s)
      | none => none := by
  induction c with
  | nil => rfl
  | cons a j s rest _ ih =>
    simp only [Fs.modifyDir]
    by_cases e : a = n
    · simp only [e, if_true]
      by_cases hd : S_ISDIR j.mode = true
      · simp [Fs.find, hd, Fs.modifyDir_nil]
      · simp [Fs.find, hd]
    · simp only [e, if_false, Fs.find, ih]

theorem Fs.erase_none (c : Fs) (n : String) (h : c.find n = none) : c.erase n = c := by
  induction c with
  | nil => rfl
  | cons a j s rest _ ih =>
    simp only [Fs.find] at h
    by_cases e : a = n
    · rw [if_pos e] at h; simp at h
    · rw [if_neg e] at h
      simp only [Fs.erase, if_neg e, ih h]

theorem and_S_IFMT_idem (m : Nat) : (m &&& S_IFMT) &&& S_IFMT = m &&& S_IFMT := by
  rw [Nat.and_assoc, Nat.and_self]

theorem Inode.core_lnk (i : Inode) : S_ISLNK i.core.mode = S_ISLNK i.mode := by
  simp [Inode.core, S_ISLNK, and_S_IFMT_idem]

theorem Inode.core_eq_lnk {i j : Inode} (h : i.core = j.core) :
    S_ISLNK i.mode = S_ISLNK j.mode := by
  rw [← Inode.core_lnk i, ← Inode.core_lnk j, h]

theorem Inode.core_eq_ino {i j : Inode} (h : i.core = j.core) : i.ino = j.ino := by
  have := congrArg Inode.ino h
  simpa [Inode.core] using this

theorem Inode.core_core (i : Inode) : i.core.core = i.core := by
  simp [Inode.core, and_S_IFMT_idem]

theorem chmod_keeps_type (a m : Nat) :
    ((a &&& S_IFMT) ||| (m &&& 0o7777)) &&& S_IFMT = a &&& S_IFMT := by
  rw [Nat.and_comm _ S_IFMT, Nat.and_or_distrib_left, Nat.and_comm S_IFMT (a &&& S_IFMT),
    and_S_IFMT_idem, Nat.and_comm S_IFMT (m &&& 0o7777), Nat.and_assoc]
  have : (0o7777 : Nat) &&& S_IFMT = 0 := by decide
  rw [this, Nat.and_zero, Nat.or_zero]

theorem fresh_dir_core (k : Sys) (mode : Nat) :
    (k.fresh (S_IFDIR ||| k.masked_dir mode) "").core = ⟨k.next_ino, S_IFDIR, 0, 0, "", ""⟩ ∧
      S_ISDIR (k.fresh (S_IFDIR ||| k.masked_dir mode) "").mode = true := by
  have h : (S_IFDIR ||| k.masked_dir mode) &&& S_IFMT = S_IFDIR := by
    have e : S_IFDIR = S_IFDIR &&& S_IFMT := by decide
    have e3 : ∀ a b : Nat, (a &&& 0o1777 &&& b) &&& 0o7777 = a &&& 0o1777 &&& b := by
      intro a b
      rw [Nat.and_assoc, Nat.and_comm b, ← Nat.and_assoc, Nat.and_assoc a,
        show (0o1777 : Nat) &&& 0o7777 = 0o1777 from by decide]
    have e2 : k.masked_dir mode = k.masked_dir mode &&& 0o7777 := by
      unfold Sys.masked_dir
      rw [e3]
    rw [e2]
    have := chmod_keeps_type S_IFDIR (k.masked_dir mode)
    rw [← e] at this
    exact this
  constructor
  · simp [Sys.fresh, Inode.core, h]
  · simp [Sys.fresh, S_ISDIR, h]

theorem Fs.allDirs_append (c : Fs) (n : String) (i : Inode) (h : c.allDirs = true)
    (hi : S_ISDIR i.mode = true) : (Fs.append n i Fs.nil c).allDirs = true := by
  induction c with
  | nil => simp [Fs.append, Fs.allDirs, hi]
  | cons m j s rest _ ihr =>
    simp only [Fs.allDirs, Bool.and_eq_true] at h
    simp only [Fs.append, Fs.allDirs, Bool.and_eq_true]
    exact ⟨h.1, ihr h.2⟩

theorem Fs.allDirs_modifyDir (f : Fs → Fs) (hf : ∀ c, c.allDirs = true → (f c).allDirs = true)
    (fs : Fs) : ∀ (q : Path), fs.allDirs = true → (Fs.modifyDir f fs q).allDirs = true := by
  induction fs with
  | nil =>
    intro q h
    cases q with
    | nil => exact hf _ h
    | cons a p => simp [Fs.modifyDir, Fs.allDirs]
  | cons m j s rest ihs ihr =>
    intro q h
    cases q with
    | nil => exact hf _ h
    | cons a p =>
      simp only [Fs.allDirs, Bool.and_eq_true] at h
      simp only [Fs.modifyDir]
      by_cases e : m = a
      · rw [if_pos e, if_pos h.1.1]
        simp only [Fs.allDirs, Bool.and_eq_true]
        exact ⟨⟨h.1.1, ihs p h.1.2⟩, h.2⟩
      · rw [if_neg e]
        simp only [Fs.allDirs, Bool.and_eq_true]
        exact ⟨h.1, ihr (a :: p) h.2⟩

/-- Adding an entry keeps every file there was, with its inode. -/
theorem Fs.get_grow_old (n : String) (i : Inode) (par : Path) :
    ∀ (fs : Fs) (x : Path) (j : Inode) (c : Fs), fs.get x = some (j, c) →
      ∃ c1, (Fs.modifyDir (Fs.append n i Fs.nil) fs par).get x = some (j, c1) := by
  induction par with
  | nil =>
    intro fs x j c hx
    rw [Fs.modifyDir_nil]
    cases x with
    | nil =>
      rw [Fs.get_nil] at hx ⊢
      simp only [Option.some.injEq, Prod.mk.injEq] at hx
      exact ⟨_, by rw [hx.1]⟩
    | cons m p =>
      rw [Fs.get_cons] at hx ⊢
      rw [Fs.find_append]
      cases hf : fs.find m with
      | none => rw [hf] at hx; simp at hx
      | some y => rw [hf] at hx; exact ⟨c, hx⟩
  | cons a q ih =>
    intro fs x j c hx
    cases x with
    | nil =>
      rw [Fs.get_nil] at hx ⊢
      simp only [Option.some.injEq, Prod.mk.injEq] at hx
      exact ⟨_, by rw [hx.1]⟩
    | cons m p =>
      rw [Fs.get_cons] at hx ⊢
      have hsplit : Fs.modifyDir (Fs.append n i Fs.nil) fs (a :: q) =
          Fs.modifyDir (fun s => Fs.modifyDir (Fs.append n i Fs.nil) s q) fs [a] :=
        Fs.modifyDir_append _ fs [a] q
      rw [hsplit]
      by_cases e : a = m
      · subst e
        rw [Fs.find_modifyDir_eq]
        cases hf : fs.find a with
        | none => rw [hf] at hx; simp at hx
        | some y =>
          obtain ⟨j0, s⟩ := y
          rw [hf] at hx
          by_cases hp : p.isEmpty = true
          · simp only [hp, if_true, Option.some.injEq, Prod.mk.injEq] at hx ⊢
            exact ⟨_, ⟨hx.1, rfl⟩⟩
          · by_cases hd : S_ISDIR j0.mode = true
            · simp only [hp, hd, if_true] at hx ⊢
              exact ih s p j c hx
            · simp [hp, hd] at hx
      · rw [Fs.find_modifyDir_ne _ _ _ _ e]
        exact ⟨c, hx⟩

/-- Adding an entry adds one file, with the inode given. -/
theorem Fs.get_grow_new (n : String) (i : Inode) (par : Path) :
    ∀ (fs : Fs) (x : Path) (j : Inode) (c : Fs), fs.get x = none →
      (Fs.modifyDir (Fs.append n i Fs.nil) fs par).get x = some (j, c) → j = i := by
  induction par with
  | nil =>
    intro fs x j c hx hy
    rw [Fs.modifyDir_nil] at hy
    cases x with
    | nil => rw [Fs.get_nil] at hx; simp at hx
    | cons m p =>
      rw [Fs.get_cons] at hx hy
      rw [Fs.find_append] at hy
      cases hf : fs.find m with
      | some y => rw [hf] at hx hy; rw [hx] at hy; simp at hy
      | none =>
        rw [hf] at hy
        by_cases e : n = m
        · simp only [e, if_true] at hy
          by_cases hp : p.isEmpty = true
          · simp only [hp, if_true, Option.some.injEq, Prod.mk.injEq] at hy
            exact hy.1.symm
          · cases p with
            | nil => simp at hp
            | cons b r =>
              simp only [List.isEmpty_cons, Bool.false_eq_true, if_false] at hy
              split at hy
              · rw [Fs.get_cons] at hy; simp [Fs.find] at hy
              · simp at hy
        · simp [e] at hy
  | cons a q ih =>
    intro fs x j c hx hy
    cases x with
    | nil => rw [Fs.get_nil] at hx; simp at hx
    | cons m p =>
      have hsplit : Fs.modifyDir (Fs.append n i Fs.nil) fs (a :: q) =
          Fs.modifyDir (fun s => Fs.modifyDir (Fs.append n i Fs.nil) s q) fs [a] :=
        Fs.modifyDir_append _ fs [a] q
      rw [hsplit] at hy
      rw [Fs.get_cons] at hx hy
      by_cases e : a = m
      · subst e
        rw [Fs.find_modifyDir_eq] at hy
        cases hf : fs.find a with
        | none => rw [hf] at hy; simp at hy
        | some y =>
          obtain ⟨j0, s⟩ := y
          rw [hf] at hx hy
          by_cases hp : p.isEmpty = true
          · simp [hp] at hx
          · by_cases hd : S_ISDIR j0.mode = true
            · simp only [hp, hd, if_true] at hx hy
              exact ih s p j c hx hy
            · simp [hp, hd] at hy
      · rw [Fs.find_modifyDir_ne _ _ _ _ e] at hy
        rw [hx] at hy; simp at hy

theorem Grown.trans (mode : Nat) (k k1 k2 : Sys) (h1 : Grown mode k k1)
    (h2 : Grown mode k1 k2) : Grown mode k k2 := by
  obtain ⟨_, u1, o1, n1⟩ := h1
  obtain ⟨d2, u2, o2, n2⟩ := h2
  refine ⟨d2, by rw [u2, u1], ?_, ?_⟩
  · intro x i c hx
    obtain ⟨c1, h1⟩ := o1 x i c hx
    exact o2 x i c1 h1
  · intro x i c hx hy
    cases h1 : k1.fs.get x with
    | none =>
      have := n2 x i c h1 hy
      rw [this]
      simp only [Sys.masked_dir, u1]
    | some y =>
      obtain ⟨c2, h2⟩ := o2 x y.1 y.2 h1
      rw [hy] at h2
      simp only [Option.some.injEq, Prod.mk.injEq] at h2
      rw [h2.1]
      exact n1 x y.1 y.2 hx h1

theorem Grown.create (mode : Nat) (k : Sys) (par : Path) (w : String)
    (h : k.fs.allDirs = true) :
    Grown mode k (k.create par w (S_IFDIR ||| k.masked_dir mode) "") := by
  refine ⟨?_, rfl, ?_, ?_⟩
  · exact Fs.allDirs_modifyDir _
      (fun c hc => Fs.allDirs_append c w _ hc (fresh_dir_core k mode).2) k.fs par h
  · intro x i c hx
    exact Fs.get_grow_old w _ par k.fs x i c hx
  · intro x i c hx hy
    have := Fs.get_grow_new w _ par k.fs x i c hx hy
    rw [this]
    rfl

/-- The run of the witness, evaluated: `b`, `c` and `d` are made with mode 0750. -/
theorem mkdirs_example :
    (mkdirs dirs_sys "/a/b/../c//d/" 0o750).2.fs =
      Fs.cons "a" ⟨3, S_IFDIR ||| 0o700, 0, 0, "", ""⟩
        (Fs.cons "b" ⟨4, S_IFDIR ||| 0o750, 0, 0, "", ""⟩ Fs.nil
          (Fs.cons "c" ⟨5, S_IFDIR ||| 0o750, 0, 0, "", ""⟩
            (Fs.cons "d" ⟨6, S_IFDIR ||| 0o750, 0, 0, "", ""⟩ Fs.nil Fs.nil) Fs.nil))
        Fs.nil := by
  decide

/-! ## A path longer than the buffer of `mkdirs` -/

/-- C21: with the outcome of `chmod`, `chown` and the label call as inputs
(any three functions `o`), `setattr` and `fsetattr` are the same body over their
calls, and a run of that body makes a non-empty initial stretch of the plan
`chmod(mode & 0777)`, `chown(uid, gid)`, then the label call when `con` is not
empty; it returns 0 or -1, and 0 exactly when no call it made returned a
negative value, in which case it made the whole plan; only the last call made
can have failed; and the state it leaves is the state the calls made leave one
after the other, so nothing is undone. -/
theorem setattr_steps {σ : Type} (o : AttrOps σ) (s : σ) (a : file_attr) (k : Sys)
    (path : String) (t : FdTable) (fd : Int) :
    setattr k path a = setattr_with (path_ops path) k a ∧
    fsetattr k t fd a = setattr_with (fd_ops t fd) k a ∧
    setattr_with o s a =
      ((setattr_with o.logged (s, []) a).1, (setattr_with o.logged (s, []) a).2.1) ∧
    (setattr_with o.logged (s, []) a).2.2.map Prod.fst <+: plan a ∧
    (setattr_with o.logged (s, []) a).2.2 ≠ [] ∧
    ((setattr_with o.logged (s, []) a).1 = 0 ∨ (setattr_with o.logged (s, []) a).1 = -1) ∧
    ((setattr_with o.logged (s, []) a).1 = 0 ↔
      ∀ e, e ∈ (setattr_with o.logged (s, []) a).2.2 → ¬ e.2 < 0) ∧
    ((setattr_with o.logged (s, []) a).1 = 0 →
      (setattr_with o.logged (s, []) a).2.2.map Prod.fst = plan a) ∧
    (∀ e, e ∈ (setattr_with o.logged (s, []) a).2.2.dropLast → ¬ e.2 < 0) ∧
    (setattr_with o.logged (s, []) a).2 =
      o.replay (s, []) ((setattr_with o.logged (s, []) a).2.2.map Prod.fst) := by
  refine ⟨rfl, rfl, ?_⟩
  simp only [setattr_with, AttrOps.logged, plan]
  by_cases h1 : (o.chmod s (a.st.st_mode &&& 0o777)).1 < 0
  · simp [h1, AttrOps.replay, AttrOps.call]
  · have g1 := not_lt.mp h1
    by_cases h2 : (o.chown (o.chmod s (a.st.st_mode &&& 0o777)).2 a.st.st_uid a.st.st_gid).1 < 0
    · simp [h1, h2, g1, AttrOps.replay, AttrOps.call]
    · have g2 := not_lt.mp h2
      by_cases hc : a.con = ""
      · simp [h1, h2, hc, g1, g2, AttrOps.replay, AttrOps.call]
      · by_cases h3 : (o.setcon (o.chown (o.chmod s (a.st.st_mode &&& 0o777)).2
            a.st.st_uid a.st.st_gid).2 a.con).1 < 0
        · simp [h1, h2, hc, h3, g1, g2, AttrOps.replay, AttrOps.call]
        · simp [h1, h2, hc, h3, g1, g2, not_lt.mp h3, AttrOps.replay, AttrOps.call]

/-! ## The link readers (xwrap.cpp 398-428) -/

/-- C23 fails for a link that fills the buffer: with a target of four bytes and a
buffer of four bytes `xreadlink`, and `xreadlinkat` compiled for another
machine than x86, return 4 and store the terminating byte at index 4, after the
last byte of the buffer (the buffer of the model grows by the byte written);
`xreadlinkat` compiled for x86 returns 4 and leaves no terminating byte in the
buffer. -/
theorem xreadlink_terminator_past_buffer :
    xreadlink (some "abcd") ['x', 'x', 'x', 'x'] 4 = (4, ['a', 'b', 'c', 'd', NUL]) ∧
    xreadlinkat false (some "abcd") ['x', 'x', 'x', 'x'] 4 = (4, ['a', 'b', 'c', 'd', NUL]) ∧
    xreadlinkat true (some "abcd") ['x', 'x', 'x', 'x'] 4 = (4, ['a', 'b', 'c', 'd']) ∧
    NUL ∉ ['a', 'b', 'c', 'd'] ∧ ¬ ((4 : Nat) < ['x', 'x', 'x', 'x'].length) := by
  decide

/-! ## The transfer loops (xwrap.cpp 75-122) -/

theorem ssize_t_small (w n : Nat) (h : n < 2 ^ (w - 1)) : ssize_t w n = n := by
  have hle : 2 ^ (w - 1) ≤ 2 ^ w := Nat.pow_le_pow_right (by decide) (Nat.sub_le w 1)
  have hm : n % 2 ^ w = n := Nat.mod_eq_of_lt (lt_of_lt_of_le h hle)
  unfold ssize_t
  rw [hm, if_pos h]

theorem uninterrupted_idem (outs : List Outcome) :
    uninterrupted (uninterrupted outs) = uninterrupted outs := by
  unfold uninterrupted
  rw [List.filter_filter]
  simp

/-- The loop in closed form, from `sz < count` bytes on. -/
theorem transfer_loop_spec (w count : Nat) (hw : count < 2 ^ (w - 1)) :
    ∀ (outs : List Outcome) (sz : Nat), sz < count →
      transfer_loop w count outs sz =
        if count ≤ sz + offered (uninterrupted outs) then (count : Int)
        else if ends_failing (uninterrupted outs) = true then -1
        else ((sz + offered (uninterrupted outs) : Nat) : Int) := by
  intro outs
  induction outs with
  | nil =>
    intro sz hsz
    simp only [transfer_loop, uninterrupted, offered, ends_failing, List.filter_nil,
      List.takeWhile_nil, List.map_nil, List.sum_nil, List.dropWhile_nil, List.head?_nil]
    rw [if_neg (by omega), if_neg (by simp), ssize_t_small w sz (by omega)]
    simp
  | cons o rest ih =>
    intro sz hsz
    cases o with
    | failed =>
      have hu : uninterrupted (Outcome.failed :: rest) = Outcome.failed :: uninterrupted rest := by
        simp [uninterrupted]
      rw [hu]
      simp only [transfer_loop, offered, ends_failing, List.takeWhile_cons, Outcome.progress,
        List.dropWhile_cons, List.map_nil, List.sum_nil, List.head?_cons]
      simp
      omega
    | eintr =>
      have hu : uninterrupted (Outcome.eintr :: rest) = uninterrupted rest := by
        simp [uninterrupted]
      rw [hu]
      simp only [transfer_loop]
      rw [if_pos (by omega)]
      exact ih sz hsz
    | moved n =>
      have hu : uninterrupted (Outcome.moved n :: rest) =
          Outcome.moved n :: uninterrupted rest := by
        simp [uninterrupted]
      rw [hu]
      simp only [transfer_loop]
      by_cases hn : n = 0
      · subst hn
        have hoff : offered (Outcome.moved 0 :: uninterrupted rest) = 0 := by
          simp [offered, Outcome.progress]
        have hend : ends_failing (Outcome.moved 0 :: uninterrupted rest) = false := by
          simp [ends_failing, Outcome.progress]
        rw [hoff, hend]
        simp only [Nat.zero_min, Nat.add_zero, ne_eq, not_true_eq_false, and_false, if_false]
        rw [ssize_t_small w sz (by omega), if_neg (by omega), if_neg (by simp)]
      · have hoff : offered (Outcome.moved n :: uninterrupted rest) =
            n + offered (uninterrupted rest) := by
          simp [offered, Outcome.progress, Outcome.amount, hn]
        have hend : ends_failing (Outcome.moved n :: uninterrupted rest) =
            ends_failing (uninterrupted rest) := by
          simp [ends_failing, Outcome.progress, hn]
        rw [hoff, hend]
        by_cases hfull : count - sz ≤ n
        · have hmin : min n (count - sz) = count - sz := Nat.min_eq_right hfull
          rw [hmin]
          have hsum : sz + (count - sz) = count := by omega
          rw [hsum]
          simp only [ne_eq, not_true_eq_false, false_and, if_false]
          rw [ssize_t_small w count hw, if_pos (by omega)]
        · have hmin : min n (count - sz) = n := Nat.min_eq_left (by omega)
          rw [hmin, if_pos ⟨by omega, hn⟩, ih (sz + n) (by omega)]
          simp only [Nat.add_assoc]

/-- C22, for a count from 1 up to the largest `ssize_t`: over the outcomes of
the calls of `write` (`read`), `xwrite` (`xxread`) returns what it returns on
the outcomes without the interrupted calls; it returns `count` when the calls
before the first that moves nothing or fails offer `count` bytes or more,
otherwise -1 when that first call fails, and otherwise the bytes moved before
it. -/
theorem transfer_ignores_eintr (w count : Nat) (outs : List Outcome) (h0 : 0 < count)
    (hw : count < 2 ^ (w - 1)) :
    xwrite w outs count = xwrite w (uninterrupted outs) count ∧
    xxread w outs count = xxread w (uninterrupted outs) count ∧
    xwrite w outs count =
      (if count ≤ offered (uninterrupted outs) then (count : Int)
        else if ends_failing (uninterrupted outs) = true then -1
        else (offered (uninterrupted outs) : Int)) ∧
    xxread w outs count =
      (if count ≤ offered (uninterrupted outs) then (count : Int)
        else if ends_failing (uninterrupted outs) = true then -1
        else (offered (uninterrupted outs) : Int)) := by
  have h := transfer_loop_spec w count hw outs 0 h0
  have h1 := transfer_loop_spec w count hw (uninterrupted outs) 0 h0
  rw [uninterrupted_idem] at h1
  simp only [Nat.zero_add] at h h1
  unfold xwrite xxread
  exact ⟨by rw [h, h1], by rw [h, h1], h, h⟩

/-- Witness of `transfer_ignores_eintr`: ten bytes asked for, seven moved by two
calls with interrupted calls between them, then the end of the file. -/
theorem transfer_ignores_eintr_witness :
    0 < 10 ∧ 10 < 2 ^ (64 - 1) ∧
    xwrite 64 [Outcome.moved 4, Outcome.eintr, Outcome.moved 3, Outcome.eintr, Outcome.moved 0,
        Outcome.failed] 10 =
      xwrite 64 (uninterrupted [Outcome.moved 4, Outcome.eintr, Outcome.moved 3, Outcome.eintr,
        Outcome.moved 0, Outcome.failed]) 10 ∧
    xxread 64 [Outcome.moved 4, Outcome.eintr, Outcome.moved 3, Outcome.eintr, Outcome.moved 0,
        Outcome.failed] 10 =
      xxread 64 (uninterrupted [Outcome.moved 4, Outcome.eintr, Outcome.moved 3, Outcome.eintr,
        Outcome.moved 0, Outcome.failed]) 10 ∧
    xwrite 64 [Outcome.moved 4, Outcome.eintr, Outcome.moved 3, Outcome.eintr, Outcome.moved 0,
        Outcome.failed] 10 =
      (if 10 ≤ offered (uninterrupted [Outcome.moved 4, Outcome.eintr, Outcome.moved 3,
          Outcome.eintr, Outcome.moved 0, Outcome.failed]) then ((10 : Nat) : Int)
        else if ends_failing (uninterrupted [Outcome.moved 4, Outcome.eintr, Outcome.moved 3,
          Outcome.eintr, Outcome.moved 0, Outcome.failed]) = true then -1
        else (offered (uninterrupted [Outcome.moved 4, Outcome.eintr, Outcome.moved 3,
          Outcome.eintr, Outcome.moved 0, Outcome.failed]) : Int)) ∧
    xxread 64 [Outcome.moved 4, Outcome.eintr, Outcome.moved 3, Outcome.eintr, Outcome.moved 0,
        Outcome.failed] 10 =
      (if 10 ≤ offered (uninterrupted [Outcome.moved 4, Outcome.eintr, Outcome.moved 3,
          Outcome.eintr, Outcome.moved 0, Outcome.failed]) then ((10 : Nat) : Int)
        else if ends_failing (uninterrupted [Outcome.moved 4, Outcome.eintr, Outcome.moved 3,
          Outcome.eintr, Outcome.moved 0, Outcome.failed]) = true then -1
        else (offered (uninterrupted [Outcome.moved 4, Outcome.eintr, Outcome.moved 3,
          Outcome.eintr, Outcome.moved 0, Outcome.failed]) : Int)) :=
  ⟨by decide, by decide, transfer_ignores_eintr 64 10 _ (by decide) (by decide)⟩

/-- The run of the witness, evaluated: seven bytes. -/
theorem transfer_example :
    xxread 64 [Outcome.moved 4, Outcome.eintr, Outcome.moved 3, Outcome.eintr, Outcome.moved 0,
        Outcome.failed] 10 = 7 ∧
    xwrite 64 [Outcome.moved 4, Outcome.eintr, Outcome.moved 30] 10 = 10 ∧
    xwrite 64 [Outcome.moved 4, Outcome.eintr, Outcome.failed] 10 = -1 := by
  decide

/-- C22 as stated fails for a count of 0 and for a count above the largest
`ssize_t`. With `count` 0 an interrupted first call ends the loop (`continue`
goes to the test `write_sz != count`), so a failure after it is not met: the
result is 0, and -1 on the outcomes without the interrupted call. With `count`
2^63 all moved, the value returned is negative though no call failed. -/
theorem transfer_eintr_ends_empty_count :
    xwrite 64 [Outcome.eintr, Outcome.failed] 0 = 0 ∧
    xwrite 64 (uninterrupted [Outcome.eintr, Outcome.failed]) 0 = -1 ∧
    xxread 64 [Outcome.eintr, Outcome.failed] 0 = 0 ∧
    xxread 64 (uninterrupted [Outcome.eintr, Outcome.failed]) 0 = -1 ∧
    xwrite 64 [Outcome.moved (2 ^ 63)] (2 ^ 63) < 0 := by
  decide

/-! ## `parse_int` (misc.cpp 161-170) -/

theorem digit_bounds (c : Char) (h : ¬ (c > '9' ∨ c < '0')) : 48 ≤ c.toNat ∧ c.toNat ≤ 57 := by
  simp only [not_or, gt_iff_lt, Char.lt_def] at h
  have a : c.val.toNat ≤ ('9' : Char).val.toNat := UInt32.le_def.mp (UInt32.not_lt.mp h.1)
  have b : ('0' : Char).val.toNat ≤ c.val.toNat := UInt32.le_def.mp (UInt32.not_lt.mp h.2)
  have h1 : ('9' : Char).val.toNat = 57 := by decide
  have h0 : ('0' : Char).val.toNat = 48 := by decide
  rw [h1] at a
  rw [h0] at b
  exact ⟨b, a⟩

theorem takeWhile_nul (cs : List Char) :
    (NUL :: cs).takeWhile (fun c => c ≠ NUL) = [] := by
  rw [List.takeWhile_cons_of_neg]
  simp

theorem takeWhile_not_nul (c : Char) (cs : List Char) (hc : c ≠ NUL) :
    (c :: cs).takeWhile (fun c => c ≠ NUL) = c :: cs.takeWhile (fun c => c ≠ NUL) := by
  rw [List.takeWhile_cons_of_pos]
  simpa using hc

theorem decimal_le (cs : List Char) : ∀ acc, acc ≤ decimal acc cs := by
  induction cs with
  | nil => intro acc; exact Nat.le_refl _
  | cons c cs ih =>
    intro acc
    exact Nat.le_trans (by omega) (ih _)

theorem wrap_step (val c : Int) :
    wrap_int (wrap_int (wrap_int (val * 10) + c) - 48) = wrap_int (val * 10 + c - 48) := by
  unfold wrap_int
  omega

theorem wrap_small (x : Int) (h0 : 0 ≤ x) (h1 : x < 2147483648) : wrap_int x = x := by
  unfold wrap_int
  omega

theorem parse_int_loop_bad (cs : List Char) : ∀ val : Int,
    (∃ c, c ∈ cs.takeWhile (fun c => c ≠ NUL) ∧ (c > '9' ∨ c < '0')) →
    parse_int_loop cs val = -1 := by
  induction cs with
  | nil => intro val h; simp at h
  | cons c cs ih =>
    intro val h
    obtain ⟨d, hd, hbad⟩ := h
    by_cases hc : c = NUL
    · subst hc
      rw [takeWhile_nul] at hd
      simp at hd
    · rw [takeWhile_not_nul c cs hc, List.mem_cons] at hd
      simp only [parse_int_loop, if_neg hc]
      by_cases hb : c > '9' ∨ c < '0'
      · rw [if_pos hb]
      · rw [if_neg hb]
        rcases hd with e | hd
        · rw [e] at hbad; exact absurd hbad hb
        · exact ih _ ⟨d, hd, hbad⟩

theorem parse_int_loop_digits (cs : List Char) : ∀ acc : Nat,
    (∀ c, c ∈ cs.takeWhile (fun c => c ≠ NUL) → ¬ (c > '9' ∨ c < '0')) →
    decimal acc (cs.takeWhile (fun c => c ≠ NUL)) < 2147483648 →
    parse_int_loop cs acc = decimal acc (cs.takeWhile (fun c => c ≠ NUL)) := by
  induction cs with
  | nil => intro acc _ _; rfl
  | cons c cs ih =>
    intro acc hall hfit
    by_cases hc : c = NUL
    · subst hc
      rw [takeWhile_nul]
      simp only [parse_int_loop, if_true]
      rfl
    · rw [takeWhile_not_nul c cs hc] at hall hfit ⊢
      have hb := hall c (List.mem_cons_self _ _)
      obtain ⟨b0, b1⟩ := digit_bounds c hb
      have hd : decimal acc (c :: cs.takeWhile (fun c => c ≠ NUL)) =
          decimal (acc * 10 + (c.toNat - 48)) (cs.takeWhile (fun c => c ≠ NUL)) := rfl
      rw [hd] at hfit ⊢
      have hle := decimal_le (cs.takeWhile (fun c => c ≠ NUL)) (acc * 10 + (c.toNat - 48))
      simp only [parse_int_loop, if_neg hc, if_neg hb]
      have h48 : (Char.toNat '0' : Int) = 48 := by decide
      rw [h48, wrap_step, wrap_small _ (by omega) (by omega)]
      have hcast : ((acc : Int) * 10 + (c.toNat : Int) - 48) =
          ((acc * 10 + (c.toNat - 48) : Nat) : Int) := by omega
      rw [hcast]
      exact ih _ (fun d hd => hall d (List.mem_cons_of_mem _ hd)) hfit

/-- C25: for a string whose digits before the first `NUL` (or the end), when
they are all digits, have a decimal value that fits an `int`, `parse_int`
returns -1 exactly when a byte before the first `NUL` is outside `'0'..'9'`;
otherwise it returns the decimal value of those bytes (0 when there are none),
and a result other than -1 is never negative. -/
theorem parse_int_value (s : String)
    (hfit : (∀ c, c ∈ before_nul s → ¬ (c > '9' ∨ c < '0')) →
      decimal 0 (before_nul s) < 2 ^ 31) :
    (parse_int s = -1 ↔ ∃ c, c ∈ before_nul s ∧ (c > '9' ∨ c < '0')) ∧
    ((∀ c, c ∈ before_nul s → ¬ (c > '9' ∨ c < '0')) →
      parse_int s = decimal 0 (before_nul s)) ∧
    (before_nul s = [] → parse_int s = 0) ∧
    (parse_int s ≠ -1 → 0 ≤ parse_int s) := by
  have hgood : (∀ c, c ∈ before_nul s → ¬ (c > '9' ∨ c < '0')) →
      parse_int s = decimal 0 (before_nul s) := by
    intro hall
    have h2 : (2 : Nat) ^ 31 = 2147483648 := by decide
    have := parse_int_loop_digits s.data 0 hall (by rw [← h2]; exact hfit hall)
    exact this
  have hbad : (∃ c, c ∈ before_nul s ∧ (c > '9' ∨ c < '0')) → parse_int s = -1 :=
    parse_int_loop_bad s.data 0
  refine ⟨⟨?_, hbad⟩, hgood, ?_, ?_⟩
  · intro h
    by_contra hno
    have hall : ∀ c, c ∈ before_nul s → ¬ (c > '9' ∨ c < '0') :=
      fun c hc hb => hno ⟨c, hc, hb⟩
    rw [hgood hall] at h
    omega
  · intro he
    have := hgood (by rw [he]; simp)
    rw [this, he]
    rfl
  · intro h
    by_cases hex : ∃ c, c ∈ before_nul s ∧ (c > '9' ∨ c < '0')
    · exact absurd (hbad hex) h
    · have hall : ∀ c, c ∈ before_nul s → ¬ (c > '9' ∨ c < '0') :=
        fun c hc hb => hex ⟨c, hc, hb⟩
      rw [hgood hall]
      omega

set_option maxRecDepth 100000 in
/-- Witness of `parse_int_value`: the largest `int`. -/
theorem parse_int_value_witness :
    ((∀ c, c ∈ before_nul "2147483647" → ¬ (c > '9' ∨ c < '0')) →
      decimal 0 (before_nul "2147483647") < 2 ^ 31) ∧
    (parse_int "2147483647" = -1 ↔
      ∃ c, c ∈ before_nul "2147483647" ∧ (c > '9' ∨ c < '0')) ∧
    ((∀ c, c ∈ before_nul "2147483647" → ¬ (c > '9' ∨ c < '0')) →
      parse_int "2147483647" = decimal 0 (before_nul "2147483647")) ∧
    (before_nul "2147483647" = [] → parse_int "2147483647" = 0) ∧
    (parse_int "2147483647" ≠ -1 → 0 ≤ parse_int "2147483647") :=
  ⟨fun _ => by decide, parse_int_value "2147483647" (fun _ => by decide)⟩

set_option maxRecDepth 100000 in
/-- Runs of `parse_int`, evaluated. -/
theorem parse_int_example :
    parse_int "2147483647" = 2147483647 ∧ parse_int "" = 0 ∧ parse_int "007" = 7 ∧
    parse_int "12a" = -1 ∧ parse_int "-5" = -1 ∧
    parse_int (String.mk ['4', '2', NUL, 'x']) = 42 := by
  refine ⟨by decide, by decide, by decide, by decide, by decide, by decide⟩

/-! ## `split` and `split_ro` (misc.cpp 216-237) -/

theorem first_of_none (delims : List Char) (r : List Char) (h : first_of delims r = none) :
    ∀ c, c ∈ r → c ∉ delims := by
  induction r with
  | nil => intro c hc; simp at hc
  | cons x r ih =>
    simp only [first_of] at h
    by_cases hx : x ∈ delims
    · rw [if_pos hx] at h; simp at h
    · rw [if_neg hx] at h
      have h1 : first_of delims r = none := by
        cases hf : first_of delims r with
        | none => rfl
        | some i => rw [hf] at h; simp at h
      intro c hc
      rcases List.mem_cons.1 hc with e | hc
      · rw [e]; exact hx
      · exact ih h1 c hc

theorem first_of_some (delims : List Char) (r : List Char) :
    ∀ i, first_of delims r = some i →
      ∃ d, r = r.take i ++ d :: r.drop (i + 1) ∧ d ∈ delims ∧
        (∀ c, c ∈ r.take i → c ∉ delims) ∧ i < r.length := by
  induction r with
  | nil => intro i h; simp [first_of] at h
  | cons x r ih =>
    intro i h
    simp only [first_of] at h
    by_cases hx : x ∈ delims
    · rw [if_pos hx] at h
      simp only [Option.some.injEq] at h
      subst h
      exact ⟨x, by simp, hx, by simp, by simp⟩
    · rw [if_neg hx] at h
      cases hf : first_of delims r with
      | none => rw [hf] at h; simp at h
      | some j =>
        rw [hf] at h
        simp only [Option.map_some', Option.some.injEq] at h
        subst h
        obtain ⟨d, hr, hd, hpre, hlt⟩ := ih j hf
        refine ⟨d, ?_, hd, ?_, by simp; omega⟩
        · simp only [List.take_succ_cons, List.drop_succ_cons, List.cons_append]
          rw [← hr]
        · intro c hc
          simp only [List.take_succ_cons, List.mem_cons] at hc
          rcases hc with e | hc
          · rw [e]; exact hx
          · exact hpre c hc

theorem countP_none (delims r : List Char) (h : ∀ c, c ∈ r → c ∉ delims) :
    r.countP (fun c => decide (c ∈ delims)) = 0 ∧
      r.filter (fun c => decide (c ∈ delims)) = [] := by
  constructor
  · rw [List.countP_eq_zero]
    intro c hc
    simpa using h c hc
  · rw [List.filter_eq_nil_iff]
    intro c hc
    simpa using h c hc

/-- The loop of `split_impl` from `base` on, with fuel for what is left of the
string: it ends, with one piece more than there are delimiters from `base` on,
no delimiter in a piece, and the rest of the string when the pieces are put
together with the delimiters. -/
theorem split_loop_spec (s delims : List Char) : ∀ (fuel base : Nat),
    base ≤ s.length → s.length - base < fuel →
    ∃ ps, split_loop s delims fuel base = some ps ∧
      ps.length = (s.drop base).countP (fun c => decide (c ∈ delims)) + 1 ∧
      (∀ p, p ∈ ps → ∀ c, c ∈ p → c ∉ delims) ∧
      rejoin ps ((s.drop base).filter (fun c => decide (c ∈ delims))) = s.drop base := by
  intro fuel
  induction fuel with
  | zero => intro base _ h; omega
  | succ fuel ih =>
    intro base hb hf
    simp only [split_loop, find_first_of]
    cases hfo : first_of delims (s.drop base) with
    | none =>
      have hno := first_of_none delims _ hfo
      obtain ⟨h0, h1⟩ := countP_none delims _ hno
      refine ⟨[s.drop base], rfl, by rw [h0]; rfl, ?_, by rw [h1]; rfl⟩
      intro p hp c hc
      simp only [List.mem_singleton] at hp
      subst hp
      exact hno c hc
    | some i =>
      obtain ⟨d, hr, hd, hpre, hlt⟩ := first_of_some delims _ i hfo
      have hlen : (s.drop base).length = s.length - base := List.length_drop _ _
      have hb1 : i + base + 1 ≤ s.length := by omega
      obtain ⟨ps, hps, hcount, hclean, hjoin⟩ := ih (i + base + 1) hb1 (by omega)
      have hdrop : s.drop (i + base + 1) = (s.drop base).drop (i + 1) := by
        rw [List.drop_drop]
        congr 1
        omega
      rw [hdrop] at hcount hjoin
      obtain ⟨c0, c1⟩ := countP_none delims _ hpre
      simp only [Option.map_some', hps, substr, Nat.add_sub_cancel]
      refine ⟨(s.drop base).take i :: ps, rfl, ?_, ?_, ?_⟩
      · rw [List.length_cons, hcount]
        conv_rhs => rw [hr]
        rw [List.countP_append, List.countP_cons, c0]
        simp [hd]
      · intro p hp c hc
        rcases List.mem_cons.1 hp with e | hp
        · rw [e] at hc; exact hpre c hc
        · exact hclean p hp c hc
      · have hfil : (s.drop base).filter (fun c => decide (c ∈ delims)) =
            d :: ((s.drop base).drop (i + 1)).filter (fun c => decide (c ∈ delims)) := by
          conv_lhs => rw [hr]
          rw [List.filter_append, c1, List.nil_append,
            List.filter_cons_of_pos (by simpa using hd)]
        rw [hfil]
        cases ps with
        | nil => simp at hcount
        | cons q qs =>
          simp only [rejoin]
          rw [hjoin]
          exact hr.symm

theorem split_loop_fuel (s delims : List Char) : ∀ (fuel base : Nat) (ps : List (List Char)),
    split_loop s delims fuel base = some ps →
    ∀ more, fuel ≤ more → split_loop s delims more base = some ps := by
  intro fuel
  induction fuel with
  | zero => intro base ps h; simp [split_loop] at h
  | succ fuel ih =>
    intro base ps h more hm
    obtain ⟨m, rfl⟩ : ∃ m, more = m + 1 := ⟨more - 1, by omega⟩
    simp only [split_loop] at h ⊢
    cases hf : find_first_of s delims base with
    | none => rw [hf] at h; exact h
    | some found =>
      rw [hf] at h
      simp only at h ⊢
      cases hl : split_loop s delims fuel (found + 1) with
      | none => rw [hl] at h; simp at h
      | some r =>
        rw [hl] at h
        rw [ih (found + 1) r hl m (by omega)]
        exact h

/-- C26: `split` and `split_ro` end with the same pieces, one more than the
characters of `s` that belong to `delims`; no piece holds a delimiter, and the
pieces with the delimiters of `s` between them, in their order, are `s`. Any
fuel above the length of `s` gives the loop the same result. -/
theorem split_pieces (s delims : String) :
    ∃ ps, split s delims = some ps ∧ split_ro s delims = some ps ∧
      ps.length = s.data.countP (fun c => decide (c ∈ delims.data)) + 1 ∧
      (∀ p, p ∈ ps → ∀ c, c ∈ p.data → c ∉ delims.data) ∧
      rejoin (ps.map String.data) (s.data.filter (fun c => decide (c ∈ delims.data))) = s.data ∧
      (s = "" → ps = [""]) ∧
      (∀ fuel, s.length < fuel →
        split_loop s.data delims.data fuel 0 = split_impl s.data delims.data) := by
  obtain ⟨ps, hps, hcount, hclean, hjoin⟩ :=
    split_loop_spec s.data delims.data (s.data.length + 1) 0 (Nat.zero_le _) (by simp)
  simp only [List.drop_zero] at hcount hjoin
  have hmap : (ps.map String.mk).map String.data = ps := by
    rw [List.map_map]
    exact List.map_id ps
  refine ⟨ps.map String.mk, ?_, ?_, ?_, ?_, ?_, ?_, ?_⟩
  · simp only [split, split_impl, hps, Option.map_some']
  · simp only [split_ro, split_impl, hps, Option.map_some']
  · rw [List.length_map, hcount]
  · intro p hp c hc
    obtain ⟨q, hq, e⟩ := List.mem_map.1 hp
    rw [← e] at hc
    exact hclean q hq c hc
  · rw [hmap]
    exact hjoin
  · intro e
    subst e
    have h0 : split_loop "".data delims.data ("".data.length + 1) 0 = some [[]] := rfl
    rw [h0] at hps
    simp only [Option.some.injEq] at hps
    rw [← hps]
    rfl
  · intro fuel hf
    rw [split_impl, hps]
    obtain ⟨ps1, hps1, _, _, _⟩ :=
      split_loop_spec s.data delims.data fuel 0 (Nat.zero_le _) (by simpa using hf)
    rcases Nat.le_total fuel (s.data.length + 1) with hle | hle
    · rw [hps1]
      have := split_loop_fuel s.data delims.data fuel 0 ps1 hps1 _ hle
      rw [hps] at this
      exact this.symm
    · exact split_loop_fuel s.data delims.data _ 0 ps hps fuel hle

/-- Runs of `split`, evaluated. -/
theorem split_example :
    split "a,b;;c" ",;" = some ["a", "b", "", "c"] ∧ split_ro "" "," = some [""] ∧
    split ",x," "," = some ["", "x", ""] ∧ split "abc" "" = some ["abc"] := by
  decide

/-! ## `replace_all` (misc.cpp 207-214) -/

theorem Replaced.unique (frm repl : List Char) (hne : frm ≠ []) (s r1 : List Char)
    (h1 : Replaced frm repl s r1) : ∀ r2, Replaced frm repl s r2 → r1 = r2 := by
  induction h1 with
  | done =>
    intro r2 h2
    generalize hs : ([] : List Char) = s at h2
    cases h2 with
    | done => rfl
    | hit rest r h =>
      exfalso
      exact hne (List.append_eq_nil.1 hs.symm).1
    | miss c cs r hn h => simp at hs
  | hit rest r h ih =>
    intro r2 h2
    generalize hs : frm ++ rest = s at h2
    cases h2 with
    | done =>
      exfalso
      exact hne (List.append_eq_nil.1 hs).1
    | hit rest2 r2 h2 =>
      have e : rest = rest2 := List.append_cancel_left hs
      subst e
      rw [ih r2 h2]
    | miss c cs r2 hn h2 =>
      exfalso
      exact hn ⟨rest, hs⟩
  | miss c cs r hn h ih =>
    intro r2 h2
    generalize hs : c :: cs = s at h2
    cases h2 with
    | done => simp at hs
    | hit rest2 r2 h2 =>
      exfalso
      exact hn ⟨rest2, hs.symm⟩
    | miss c2 cs2 r2 hn2 h2 =>
      simp only [List.cons.injEq] at hs
      obtain ⟨e1, e2⟩ := hs
      subst e1
      subst e2
      rw [ih r2 h2]

theorem find_in_some (frm repl : List Char) (hne : frm ≠ []) (rest : List Char) :
    ∀ i, find_in frm rest = some i →
      ∃ a b, rest = a ++ (frm ++ b) ∧ a.length = i ∧
        ∀ r, Replaced frm repl b r → Replaced frm repl rest (a ++ (repl ++ r)) := by
  induction rest with
  | nil => intro i h; simp [find_in, hne] at h
  | cons c cs ih =>
    intro i h
    simp only [find_in] at h
    by_cases hp : frm <+: c :: cs
    · rw [if_pos hp] at h
      simp only [Option.some.injEq] at h
      subst h
      obtain ⟨b, hb⟩ := hp
      refine ⟨[], b, hb.symm, rfl, ?_⟩
      intro r hr
      rw [← hb]
      exact Replaced.hit b r hr
    · rw [if_neg hp] at h
      cases hf : find_in frm cs with
      | none => rw [hf] at h; simp at h
      | some j =>
        rw [hf] at h
        simp only [Option.map_some', Option.some.injEq] at h
        subst h
        obtain ⟨a, b, e, hl, hr⟩ := ih j hf
        refine ⟨c :: a, b, by rw [e]; rfl, by simp [hl], ?_⟩
        intro r h
        exact Replaced.miss c cs _ hp (hr r h)

theorem find_in_none (frm repl : List Char) (rest : List Char)
    (h : find_in frm rest = none) : Replaced frm repl rest rest := by
  induction rest with
  | nil => exact Replaced.done
  | cons c cs ih =>
    simp only [find_in] at h
    by_cases hp : frm <+: c :: cs
    · rw [if_pos hp] at h; simp at h
    · rw [if_neg hp] at h
      have h1 : find_in frm cs = none := by
        cases hf : find_in frm cs with
        | none => rfl
        | some j => rw [hf] at h; simp at h
      exact Replaced.miss c cs cs hp (ih h1)

theorem Replaced.absent (frm repl : List Char) (s : List Char)
    (h : ∀ i, ¬ frm <+: s.drop i) : Replaced frm repl s s := by
  induction s with
  | nil => exact Replaced.done
  | cons c cs ih =>
    refine Replaced.miss c cs cs (h 0) (ih ?_)
    intro i
    exact h (i + 1)

/-- The loop of `replace_all` with `str = head ++ rest` and `pos` after `head`,
with fuel for `rest`: it ends and leaves `head` followed by `rest` with the
occurrences replaced. -/
theorem replace_all_loop_spec (frm repl : List Char) (hne : frm ≠ []) :
    ∀ (fuel : Nat) (head rest : List Char), rest.length < fuel →
      ∃ r, replace_all_loop frm repl fuel (head ++ rest) head.length = some (head ++ r) ∧
        Replaced frm repl rest r := by
  intro fuel
  induction fuel with
  | zero => intro head rest h; omega
  | succ fuel ih =>
    intro head rest hf
    have hfind : string_find (head ++ rest) frm head.length =
        (find_in frm rest).map (fun i => i + head.length) := by
      unfold string_find
      rw [if_neg (by simp), List.drop_left]
    simp only [replace_all_loop, hfind]
    cases hfi : find_in frm rest with
    | none => exact ⟨rest, rfl, find_in_none frm repl rest hfi⟩
    | some i =>
      obtain ⟨a, b, e, hl, hr⟩ := find_in_some frm repl hne rest i hfi
      have hlen : 0 < frm.length := List.length_pos.2 hne
      have hb : b.length < fuel := by
        have := congrArg List.length e
        simp only [List.length_append] at this
        omega
      obtain ⟨r, hloop, hrep⟩ := ih (head ++ a ++ repl) b hb
      have hstr : string_replace (head ++ rest) (i + head.length) frm.length repl =
          head ++ a ++ repl ++ b := by
        unfold string_replace
        have e1 : head ++ rest = (head ++ a) ++ (frm ++ b) := by rw [e]; simp
        have l1 : (head ++ a).length = i + head.length := by simp [hl]; omega
        have e2 : head ++ rest = (head ++ a ++ frm) ++ b := by rw [e]; simp
        have l2 : (head ++ a ++ frm).length = i + head.length + frm.length := by
          simp [hl]; omega
        have t1 : (head ++ rest).take (i + head.length) = head ++ a := by
          rw [e1, ← l1, List.take_left]
        have t2 : (head ++ rest).drop (i + head.length + frm.length) = b := by
          rw [e2, ← l2, List.drop_left]
        rw [t1, t2]
      have hpos : i + head.length + repl.length = (head ++ a ++ repl).length := by
        simp [hl]; omega
      simp only [Option.map_some']
      rw [hstr, hpos, hloop]
      exact ⟨a ++ (repl ++ r), by simp, hr r hrep⟩

/-- C27: for a non-empty `from`, `replace_all` ends, and the string it leaves is
the replacement from left to right of each occurrence of `from` in the string
it was given by `to`, occurrences not overlapping (there is one such string);
any fuel above the length of the string gives the loop the same result, and a
string without an occurrence of `from` is left as it was. -/
theorem replace_all_replaces (str frm repl : String) (hne : frm ≠ "") :
    ∃ r, replace_all str frm repl = some (String.mk r) ∧
      Replaced frm.data repl.data str.data r ∧
      (∀ r2, Replaced frm.data repl.data str.data r2 → r2 = r) ∧
      (∀ fuel, str.length < fuel →
        replace_all_loop frm.data repl.data fuel str.data 0 = some r) ∧
      ((∀ i, ¬ frm.data <+: str.data.drop i) → r = str.data) := by
  have hne1 : frm.data ≠ [] := by
    intro e
    apply hne
    obtain ⟨l⟩ := frm
    simp only at e
    rw [e]
  obtain ⟨r, hloop, hrep⟩ :=
    replace_all_loop_spec frm.data repl.data hne1 (str.length + 1) [] str.data (Nat.lt_succ_self _)
  simp only [List.nil_append, List.length_nil] at hloop
  refine ⟨r, ?_, hrep, ?_, ?_, ?_⟩
  · simp only [replace_all, hloop, Option.map_some']
  · intro r2 h2
    exact Replaced.unique frm.data repl.data hne1 str.data r2 h2 r hrep
  · intro fuel hf
    obtain ⟨r2, hloop2, hrep2⟩ :=
      replace_all_loop_spec frm.data repl.data hne1 fuel [] str.data hf
    simp only [List.nil_append, List.length_nil] at hloop2
    rw [hloop2, Replaced.unique frm.data repl.data hne1 str.data r2 hrep2 r hrep]
  · intro habs
    exact Replaced.unique frm.data repl.data hne1 str.data r hrep _
      (Replaced.absent frm.data repl.data str.data habs)

/-- Witness of `replace_all_replaces`: `a` replaced by `aa` in `banana`. -/
theorem replace_all_replaces_witness :
    ("a" : String) ≠ "" ∧
    ∃ r, replace_all "banana" "a" "aa" = some (String.mk r) ∧
      Replaced "a".data "aa".data "banana".data r ∧
      (∀ r2, Replaced "a".data "aa".data "banana".data r2 → r2 = r) ∧
      (∀ fuel, "banana".length < fuel →
        replace_all_loop "a".data "aa".data fuel "banana".data 0 = some r) ∧
      ((∀ i, ¬ "a".data <+: "banana".data.drop i) → r = "banana".data) :=
  ⟨by decide, replace_all_replaces "banana" "a" "aa" (by decide)⟩

/-- Runs of `replace_all`, evaluated. -/
theorem replace_all_example :
    replace_all "banana" "a" "aa" = some "baanaanaa" ∧
    replace_all "aaa" "aa" "b" = some "ba" ∧
    replace_all "abc" "x" "y" = some "abc" ∧
    replace_all "a.b.c" "." "" = some "abc" := by
  decide

/-! ## `binary_gcd` (misc.cpp 174-189) -/

theorem ctz_loop_spec : ∀ (f n : Nat), 0 < n → n < 2 ^ f →
    ∃ m, n = 2 ^ ctz_loop f n * m ∧ m % 2 = 1 := by
  intro f
  induction f with
  | zero => intro n h0 h1; simp at h1; omega
  | succ f ih =>
    intro n h0 h1
    simp only [ctz_loop]
    by_cases hodd : n % 2 = 1
    · rw [if_pos hodd]
      exact ⟨n, by simp, hodd⟩
    · rw [if_neg hodd]
      have hlt : n / 2 < 2 ^ f := by
        rw [Nat.pow_succ] at h1
        omega
      obtain ⟨m, hm, hmo⟩ := ih (n / 2) (by omega) hlt
      refine ⟨m, ?_, hmo⟩
      have h2 : n = 2 * (n / 2) := by omega
      rw [Nat.add_comm 1, Nat.pow_succ, Nat.mul_comm _ 2, Nat.mul_assoc, ← hm]
      exact h2

theorem ctz_loop_lor : ∀ (f u v : Nat), 0 < u → 0 < v → u < 2 ^ f → v < 2 ^ f →
    ctz_loop f (u ||| v) = min (ctz_loop f u) (ctz_loop f v) := by
  intro f
  induction f with
  | zero => intro u v h0 _ h1; simp at h1; omega
  | succ f ih =>
    intro u v hu hv hul hvl
    simp only [ctz_loop]
    by_cases hou : u % 2 = 1
    · rw [if_pos (Nat.or_mod_two_eq_one.2 (Or.inl hou)), if_pos hou]
      simp
    · by_cases hov : v % 2 = 1
      · rw [if_pos (Nat.or_mod_two_eq_one.2 (Or.inr hov)), if_pos hov]
        simp
      · have hn : ¬ (u ||| v) % 2 = 1 := by
          rw [Nat.or_mod_two_eq_one]
          simp [hou, hov]
        rw [if_neg hn, if_neg hou, if_neg hov, Nat.or_div_two]
        rw [Nat.pow_succ] at hul hvl
        rw [ih (u / 2) (v / 2) (by omega) (by omega) (by omega) (by omega)]
        omega

theorem lor_pos : ∀ (f u v : Nat), 0 < u → u < 2 ^ f → 0 < u ||| v := by
  intro f
  induction f with
  | zero => intro u v h0 h1; simp at h1; omega
  | succ f ih =>
    intro u v h0 h1
    by_cases hou : u % 2 = 1
    · have := (Nat.or_mod_two_eq_one (b := v)).2 (Or.inl hou)
      omega
    · rw [Nat.pow_succ] at h1
      have := ih (u / 2) (v / 2) (by omega) (by omega)
      rw [← Nat.or_div_two] at this
      omega

theorem odd_gcd_pow (m k n : Nat) (h : m % 2 = 1) : Nat.gcd m (2 ^ k * n) = Nat.gcd m n := by
  apply Nat.Coprime.gcd_mul_left_cancel_right
  apply Nat.Coprime.pow_left
  exact Nat.coprime_two_left.2 (Nat.odd_iff.2 h)

theorem gcd_pow_two (a b x y : Nat) (hx : x % 2 = 1) (hy : y % 2 = 1) :
    Nat.gcd (2 ^ a * x) (2 ^ b * y) = 2 ^ min a b * Nat.gcd x y := by
  rcases Nat.le_total a b with h | h
  · obtain ⟨d, rfl⟩ := Nat.exists_eq_add_of_le h
    rw [Nat.min_eq_left h, Nat.pow_add, Nat.mul_assoc, Nat.gcd_mul_left, odd_gcd_pow x d y hx]
  · obtain ⟨d, rfl⟩ := Nat.exists_eq_add_of_le h
    rw [Nat.min_eq_right h, Nat.pow_add, Nat.mul_assoc, Nat.gcd_mul_left, Nat.gcd_comm (2 ^ d * x),
      odd_gcd_pow y d x hy, Nat.gcd_comm]

theorem ctz_odd_part (v : Nat) (h0 : 0 < v) (h1 : v < 2 ^ 32) :
    ctz v = some (ctz_loop 32 v) ∧ (v >>> ctz_loop 32 v) % 2 = 1 ∧
      v = 2 ^ ctz_loop 32 v * (v >>> ctz_loop 32 v) ∧ v >>> ctz_loop 32 v ≤ v ∧
      0 < v >>> ctz_loop 32 v := by
  obtain ⟨m, hm, hmo⟩ := ctz_loop_spec 32 v h0 h1
  have hpos : 0 < 2 ^ ctz_loop 32 v := Nat.pow_pos (by decide)
  have hsh : v >>> ctz_loop 32 v = m := by
    rw [Nat.shiftRight_eq_div_pow]
    exact Nat.div_eq_of_eq_mul_right hpos hm
  rw [hsh]
  have hle : m ≤ v := by
    have := Nat.le_mul_of_pos_left m hpos
    rw [← hm] at this
    exact this
  refine ⟨by simp [ctz]; omega, hmo, hm, hle, by omega⟩

/-- The loop of `binary_gcd` from an odd `u` and a `v` that is not 0, with fuel
`u + v` or more: it ends with the greatest common divisor. -/
theorem binary_gcd_loop_spec : ∀ (fuel u v : Nat), u % 2 = 1 → 0 < v →
    u < 2 ^ 32 → v < 2 ^ 32 → u + v ≤ fuel →
    binary_gcd_loop fuel u v = some (Nat.gcd u v) := by
  intro fuel
  induction fuel with
  | zero => intro u v _ hv _ _ hf; omega
  | succ fuel ih =>
    intro u v hu hv hul hvl hf
    obtain ⟨hc, hmo, hm, hle, hmpos⟩ := ctz_odd_part v hv hvl
    have hg : Nat.gcd u v = Nat.gcd u (v >>> ctz_loop 32 v) := by
      conv_lhs => rw [hm]
      exact odd_gcd_pow u _ _ hu
    simp only [binary_gcd_loop, hc]
    generalize v >>> ctz_loop 32 v = m at hmo hle hmpos hg
    simp only [Nat.reducePow] at hul hvl
    rw [hg]
    by_cases hgt : u > m
    · simp only [hgt, if_true]
      have hsub : (u + 4294967296 - m) % 4294967296 = u - m := by omega
      rw [hsub, if_pos (by omega)]
      rw [ih m (u - m) hmo (by omega) (by simp only [Nat.reducePow]; omega)
        (by simp only [Nat.reducePow]; omega) (by omega)]
      rw [Nat.gcd_sub_self_right (by omega), Nat.gcd_comm]
    · simp only [hgt, if_false]
      have hsub : (m + 4294967296 - u) % 4294967296 = m - u := by omega
      rw [hsub]
      by_cases heq : m - u = 0
      · rw [if_neg (by simpa using heq)]
        have : m = u := by omega
        rw [this, Nat.gcd_self]
      · rw [if_pos heq]
        rw [ih u (m - u) hu (by omega) (by simp only [Nat.reducePow]; omega)
          (by simp only [Nat.reducePow]; omega) (by omega)]
        rw [Nat.gcd_sub_self_right (by omega)]

/-- C24: for 32-bit `u` and `v`, `binary_gcd(u, v)` ends without an undefined
`__builtin_ctz(0)` and returns the greatest common divisor of `u` and `v`, which
is `v` for `u = 0` and `u` for `v = 0`; when neither is 0 the loop ends with
the same value for every fuel from `u + v` on, and the value shifted left is
the greatest common divisor and below `2^32`, so the shift loses no bit. -/
theorem binary_gcd_is_gcd (u v : Nat) (hu : u < 2 ^ 32) (hv : v < 2 ^ 32) :
    binary_gcd u v = some (Nat.gcd u v) ∧
    binary_gcd 0 v = some v ∧ binary_gcd u 0 = some u ∧
    (u ≠ 0 → v ≠ 0 →
      ∃ shift s r, ctz (u ||| v) = some shift ∧ ctz u = some s ∧
        (∀ fuel, u + v ≤ fuel → binary_gcd_loop fuel (u >>> s) v = some r) ∧
        r <<< shift = Nat.gcd u v ∧ r <<< shift < 2 ^ 32) := by
  have hzero : binary_gcd 0 v = some v := by simp [binary_gcd]
  have hzero2 : binary_gcd u 0 = some u := by
    by_cases h : u = 0
    · simp [binary_gcd, h]
    · simp [binary_gcd, h]
  have hmain : u ≠ 0 → v ≠ 0 →
      ∃ shift s r, ctz (u ||| v) = some shift ∧ ctz u = some s ∧
        (∀ fuel, u + v ≤ fuel → binary_gcd_loop fuel (u >>> s) v = some r) ∧
        r <<< shift = Nat.gcd u v ∧ r <<< shift < 2 ^ 32 := by
    intro hu0 hv0
    have hup : 0 < u := Nat.pos_of_ne_zero hu0
    have hvp : 0 < v := Nat.pos_of_ne_zero hv0
    obtain ⟨hcu, huo, hum, hule, _⟩ := ctz_odd_part u hup hu
    obtain ⟨_, hvo, hvm, _, _⟩ := ctz_odd_part v hvp hv
    have hor : u ||| v ≠ 0 := Nat.pos_iff_ne_zero.1 (lor_pos 32 u v hup hu)
    have hcor : ctz (u ||| v) = some (min (ctz_loop 32 u) (ctz_loop 32 v)) := by
      simp only [ctz, if_neg hor]
      rw [ctz_loop_lor 32 u v hup hvp hu hv]
    have hgv : Nat.gcd (u >>> ctz_loop 32 u) v =
        Nat.gcd (u >>> ctz_loop 32 u) (v >>> ctz_loop 32 v) := by
      conv_lhs => rw [hvm]
      exact odd_gcd_pow _ _ _ huo
    have hgcd : Nat.gcd u v =
        2 ^ min (ctz_loop 32 u) (ctz_loop 32 v) *
          Nat.gcd (u >>> ctz_loop 32 u) (v >>> ctz_loop 32 v) := by
      conv_lhs => rw [hum, hvm]
      exact gcd_pow_two _ _ _ _ huo hvo
    have hshift : Nat.gcd (u >>> ctz_loop 32 u) v <<< min (ctz_loop 32 u) (ctz_loop 32 v) =
        Nat.gcd u v := by
      rw [Nat.shiftLeft_eq, hgv, hgcd, Nat.mul_comm]
    refine ⟨_, _, Nat.gcd (u >>> ctz_loop 32 u) v, hcor, hcu, ?_, hshift, ?_⟩
    · intro fuel hf
      exact binary_gcd_loop_spec fuel _ v huo hvp (lt_of_le_of_lt hule hu) hv (by omega)
    · rw [hshift]
      exact lt_of_le_of_lt (Nat.gcd_le_left v hup) hu
  refine ⟨?_, hzero, hzero2, hmain⟩
  by_cases hu0 : u = 0
  · subst hu0
    rw [hzero, Nat.gcd_zero_left]
  · by_cases hv0 : v = 0
    · subst hv0
      rw [hzero2, Nat.gcd_zero_right]
    · obtain ⟨shift, s, r, hc1, hc2, hloop, hsh, hlt⟩ := hmain hu0 hv0
      simp only [binary_gcd, if_neg hu0, if_neg hv0, hc1, hc2, hloop (u + v) (Nat.le_refl _),
        Option.map_some']
      simp only [Nat.reducePow] at hlt
      rw [Nat.mod_eq_of_lt hlt, hsh]

/-- Witness of `binary_gcd_is_gcd`: 48 and 180. -/
theorem binary_gcd_is_gcd_witness :
    48 < 2 ^ 32 ∧ 180 < 2 ^ 32 ∧
    binary_gcd 48 180 = some (Nat.gcd 48 180) ∧
    binary_gcd 0 180 = some 180 ∧ binary_gcd 48 0 = some 48 ∧
    (48 ≠ 0 → 180 ≠ 0 →
      ∃ shift s r, ctz (48 ||| 180) = some shift ∧ ctz 48 = some s ∧
        (∀ fuel, 48 + 180 ≤ fuel → binary_gcd_loop fuel (48 >>> s) 180 = some r) ∧
        r <<< shift = Nat.gcd 48 180 ∧ r <<< shift < 2 ^ 32) :=
  ⟨by decide, by decide, binary_gcd_is_gcd 48 180 (by decide) (by decide)⟩

/-- Runs of `binary_gcd`, evaluated. -/
theorem binary_gcd_example :
    binary_gcd 48 180 = some 12 ∧ binary_gcd 0 0 = some 0 ∧ binary_gcd 17 5 = some 1 ∧
    binary_gcd 4294967295 4294967295 = some 4294967295 ∧
    binary_gcd 2147483648 2147483648 = some 2147483648 := by
  decide

set_option maxRecDepth 100000 in
/-- C5 fails for `clone_dir`, `link_dir` and `mv_dir` on a tree with a directory
that cannot be opened: on `/tmp/a/{priv/{secret}, sub/{g}, f}` with `priv`
sealed, `xopenat(src, "priv")` returns -1, the call on that directory gets a
null stream from `xopen_dir(-1)` and hands it to `xreaddir` without the test
the two walkers make, so none of the three calls returns (`none`), with
descriptors 3 and 4 still open and the descriptor opened on `/tmp/b/priv` never
closed. The walkers return on the same tree, and the three calls return on the
trees all of whose directories open. -/
theorem tree_operations_read_null_stream :
    two_dirs.lookup 3 = some ["tmp", "a"] ∧ two_dirs.lookup 4 = some ["tmp", "b"] ∧
    sealed_sys.fdListing two_dirs 3 =
      Listing.entry ⟨"priv", DT_DIR⟩ true
        (Listing.entry ⟨"secret", DT_REG⟩ true Listing.done Listing.done)
        (Listing.entry ⟨"sub", DT_DIR⟩ true
          (Listing.entry ⟨"g", DT_REG⟩ true Listing.done Listing.done)
          (Listing.entry ⟨"f", DT_REG⟩ true Listing.done Listing.done)) ∧
    clone_dir zero_attr 3 4 sealed_tree (two_dirs, sealed_sys) = none ∧
    link_dir zero_attr 3 4 sealed_tree (two_dirs, sealed_sys) = none ∧
    mv_dir 3 4 sealed_tree (two_dirs, sealed_sys) = none ∧
    (post_order_walk post_nothing 3 sealed_tree (two_dirs, ())).1.lookup 3 = none ∧
    (pre_order_walk always_continue 3 sealed_tree (two_dirs, ())).2.1.lookup 3 = none ∧
    (clone_dir zero_attr 3 4 (sealed_sys.fdListing two_dirs 3) (two_dirs, sealed_sys)).isSome
      = true := by
  refine ⟨by decide, by decide, by decide, by decide, by decide, by decide, by decide,
    by decide, by decide⟩

end Magisk
